import Mathlib

/-!
# RawTherapee flat curves (`rtengine/flatcurves.cc`)

A shallow embedding of `FlatCurve::FlatCurve`, `FlatCurve::CtrlPoints_set` and
`FlatCurve::getVal`, and proofs about them.

Conventions of the embedding.

* The code is embedded twice, with the same control flow.
  In the first embedding a C++ `double` is an exact rational (`ℚ`) and
  `+ - * /` are exact. It carries the claims on what the code copies, compares
  and counts: the parsing, the cells written and read, the brackets of the
  search, the collapse of the handles, the sample counts.
  In the second, the namespace `rtengine.Double`, a `double` is a rational that
  the rounding `R` leaves unchanged and every `+ - * /` is the exact operation
  followed by `R`; `binary64` is the rounding of IEEE 754 double precision. It
  carries the claims on values the code computes: the abscissae of the
  handles, the order of the samples, the value `getVal` returns.
* A division by zero, which in C++ yields an infinity or a NaN, is the fault
  `Fault.notFinite`.
* `sqrt` (from `math.h`) is a parameter `sqrt : ℚ → ℚ` of the embedding; no
  property of it is assumed. `sqrt64` is the correctly rounded square root, for
  the evaluation at concrete curves.
* `std::vector` and `new double[n]` storage are lists. A `push_back`, or a
  write at the running write index, appends. A read of a `std::vector` past
  its end is the fault `Fault.outOfBounds`.
* `int` values are unbounded integers: the sizes involved stay far below `2^31`.
  The conversion `(FlatCurveType)p[0]` of line 41 checks the range of `int`
  (`toKind`).
-/

namespace rtengine

/-- The ways in which the C++ code fails to deliver a finite value. -/
inductive Fault where
  /-- A read of a `std::vector` at an index that is not below its size. -/
  | outOfBounds
  /-- A division by zero: the C++ value is an infinity or a NaN. -/
  | notFinite
  /-- The call `exit(0)` at line 261. -/
  | exit
  /-- A conversion of a `double` to an integer type that cannot hold the truncated
  value: C++ leaves the result undefined. -/
  | undefined
  deriving DecidableEq, Repr

deriving instance DecidableEq for Except

/-- The C++ conversion of a `double` to `int` (or to an enum): truncation toward zero. -/
def toInt (q : ℚ) : Int := Int.tdiv q.num q.den

/-- The conversion `(FlatCurveType)p[0]` of line 41: the `double` is truncated toward zero
and the result must be a value of `int`, from `-2^31` to `2^31 - 1`; outside this range
C++ leaves the conversion undefined, a fault here. -/
def toKind (q : ℚ) : Except Fault Int :=
  if -2147483648 ≤ toInt q ∧ toInt q ≤ 2147483647 then .ok (toInt q) else .error .undefined

/-- Modelled from the spec: the enumerator `FCT_Empty` of `FlatCurveType`, declared in
`curves.h`, which is not among the sources. The spec (§6) gives `0 = Empty`. -/
def FCT_Empty : Int := 0

/-- Modelled from the spec: the enumerator `FCT_Linear` of `FlatCurveType`, declared in
`curves.h`, which is not among the sources. The spec (§6) gives `1 = Linear`. -/
def FCT_Linear : Int := 1

/-- Modelled from the spec: the enumerator `FCT_MinMaxCPoints` of `FlatCurveType`, declared
in `curves.h`, which is not among the sources. The spec (§6) gives
`2 = MinMaxControlPoints`. -/
def FCT_MinMaxCPoints : Int := 2

/-- The data members of `FlatCurve` that the three functions use. `x`, `y`, `leftTangent`
and `rightTangent` are the arrays allocated with `new double[N+1]`. -/
structure FlatCurve where
  kind : Int
  ppn : Int
  N : Nat
  x : List ℚ
  y : List ℚ
  leftTangent : List ℚ
  rightTangent : List ℚ
  poly_x : List ℚ
  poly_y : List ℚ
  deriving DecidableEq

/-- The four arrays filled by the constructor's loop (lines 49-54). -/
structure CtrlArrays where
  x : List ℚ
  y : List ℚ
  leftTangent : List ℚ
  rightTangent : List ℚ
  deriving DecidableEq

/-- The loop `for (int i=0; i<N; i++)` of the constructor (lines 49-54). The first
argument is the number of iterations left, `ix` is the running read index into `p`,
and the arrays are written at index `i`, their current length. The reads `p[ix++]`
stay below `p.size()` because `4*N <= p.size()-1`. -/
def readPoints (p : List ℚ) : Nat → Nat → CtrlArrays → CtrlArrays
  | 0, _, a => a
  | n + 1, ix, a =>
    readPoints p n (ix + 4)
      { x := a.x ++ [p.getD ix 0]
        y := a.y ++ [p.getD (ix + 1) 0]
        leftTangent := a.leftTangent ++ [p.getD (ix + 2) 0]
        rightTangent := a.rightTangent ++ [p.getD (ix + 3) 0] }

/-- The scratch vectors of `CtrlPoints_set` (lines 83-87). The write indices `j` and `k`
of the source are the lengths of `sc_x` and of `sc_length`. -/
structure SubCurves where
  sc_x : List ℚ
  sc_y : List ℚ
  sc_length : List ℚ
  sc_isLinear : List Bool
  total_length : ℚ
  deriving DecidableEq

/-- A two-point sub-curve from `(xa, ya)` to `(xb, yb)`: the block at lines 107-122, and
again at lines 149-163 and 193-207. -/
def SubCurves.line (sqrt : ℚ → ℚ) (s : SubCurves) (xa ya xb yb : ℚ) : SubCurves :=
  let dx := xb - xa
  let dy := yb - ya
  let length := sqrt (dx * dx + dy * dy)
  { sc_x := s.sc_x ++ [xa, xb]
    sc_y := s.sc_y ++ [ya, yb]
    sc_length := s.sc_length ++ [length]
    sc_isLinear := s.sc_isLinear ++ [true]
    total_length := s.total_length + length }

/-- A three-point sub-curve `(xa, ya)`, `(xb, yb)`, `(xc, yc)`: the block at lines 167-189,
and again at lines 211-233. -/
def SubCurves.arc (sqrt : ℚ → ℚ) (s : SubCurves) (xa ya xb yb xc yc : ℚ) : SubCurves :=
  let dx := xb - xa
  let dy := yb - ya
  let length := sqrt (dx * dx + dy * dy)
  let dx := xc - xb
  let dy := yc - yb
  let length := length + sqrt (dx * dx + dy * dy)
  { sc_x := s.sc_x ++ [xa, xb, xc]
    sc_y := s.sc_y ++ [ya, yb, yc]
    sc_length := s.sc_length ++ [length]
    sc_isLinear := s.sc_isLinear ++ [false]
    total_length := s.total_length + length }

/-- One iteration of the first loop of `CtrlPoints_set` (lines 95-237), for the interval
between the control points `i` and `i+1`. -/
def subCurvesStep (sqrt : ℚ → ℚ) (c : FlatCurve) (s : SubCurves) (i : Nat) : SubCurves :=
  let xi := c.x.getD i 0
  let yi := c.y.getD i 0
  let xi1 := c.x.getD (i + 1) 0
  let yi1 := c.y.getD (i + 1) 0
  let rt := c.rightTangent.getD i 0
  let lt := c.leftTangent.getD (i + 1) 0
  let startLinear : Bool := decide (rt = 0) || decide (yi = yi1)
  let endLinear : Bool := decide (lt = 0) || decide (yi = yi1)
  if startLinear && endLinear then
    s.line sqrt xi yi xi1 yi1
  else
    let xp1 := if startLinear then xi else (xi1 - xi) * rt + xi
    let xp3 := if endLinear then xi1 else (xi - xi1) * lt + xi1
    let xp2 := (xp1 + xp3) / 2
    let yp2 := (yi + yi1) / 2
    let xp1 := if rt + lt > 1 then xp2 else xp1
    let xp3 := if rt + lt > 1 then xp2 else xp3
    let s := if startLinear then s.line sqrt xi yi xp2 yp2
             else s.arc sqrt xi yi xp1 yi xp2 yp2
    if endLinear then s.line sqrt xp2 yp2 xi1 yi1
    else s.arc sqrt xp2 yp2 xp3 yi1 xi1 yi1

/-- The first loop of `CtrlPoints_set` (lines 95-237), over the intervals `0 .. N-1`. -/
def subCurves (sqrt : ℚ → ℚ) (c : FlatCurve) : SubCurves :=
  (List.range c.N).foldl (subCurvesStep sqrt c)
    { sc_x := [], sc_y := [], sc_length := [], sc_isLinear := [], total_length := 0 }

/-- Modelled from the spec: `Curve::AddPolygons`, defined in another file of the
repository that is not among the sources. It is called at line 268 with the members
`nbr_points`, `increment`, `x1 .. y3` set at lines 257-267. The spec (§4.2) says the
half-arc is flattened into `count` points by stepping `u` from 0 to 1 in increments of
`1/(count-1)` and evaluating the Bezier formula for x and y at each `u`, that a piece
shares its first point with the previous piece (no duplicate at the joint), and that the
tessellation always includes the exact end points. So the sample at `u = 0` is not
emitted, the samples at `u = k * increment` for `1 <= k < count-1` are, and the last
sample is the end point `(x3, y3)` itself. With three control points the Bezier formula
is `(1-u)^2 * P1 + 2*u*(1-u) * P2 + u^2 * P3`. -/
def AddPolygons (nbr_points : Int) (increment x1 y1 x2 y2 x3 y3 : ℚ)
    (poly : List ℚ × List ℚ) : List ℚ × List ℚ :=
  let us := (List.range (nbr_points - 2).toNat).map fun (k : Nat) => ((k : ℚ) + 1) * increment
  let bx := fun u : ℚ => (1 - u) * (1 - u) * x1 + 2 * u * (1 - u) * x2 + u * u * x3
  let by_ := fun u : ℚ => (1 - u) * (1 - u) * y1 + 2 * u * (1 - u) * y2 + u * u * y3
  (poly.1 ++ us.map bx ++ [x3], poly.2 ++ us.map by_ ++ [y3])

/-- The second loop of `CtrlPoints_set` (lines 250-270). The first argument is the number
of iterations left, `i` the index of the sub-curve, `j` the read index into `sc_x` and
`sc_y`, `poly` the pair `(poly_x, poly_y)`. A zero `total_length` makes the quotient at
line 257 an infinity or a NaN, whose conversion to `int` is undefined: a fault. For
`nbr_points = 1` the C++ `increment` is an infinity and the value here is `1/0 = 0`;
`AddPolygons` does not use it then, having no interior sample to place. -/
def polyLoop (s : SubCurves) (ppn : Int) :
    Nat → Nat → Nat → List ℚ × List ℚ → Except Fault (List ℚ × List ℚ)
  | 0, _, _, poly => .ok poly
  | n + 1, i, j, poly =>
    match s.sc_isLinear[i]? with
    | none => .error .outOfBounds
    | some true =>
      match s.sc_x[j + 1]?, s.sc_y[j + 1]? with
      | some a, some b => polyLoop s ppn n (i + 1) (j + 2) (poly.1 ++ [a], poly.2 ++ [b])
      | _, _ => .error .outOfBounds
    | some false =>
      match s.sc_length[i]? with
      | none => .error .outOfBounds
      | some len =>
        if s.total_length = 0 then .error .notFinite
        else
          let nbr_points := toInt ((ppn : ℚ) * len / s.total_length)
          if nbr_points < 0 then .error .exit
          else
            let increment := 1 / (((nbr_points - 1 : Int) : ℚ))
            match s.sc_x[j]?, s.sc_y[j]?, s.sc_x[j + 1]?, s.sc_y[j + 1]?,
                  s.sc_x[j + 2]?, s.sc_y[j + 2]? with
            | some x1, some y1, some x2, some y2, some x3, some y3 =>
              polyLoop s ppn n (i + 1) (j + 3)
                (AddPolygons nbr_points increment x1 y1 x2 y2 x3 y3 poly)
            | _, _, _, _, _, _ => .error .outOfBounds

/-- The function `FlatCurve::CtrlPoints_set` (lines 79-283): builds the polyline of the
curve. `exit(0)` at line 261 and the conversion of a non-finite `double` to `int` at line
257 are faults. -/
def FlatCurve.CtrlPoints_set (sqrt : ℚ → ℚ) (c : FlatCurve) : Except Fault FlatCurve :=
  let s := subCurves sqrt c
  match s.sc_x[0]?, s.sc_y[0]? with
  | some a, some b =>
    match polyLoop s c.ppn s.sc_length.length 0 0 ([a], [b]) with
    | .ok poly => .ok { c with poly_x := poly.1, poly_y := poly.2 }
    | .error e => .error e
  | _, _ => .error .outOfBounds

/-- The constructor `FlatCurve::FlatCurve` (lines 32-66). When the kind is not
`FCT_MinMaxCPoints` the members `N`, `x`, `y`, `leftTangent`, `rightTangent` are left unset
by the source; they are never read then, and the embedding gives them the values `0` and
`[]`. A first value that has no conversion to the kind (`toKind`) is a fault. -/
def FlatCurve.construct (sqrt : ℚ → ℚ) (p : List ℚ) (poly_pn : Int) :
    Except Fault FlatCurve :=
  let c : FlatCurve :=
    { kind := FCT_Empty, ppn := poly_pn, N := 0, x := [], y := [], leftTangent := [],
      rightTangent := [], poly_x := [], poly_y := [] }
  if p.length > 4 then
    match toKind (p.getD 0 0) with
    | .error e => .error e
    | .ok kind =>
      if kind = FCT_MinMaxCPoints then
        let N := (p.length - 1) / 4
        let a := readPoints p N 1 { x := [], y := [], leftTangent := [], rightTangent := [] }
        let c : FlatCurve :=
          { c with
            kind := kind
            N := N
            x := a.x ++ [p.getD 1 0 + 1]
            y := a.y ++ [p.getD 2 0]
            leftTangent := a.leftTangent ++ [p.getD 3 0]
            rightTangent := a.rightTangent ++ [p.getD 4 0] }
        if N > 1 then c.CtrlPoints_set sqrt else .ok c
      else .ok { c with kind := kind }
  else .ok c

/-- The binary search of `getVal` (lines 304-311): returns the final `(k_lo, k_hi)`. -/
def search (poly_x : List ℚ) (t : ℚ) (k_lo k_hi : Nat) : Except Fault (Nat × Nat) :=
  if k_hi - k_lo > 1 then
    match poly_x[(k_hi + k_lo) / 2]? with
    | none => .error .outOfBounds
    | some v =>
      if v > t then search poly_x t k_lo ((k_hi + k_lo) / 2)
      else search poly_x t ((k_hi + k_lo) / 2) k_hi
  else .ok (k_lo, k_hi)
termination_by k_hi - k_lo
decreasing_by all_goals omega

/-- The lookup of `getVal` after the periodicity adjustment (lines 304-314): the binary
search for the interval of `t` and the linear interpolation in it. -/
def FlatCurve.lookup (c : FlatCurve) (t : ℚ) : Except Fault ℚ :=
  match search c.poly_x t 0 (c.poly_x.length - 1) with
  | .error e => .error e
  | .ok (k_lo, k_hi) =>
    match c.poly_x[k_hi]?, c.poly_x[k_lo]?, c.poly_y[k_lo]?, c.poly_y[k_hi]? with
    | some xh, some xl, some yl, some yh =>
      let h := xh - xl
      if h = 0 then .error .notFinite
      else .ok (yl + (t - xl) * (yh - yl) / h)
    | _, _, _, _ => .error .outOfBounds

/-- The function `FlatCurve::getVal (double t)` (lines 285-325). -/
def FlatCurve.getVal (c : FlatCurve) (t : ℚ) : Except Fault ℚ :=
  if c.kind = FCT_MinMaxCPoints then
    match c.poly_x[0]? with
    | none => .error .outOfBounds
    | some x0 => c.lookup (if t < x0 then t + 1 else t)
  else .ok t

/-! ## A view of the sub-curves by pieces

The definitions of this section are not in the source. They describe what the two loops
of `CtrlPoints_set` write and read, piece by piece, and are related to the embedding of
the loops by `subCurvesStep_eq` and `polyLoop_pieces`. -/

/-- A sub-curve as the first loop writes it: its two or three points and its length. -/
inductive Piece where
  | line (xa ya xb yb len : ℚ)
  | arc (xa ya xb yb xc yc len : ℚ)
  deriving DecidableEq

/-- The values a piece appends to `sc_x`. -/
def Piece.xs : Piece → List ℚ
  | .line xa _ xb _ _ => [xa, xb]
  | .arc xa _ xb _ xc _ _ => [xa, xb, xc]

/-- The values a piece appends to `sc_y`. -/
def Piece.ys : Piece → List ℚ
  | .line _ ya _ yb _ => [ya, yb]
  | .arc _ ya _ yb _ yc _ => [ya, yb, yc]

/-- The value a piece appends to `sc_length`. -/
def Piece.len : Piece → ℚ
  | .line _ _ _ _ len => len
  | .arc _ _ _ _ _ _ len => len

/-- The value a piece appends to `sc_isLinear`. -/
def Piece.isLinear : Piece → Bool
  | .line _ _ _ _ _ => true
  | .arc _ _ _ _ _ _ _ => false

/-- The scratch vectors after one more piece. -/
def SubCurves.add (s : SubCurves) (p : Piece) : SubCurves :=
  { sc_x := s.sc_x ++ p.xs
    sc_y := s.sc_y ++ p.ys
    sc_length := s.sc_length ++ [p.len]
    sc_isLinear := s.sc_isLinear ++ [p.isLinear]
    total_length := s.total_length + p.len }

/-- The piece written by `SubCurves.line`. -/
def mkLine (sqrt : ℚ → ℚ) (xa ya xb yb : ℚ) : Piece :=
  .line xa ya xb yb (sqrt ((xb - xa) * (xb - xa) + (yb - ya) * (yb - ya)))

/-- The piece written by `SubCurves.arc`. -/
def mkArc (sqrt : ℚ → ℚ) (xa ya xb yb xc yc : ℚ) : Piece :=
  .arc xa ya xb yb xc yc
    (sqrt ((xb - xa) * (xb - xa) + (yb - ya) * (yb - ya))
      + sqrt ((xc - xb) * (xc - xb) + (yc - yb) * (yc - yb)))

/-- The pieces of one interval, from its two end points and the two tangents that act on
it: the case analysis of `subCurvesStep`. -/
def piecesOf (sqrt : ℚ → ℚ) (xi yi xi1 yi1 rt lt : ℚ) : List Piece :=
  let startLinear : Bool := decide (rt = 0) || decide (yi = yi1)
  let endLinear : Bool := decide (lt = 0) || decide (yi = yi1)
  if startLinear && endLinear then
    [mkLine sqrt xi yi xi1 yi1]
  else
    let xp1 := if startLinear then xi else (xi1 - xi) * rt + xi
    let xp3 := if endLinear then xi1 else (xi - xi1) * lt + xi1
    let xp2 := (xp1 + xp3) / 2
    let yp2 := (yi + yi1) / 2
    let xp1 := if rt + lt > 1 then xp2 else xp1
    let xp3 := if rt + lt > 1 then xp2 else xp3
    [if startLinear then mkLine sqrt xi yi xp2 yp2 else mkArc sqrt xi yi xp1 yi xp2 yp2,
     if endLinear then mkLine sqrt xp2 yp2 xi1 yi1 else mkArc sqrt xp2 yp2 xp3 yi1 xi1 yi1]

/-- The pieces of interval `i` of a curve. -/
def intervalPieces (sqrt : ℚ → ℚ) (c : FlatCurve) (i : Nat) : List Piece :=
  piecesOf sqrt (c.x.getD i 0) (c.y.getD i 0) (c.x.getD (i + 1) 0) (c.y.getD (i + 1) 0)
    (c.rightTangent.getD i 0) (c.leftTangent.getD (i + 1) 0)

/-- All the pieces of a curve, in the order the first loop writes them. -/
def allPieces (sqrt : ℚ → ℚ) (c : FlatCurve) : List Piece :=
  (List.range c.N).flatMap (intervalPieces sqrt c)

/-- The Bezier formula of `AddPolygons` for one coordinate. -/
def bez (u a b c : ℚ) : ℚ := (1 - u) * (1 - u) * a + 2 * u * (1 - u) * b + u * u * c

/-- The samples `AddPolygons` appends for `nbr_points = n`, as points. -/
def arcSamples (n : Int) (x1 y1 x2 y2 x3 y3 : ℚ) : List (ℚ × ℚ) :=
  ((List.range (n - 2).toNat).map fun (k : Nat) =>
      (bez (((k : ℚ) + 1) * (1 / (((n - 1 : Int) : ℚ)))) x1 x2 x3,
       bez (((k : ℚ) + 1) * (1 / (((n - 1 : Int) : ℚ)))) y1 y2 y3))
    ++ [(x3, y3)]

/-- The samples the second loop appends for one piece. -/
def pieceSamples (ppn : Int) (total : ℚ) : Piece → List (ℚ × ℚ)
  | .line _ _ xb yb _ => [(xb, yb)]
  | .arc xa ya xb yb xc yc len =>
    arcSamples (toInt ((ppn : ℚ) * len / total)) xa ya xb yb xc yc

/-- The samples the second loop appends for interval `i`. -/
def intervalSamples (sqrt : ℚ → ℚ) (c : FlatCurve) (total : ℚ) (i : Nat) : List (ℚ × ℚ) :=
  (intervalPieces sqrt c i).flatMap (pieceSamples c.ppn total)

/-- What the constructor stores for a `FCT_MinMaxCPoints` list before the polyline is
built (lines 43-59), in closed form. -/
def ctrlOf (p : List ℚ) (poly_pn : Int) : FlatCurve :=
  { kind := FCT_MinMaxCPoints, ppn := poly_pn, N := (p.length - 1) / 4
    x := ((List.range ((p.length - 1) / 4)).map fun i => p.getD (1 + 4 * i) 0)
          ++ [p.getD 1 0 + 1]
    y := ((List.range ((p.length - 1) / 4)).map fun i => p.getD (2 + 4 * i) 0) ++ [p.getD 2 0]
    leftTangent :=
      ((List.range ((p.length - 1) / 4)).map fun i => p.getD (3 + 4 * i) 0) ++ [p.getD 3 0]
    rightTangent :=
      ((List.range ((p.length - 1) / 4)).map fun i => p.getD (4 + 4 * i) 0) ++ [p.getD 4 0]
    poly_x := [], poly_y := [] }

/-- The abscissa at which a piece starts. -/
def Piece.a : Piece → ℚ
  | .line xa _ _ _ _ => xa
  | .arc xa _ _ _ _ _ _ => xa

/-- The abscissa at which a piece ends. -/
def Piece.b : Piece → ℚ
  | .line _ _ xb _ _ => xb
  | .arc _ _ _ _ xc _ _ => xc

/-- The point at which a piece ends. -/
def Piece.endPt : Piece → ℚ × ℚ
  | .line _ _ xb yb _ => (xb, yb)
  | .arc _ _ _ _ xc yc _ => (xc, yc)

/-- The abscissae of the points of a piece are in order. -/
def Piece.Ordered : Piece → Prop
  | .line xa _ xb _ _ => xa ≤ xb
  | .arc xa _ xb _ xc _ _ => xa ≤ xb ∧ xb ≤ xc

/-- The samples the second loop appends for an interval, from its two end points and the
two tangents that act on it. -/
def samplesOf (sqrt : ℚ → ℚ) (ppn : Int) (total xi yi xi1 yi1 rt lt : ℚ) : List (ℚ × ℚ) :=
  (piecesOf sqrt xi yi xi1 yi1 rt lt).flatMap (pieceSamples ppn total)

/-- The points of the polyline of a curve, as the two loops of `CtrlPoints_set` build it:
the first control point, then the samples of the intervals `0 .. N-1`. -/
def polyPts (sqrt : ℚ → ℚ) (c : FlatCurve) : List (ℚ × ℚ) :=
  (c.x.getD 0 0, c.y.getD 0 0) ::
    (List.range c.N).flatMap (intervalSamples sqrt c (subCurves sqrt c).total_length)

/-- A first point followed by the samples of the intervals `0 .. i-1`. -/
def ptsUpTo (X Y : Nat → ℚ) (S : Nat → List (ℚ × ℚ)) (i : Nat) : List (ℚ × ℚ) :=
  (X 0, Y 0) :: (List.range i).flatMap S

/-- A valid `FCT_MinMaxCPoints` parameter list: more than 4 values, the tag, `N >= 2`
control points with `x` in `[0,1)`, `y` and both tangents in `[0,1]`, and `x` strictly
increasing. -/
def ValidParams (p : List ℚ) : Prop :=
  4 < p.length ∧ toInt (p.getD 0 0) = FCT_MinMaxCPoints ∧ 2 ≤ (p.length - 1) / 4 ∧
  (∀ i, i < (p.length - 1) / 4 →
    (0 ≤ p.getD (1 + 4 * i) 0 ∧ p.getD (1 + 4 * i) 0 < 1) ∧
    (0 ≤ p.getD (2 + 4 * i) 0 ∧ p.getD (2 + 4 * i) 0 ≤ 1) ∧
    (0 ≤ p.getD (3 + 4 * i) 0 ∧ p.getD (3 + 4 * i) 0 ≤ 1) ∧
    (0 ≤ p.getD (4 + 4 * i) 0 ∧ p.getD (4 + 4 * i) 0 ≤ 1)) ∧
  (∀ i, i < (p.length - 1) / 4 - 1 → p.getD (1 + 4 * i) 0 < p.getD (1 + 4 * (i + 1)) 0)

instance (p : List ℚ) : Decidable (ValidParams p) := by
  unfold ValidParams
  infer_instance

/-! ### The batch evaluator and the loop of the binary search -/

/-- The call `res.resize (n)` of `std::vector<double>`: the first `n` values are kept,
missing ones are value-initialised to `0`. -/
def resize (res : List ℚ) (n : Nat) : List ℚ :=
  res.take n ++ List.replicate (n - res.length) 0

/-- The loop of the batch `getVal` (lines 332-333). The first argument is the number of
iterations left, `i` the loop index. The read `t[i]` and the write `res[i]` are checked
against the sizes of the vectors. -/
def getValLoop (c : FlatCurve) (t : List ℚ) : Nat → Nat → List ℚ → Except Fault (List ℚ)
  | 0, _, res => .ok res
  | n + 1, i, res =>
    match t[i]? with
    | none => .error .outOfBounds
    | some ti =>
      match c.getVal ti with
      | .error e => .error e
      | .ok v =>
        if i < res.length then getValLoop c t n (i + 1) (res.set i v)
        else .error .outOfBounds

/-- The function `FlatCurve::getVal (const std::vector<double>& t, std::vector<double>& res)`
(lines 327-334); the result is the final content of `res`. -/
def FlatCurve.getValVector (c : FlatCurve) (t res : List ℚ) : Except Fault (List ℚ) :=
  getValLoop c t t.length 0 (resize res t.length)

/-- The body of the `while` loop of the binary search (lines 306-310), run on a state
`(k_lo, k_hi)` on which the loop test `k_hi - k_lo > 1` holds. -/
def searchBody (poly_x : List ℚ) (t : ℚ) (st : Nat × Nat) : Except Fault (Nat × Nat) :=
  match poly_x[(st.2 + st.1) / 2]? with
  | none => .error .outOfBounds
  | some v => if v > t then .ok (st.1, (st.2 + st.1) / 2) else .ok ((st.2 + st.1) / 2, st.2)

/-- The `while` loop of the binary search (lines 305-311) run for at most `n` iterations:
`some st` is the state on which the loop test failed, `none` says that the test still
holds after `n` iterations. -/
def searchLoop (poly_x : List ℚ) (t : ℚ) : Nat → Nat × Nat → Except Fault (Option (Nat × Nat))
  | 0, st => if st.2 - st.1 > 1 then .ok none else .ok (some st)
  | n + 1, st =>
    if st.2 - st.1 > 1 then
      match searchBody poly_x t st with
      | .error e => .error e
      | .ok st' => searchLoop poly_x t n st'
    else .ok (some st)

/-! ### Quantities of the first loop named by the claims -/

/-- The abscissae `xp1`, `xp2`, `xp3` of an interval that is not a single line, as lines
125-145 compute them: the two handles, their midpoint, and the collapse of both handles
on the midpoint when `rightTangent[i] + leftTangent[i+1] > 1.0`. The result is
`(xp1, xp2, xp3)` after line 145. -/
def handleAbscissae (xi yi xi1 yi1 rt lt : ℚ) : ℚ × ℚ × ℚ :=
  let startLinear : Bool := decide (rt = 0) || decide (yi = yi1)
  let endLinear : Bool := decide (lt = 0) || decide (yi = yi1)
  let xp1 := if startLinear then xi else (xi1 - xi) * rt + xi
  let xp3 := if endLinear then xi1 else (xi - xi1) * lt + xi1
  let xp2 := (xp1 + xp3) / 2
  let xp1 := if rt + lt > 1 then xp2 else xp1
  let xp3 := if rt + lt > 1 then xp2 else xp3
  (xp1, xp2, xp3)

/-- The length the first loop computes from the points of a piece: for a line the
distance `sqrt (dx*dx + dy*dy)` between its two points (lines 114-116), for a three-point
piece the sum of the distances from the first point to the second and from the second to
the third (lines 172-174 and 181-183). -/
def Piece.polyLen (sqrt : ℚ → ℚ) : Piece → ℚ
  | .line xa ya xb yb _ => sqrt ((xb - xa) * (xb - xa) + (yb - ya) * (yb - ya))
  | .arc xa ya xb yb xc yc _ =>
    sqrt ((xb - xa) * (xb - xa) + (yb - ya) * (yb - ya))
      + sqrt ((xc - xb) * (xc - xb) + (yc - yb) * (yc - yb))

/-- The values `nbr_points` takes at line 257, one for each non-linear sub-curve, in the
order of the second loop. -/
def nbrPointsList (s : SubCurves) (ppn : Int) : List Int :=
  (List.zip s.sc_isLinear s.sc_length).filterMap fun fl =>
    if fl.1 then none else some (toInt ((ppn : ℚ) * fl.2 / s.total_length))

/-- What the claims on lengths use of `sqrt`: it is never negative, and positive on
positive arguments. -/
structure SqrtOK (sqrt : ℚ → ℚ) : Prop where
  nonneg : ∀ a, 0 ≤ sqrt a
  pos : ∀ a, 0 < a → 0 < sqrt a

/-- The scratch vectors after the first `i` iterations of the first loop. -/
def subCurvesUpTo (sqrt : ℚ → ℚ) (c : FlatCurve) (i : Nat) : SubCurves :=
  (List.range i).foldl (subCurvesStep sqrt c)
    { sc_x := [], sc_y := [], sc_length := [], sc_isLinear := [], total_length := 0 }

/-- Two points, a curved first interval with both tangents `1/2`, and a straight closing
interval. -/
def halfParams : List ℚ := [2, 0, 0, 0, 1/2, 1/4, 1, 1/2, 0]

/-- The curve the constructor builds from `halfParams` with a budget of 20. -/
def halfCurve : FlatCurve :=
  { kind := 2, ppn := 20, N := 2, x := [0, 1/4, 1], y := [0, 1, 0],
    leftTangent := [0, 1/2, 0], rightTangent := [1/2, 0, 1/2],
    poly_x := [0, 7/128, 3/32, 15/128, 1/8, 17/128, 5/32, 25/128, 1/4, 1],
    poly_y := [0, 1/32, 1/8, 9/32, 1/2, 23/32, 7/8, 31/32, 1, 0] }

/-- The curve the constructor builds from `halfParams` with a budget of 0: no half-arc
gets an interior sample. -/
def halfCurveZero : FlatCurve :=
  { kind := 2, ppn := 0, N := 2, x := [0, 1/4, 1], y := [0, 1, 0],
    leftTangent := [0, 1/2, 0], rightTangent := [1/2, 0, 1/2],
    poly_x := [0, 1/8, 1/4, 1], poly_y := [0, 1/2, 1, 0] }

/-- A `FCT_MinMaxCPoints` parameter list with `N >= 2` control points whose `x` are
strictly increasing; nothing is asked of `y` and of the tangents. -/
def OrderedParams (p : List ℚ) : Prop :=
  4 < p.length ∧ toInt (p.getD 0 0) = FCT_MinMaxCPoints ∧ 2 ≤ (p.length - 1) / 4 ∧
  (∀ i, i < (p.length - 1) / 4 - 1 → p.getD (1 + 4 * i) 0 < p.getD (1 + 4 * (i + 1)) 0)

instance (p : List ℚ) : Decidable (OrderedParams p) := by
  unfold OrderedParams
  infer_instance

/-! ### Example curves -/

/-- Two points, a curved first interval (both tangents `3/4`) and a straight closing
interval. -/
def arcParams : List ℚ := [2, 0, 0, 0, 3/4, 1/4, 1, 3/4, 0]

/-- The curve the constructor builds from `arcParams` with a budget of 20. -/
def arcCurve : FlatCurve :=
  { kind := 2, ppn := 20, N := 2, x := [0, 1/4, 1], y := [0, 1, 0],
    leftTangent := [0, 3/4, 0], rightTangent := [3/4, 0, 3/4],
    poly_x := [0, 7/128, 3/32, 15/128, 1/8, 17/128, 5/32, 25/128, 1/4, 1],
    poly_y := [0, 1/32, 1/8, 9/32, 1/2, 23/32, 7/8, 31/32, 1, 0] }

/-! ## The same code in double arithmetic

In the definitions above `+ - * /` are exact. The definitions of this section embed the
same lines of the source with the arithmetic of `double`: a `double` is a rational that
the rounding `R` leaves unchanged, and every `+ - * /` of the source is the exact
operation followed by `R`: each operation rounds once, to `double`, without extended
precision and without fused multiply-add. Comparisons and copies are exact. `binary64` is
the rounding of IEEE 754 double precision (to nearest, ties to even, gradual underflow);
results beyond the largest finite `double` are not modelled. -/

/-- What the claims use of the rounding `R` of double arithmetic: it is monotone, leaves
its own values (the doubles) unchanged, `0` and `1` are doubles, twice a double is a
double, and the difference of two distinct doubles does not round to `0`. -/
structure RoundOK (R : ℚ → ℚ) : Prop where
  mono : ∀ a b, a ≤ b → R a ≤ R b
  idem : ∀ a, R (R a) = R a
  zero : R 0 = 0
  one : R 1 = 1
  twice : ∀ a, R (2 * R a) = 2 * R a
  sub_pos : ∀ a b, R a = a → R b = b → a < b → 0 < R (b - a)

/-- The value `2^k` for an integer exponent `k`. -/
def pow2 (k : Int) : ℚ :=
  if 0 ≤ k then ((2 ^ k.toNat : Nat) : ℚ) else 1 / ((2 ^ (-k).toNat : Nat) : ℚ)

/-- Counts the halvings that bring `n` below `2`; the first argument bounds the loop. -/
def log2Loop : Nat → Nat → Nat → Nat
  | 0, _, acc => acc
  | fuel + 1, n, acc => if 2 ≤ n then log2Loop fuel (n / 2) (acc + 1) else acc

/-- The exponent `k` with `2^k <= n < 2^(k+1)`, for `n >= 1`. -/
def natLog2 (n : Nat) : Nat := log2Loop n n 0

/-- The exponent `k` with `2^k <= q < 2^(k+1)`, for `q > 0`. -/
def ilog2 (q : ℚ) : Int :=
  let k : Int := (natLog2 q.num.natAbs : Int) - (natLog2 q.den : Int)
  if pow2 k ≤ q then k else k - 1

/-- Rounding of a rational to the nearest integer, a tie going to the even one. -/
def roundEven (s : ℚ) : Int :=
  let f := ⌊s⌋
  let r := s - f
  if r < 1/2 then f
  else if 1/2 < r then f + 1
  else if f % 2 = 0 then f else f + 1

/-- The exponent of the unit in the last place of the doubles around `q`: 52 below the
exponent of `q`, and not below `-1074`, the exponent of the smallest subnormal. -/
def ulpExp (q : ℚ) : Int := max (ilog2 |q| - 52) (-1074)

/-- The rounding of IEEE 754 double precision: to the nearest multiple of the unit in the
last place, ties to even. -/
def binary64 (q : ℚ) : ℚ :=
  if q = 0 then 0 else (roundEven (q / pow2 (ulpExp q)) : ℚ) * pow2 (ulpExp q)

/-- Adds to `r`, from bit `b - 1` down to bit `0`, every bit that keeps the square of `r`
at most `n`. -/
def isqrtLoop (n : Nat) : Nat → Nat → Nat
  | 0, r => r
  | b + 1, r =>
    if (r + 2 ^ b) * (r + 2 ^ b) ≤ n then isqrtLoop n b (r + 2 ^ b) else isqrtLoop n b r

/-- The integer square root: the largest `r` with `r * r <= n`. -/
def isqrt (n : Nat) : Nat := isqrtLoop n (natLog2 n / 2 + 1) 0

/-- The function `sqrt` of `math.h` on doubles: the square root, correctly rounded. The
argument is scaled by a power of 4 to an integer part of about 128 bits, whose integer
square root `s` is exact or has the root strictly between `s` and `s + 1`; no double and
no midpoint of two doubles lies in between, so rounding `s + 1/2` rounds the root. The
root of a negative number, a NaN in C++, is not modelled: the value is `0`. -/
def sqrt64 (a : ℚ) : ℚ :=
  if a ≤ 0 then 0
  else
    let k : Int := 64 - ilog2 a / 2
    let s := isqrt ⌊a * pow2 (2 * k)⌋.toNat
    binary64
      ((if ((s * s : Nat) : ℚ) = a * pow2 (2 * k) then (s : ℚ) else (s : ℚ) + 1/2) * pow2 (-k))

namespace Double

/-- A two-point sub-curve from `(xa, ya)` to `(xb, yb)` in double arithmetic: the block
at lines 107-122, and again at lines 149-163 and 193-207. -/
def line (R sqrt : ℚ → ℚ) (s : SubCurves) (xa ya xb yb : ℚ) : SubCurves :=
  let dx := R (xb - xa)
  let dy := R (yb - ya)
  let length := sqrt (R (R (dx * dx) + R (dy * dy)))
  { sc_x := s.sc_x ++ [xa, xb]
    sc_y := s.sc_y ++ [ya, yb]
    sc_length := s.sc_length ++ [length]
    sc_isLinear := s.sc_isLinear ++ [true]
    total_length := R (s.total_length + length) }

/-- A three-point sub-curve `(xa, ya)`, `(xb, yb)`, `(xc, yc)` in double arithmetic: the
block at lines 167-189, and again at lines 211-233. -/
def arc (R sqrt : ℚ → ℚ) (s : SubCurves) (xa ya xb yb xc yc : ℚ) : SubCurves :=
  let dx := R (xb - xa)
  let dy := R (yb - ya)
  let length := sqrt (R (R (dx * dx) + R (dy * dy)))
  let dx := R (xc - xb)
  let dy := R (yc - yb)
  let length := R (length + sqrt (R (R (dx * dx) + R (dy * dy))))
  { sc_x := s.sc_x ++ [xa, xb, xc]
    sc_y := s.sc_y ++ [ya, yb, yc]
    sc_length := s.sc_length ++ [length]
    sc_isLinear := s.sc_isLinear ++ [false]
    total_length := R (s.total_length + length) }

/-- One iteration of the first loop of `CtrlPoints_set` (lines 95-237) in double
arithmetic, for the interval between the control points `i` and `i+1`. -/
def subCurvesStep (R sqrt : ℚ → ℚ) (c : FlatCurve) (s : SubCurves) (i : Nat) : SubCurves :=
  let xi := c.x.getD i 0
  let yi := c.y.getD i 0
  let xi1 := c.x.getD (i + 1) 0
  let yi1 := c.y.getD (i + 1) 0
  let rt := c.rightTangent.getD i 0
  let lt := c.leftTangent.getD (i + 1) 0
  let startLinear : Bool := decide (rt = 0) || decide (yi = yi1)
  let endLinear : Bool := decide (lt = 0) || decide (yi = yi1)
  if startLinear && endLinear then
    line R sqrt s xi yi xi1 yi1
  else
    let xp1 := if startLinear then xi else R (R (R (xi1 - xi) * rt) + xi)
    let xp3 := if endLinear then xi1 else R (R (R (xi - xi1) * lt) + xi1)
    let xp2 := R (R (xp1 + xp3) / 2)
    let yp2 := R (R (yi + yi1) / 2)
    let xp1 := if R (rt + lt) > 1 then xp2 else xp1
    let xp3 := if R (rt + lt) > 1 then xp2 else xp3
    let s := if startLinear then line R sqrt s xi yi xp2 yp2
             else arc R sqrt s xi yi xp1 yi xp2 yp2
    if endLinear then line R sqrt s xp2 yp2 xi1 yi1
    else arc R sqrt s xp2 yp2 xp3 yi1 xi1 yi1

/-- The first loop of `CtrlPoints_set` (lines 95-237) in double arithmetic. -/
def subCurves (R sqrt : ℚ → ℚ) (c : FlatCurve) : SubCurves :=
  (List.range c.N).foldl (subCurvesStep R sqrt c)
    { sc_x := [], sc_y := [], sc_length := [], sc_isLinear := [], total_length := 0 }

/-- Modelled from the spec: `Curve::AddPolygons`, which is not among the sources, in
double arithmetic. The spec (§4.2) fixes which samples are appended: the interior ones,
for `k = 1 .. nbr_points - 2`, and then the end point `(x3, y3)` itself. It does not fix
the floating-point evaluation of the Bezier formula, so the value computed for the
`k`-th interior sample is the parameter `bez k increment x1 y1 x2 y2 x3 y3`; stored in
`poly_x` and `poly_y`, vectors of `double`, its coordinates are doubles. -/
def AddPolygons (R : ℚ → ℚ) (bez : Nat → ℚ → ℚ → ℚ → ℚ → ℚ → ℚ → ℚ → ℚ × ℚ)
    (nbr_points : Int) (increment x1 y1 x2 y2 x3 y3 : ℚ)
    (poly : List ℚ × List ℚ) : List ℚ × List ℚ :=
  let pts := (List.range (nbr_points - 2).toNat).map fun (k : Nat) =>
    bez (k + 1) increment x1 y1 x2 y2 x3 y3
  (poly.1 ++ pts.map (fun q => R q.1) ++ [x3], poly.2 ++ pts.map (fun q => R q.2) ++ [y3])

/-- The second loop of `CtrlPoints_set` (lines 250-270) in double arithmetic; the
arguments are those of `polyLoop`. The conversion `(double)(ppn)` is exact. -/
def polyLoop (R : ℚ → ℚ) (bez : Nat → ℚ → ℚ → ℚ → ℚ → ℚ → ℚ → ℚ → ℚ × ℚ) (s : SubCurves)
    (ppn : Int) : Nat → Nat → Nat → List ℚ × List ℚ → Except Fault (List ℚ × List ℚ)
  | 0, _, _, poly => .ok poly
  | n + 1, i, j, poly =>
    match s.sc_isLinear[i]? with
    | none => .error .outOfBounds
    | some true =>
      match s.sc_x[j + 1]?, s.sc_y[j + 1]? with
      | some a, some b =>
        polyLoop R bez s ppn n (i + 1) (j + 2) (poly.1 ++ [a], poly.2 ++ [b])
      | _, _ => .error .outOfBounds
    | some false =>
      match s.sc_length[i]? with
      | none => .error .outOfBounds
      | some len =>
        if s.total_length = 0 then .error .notFinite
        else
          let nbr_points := toInt (R (R ((ppn : ℚ) * len) / s.total_length))
          if nbr_points < 0 then .error .exit
          else
            let increment := R (1 / (((nbr_points - 1 : Int) : ℚ)))
            match s.sc_x[j]?, s.sc_y[j]?, s.sc_x[j + 1]?, s.sc_y[j + 1]?,
                  s.sc_x[j + 2]?, s.sc_y[j + 2]? with
            | some x1, some y1, some x2, some y2, some x3, some y3 =>
              polyLoop R bez s ppn n (i + 1) (j + 3)
                (AddPolygons R bez nbr_points increment x1 y1 x2 y2 x3 y3 poly)
            | _, _, _, _, _, _ => .error .outOfBounds

/-- The function `FlatCurve::CtrlPoints_set` (lines 79-283) in double arithmetic. -/
def CtrlPoints_set (R sqrt : ℚ → ℚ) (bez : Nat → ℚ → ℚ → ℚ → ℚ → ℚ → ℚ → ℚ → ℚ × ℚ)
    (c : FlatCurve) : Except Fault FlatCurve :=
  let s := subCurves R sqrt c
  match s.sc_x[0]?, s.sc_y[0]? with
  | some a, some b =>
    match polyLoop R bez s c.ppn s.sc_length.length 0 0 ([a], [b]) with
    | .ok poly => .ok { c with poly_x := poly.1, poly_y := poly.2 }
    | .error e => .error e
  | _, _ => .error .outOfBounds

/-- The constructor `FlatCurve::FlatCurve` (lines 32-66) in double arithmetic: the one
operation is the sum `p[1]+1.0` of line 56. -/
def construct (R sqrt : ℚ → ℚ) (bez : Nat → ℚ → ℚ → ℚ → ℚ → ℚ → ℚ → ℚ → ℚ × ℚ)
    (p : List ℚ) (poly_pn : Int) : Except Fault FlatCurve :=
  let c : FlatCurve :=
    { kind := FCT_Empty, ppn := poly_pn, N := 0, x := [], y := [], leftTangent := [],
      rightTangent := [], poly_x := [], poly_y := [] }
  if p.length > 4 then
    match toKind (p.getD 0 0) with
    | .error e => .error e
    | .ok kind =>
      if kind = FCT_MinMaxCPoints then
        let N := (p.length - 1) / 4
        let a := readPoints p N 1 { x := [], y := [], leftTangent := [], rightTangent := [] }
        let c : FlatCurve :=
          { c with
            kind := kind
            N := N
            x := a.x ++ [R (p.getD 1 0 + 1)]
            y := a.y ++ [p.getD 2 0]
            leftTangent := a.leftTangent ++ [p.getD 3 0]
            rightTangent := a.rightTangent ++ [p.getD 4 0] }
        if N > 1 then CtrlPoints_set R sqrt bez c else .ok c
      else .ok { c with kind := kind }
  else .ok c

/-- The lookup of `getVal` after the periodicity adjustment (lines 304-314) in double
arithmetic: the binary search, which only compares, and the interpolation of line 314,
`poly_y[k_lo] + (t - poly_x[k_lo]) * (poly_y[k_hi] - poly_y[k_lo]) / h`. -/
def lookup (R : ℚ → ℚ) (c : FlatCurve) (t : ℚ) : Except Fault ℚ :=
  match search c.poly_x t 0 (c.poly_x.length - 1) with
  | .error e => .error e
  | .ok (k_lo, k_hi) =>
    match c.poly_x[k_hi]?, c.poly_x[k_lo]?, c.poly_y[k_lo]?, c.poly_y[k_hi]? with
    | some xh, some xl, some yl, some yh =>
      let h := R (xh - xl)
      if h = 0 then .error .notFinite
      else .ok (R (yl + R (R (R (t - xl) * R (yh - yl)) / h)))
    | _, _, _, _ => .error .outOfBounds

/-- The function `FlatCurve::getVal (double t)` (lines 285-325) in double arithmetic. -/
def getVal (R : ℚ → ℚ) (c : FlatCurve) (t : ℚ) : Except Fault ℚ :=
  if c.kind = FCT_MinMaxCPoints then
    match c.poly_x[0]? with
    | none => .error .outOfBounds
    | some x0 => lookup R c (if t < x0 then R (t + 1) else t)
  else .ok t

/-- The abscissae `xp1`, `xp3` of lines 125-138, `xp2` of line 140, and `xp1`, `xp3`
after the collapse of lines 143-145, in double arithmetic: the result is
`(xp1, xp3, xp2, xp1', xp3')`. -/
def handleAbscissae (R : ℚ → ℚ) (xi yi xi1 yi1 rt lt : ℚ) : ℚ × ℚ × ℚ × ℚ × ℚ :=
  let startLinear : Bool := decide (rt = 0) || decide (yi = yi1)
  let endLinear : Bool := decide (lt = 0) || decide (yi = yi1)
  let xp1 := if startLinear then xi else R (R (R (xi1 - xi) * rt) + xi)
  let xp3 := if endLinear then xi1 else R (R (R (xi - xi1) * lt) + xi1)
  let xp2 := R (R (xp1 + xp3) / 2)
  (xp1, xp3, xp2, if R (rt + lt) > 1 then xp2 else xp1, if R (rt + lt) > 1 then xp2 else xp3)

/-- The piece written by `Double.line`. -/
def mkLine (R sqrt : ℚ → ℚ) (xa ya xb yb : ℚ) : Piece :=
  .line xa ya xb yb
    (sqrt (R (R (R (xb - xa) * R (xb - xa)) + R (R (yb - ya) * R (yb - ya)))))

/-- The piece written by `Double.arc`. -/
def mkArc (R sqrt : ℚ → ℚ) (xa ya xb yb xc yc : ℚ) : Piece :=
  .arc xa ya xb yb xc yc
    (R (sqrt (R (R (R (xb - xa) * R (xb - xa)) + R (R (yb - ya) * R (yb - ya))))
      + sqrt (R (R (R (xc - xb) * R (xc - xb)) + R (R (yc - yb) * R (yc - yb))))))

/-- The scratch vectors after one more piece, in double arithmetic. -/
def add (R : ℚ → ℚ) (s : SubCurves) (p : Piece) : SubCurves :=
  { sc_x := s.sc_x ++ p.xs
    sc_y := s.sc_y ++ p.ys
    sc_length := s.sc_length ++ [p.len]
    sc_isLinear := s.sc_isLinear ++ [p.isLinear]
    total_length := R (s.total_length + p.len) }

/-- The pieces of one interval in double arithmetic: the case analysis of
`Double.subCurvesStep`. -/
def piecesOf (R sqrt : ℚ → ℚ) (xi yi xi1 yi1 rt lt : ℚ) : List Piece :=
  let startLinear : Bool := decide (rt = 0) || decide (yi = yi1)
  let endLinear : Bool := decide (lt = 0) || decide (yi = yi1)
  if startLinear && endLinear then
    [mkLine R sqrt xi yi xi1 yi1]
  else
    let xp1 := if startLinear then xi else R (R (R (xi1 - xi) * rt) + xi)
    let xp3 := if endLinear then xi1 else R (R (R (xi - xi1) * lt) + xi1)
    let xp2 := R (R (xp1 + xp3) / 2)
    let yp2 := R (R (yi + yi1) / 2)
    let xp1 := if R (rt + lt) > 1 then xp2 else xp1
    let xp3 := if R (rt + lt) > 1 then xp2 else xp3
    [if startLinear then mkLine R sqrt xi yi xp2 yp2 else mkArc R sqrt xi yi xp1 yi xp2 yp2,
     if endLinear then mkLine R sqrt xp2 yp2 xi1 yi1
     else mkArc R sqrt xp2 yp2 xp3 yi1 xi1 yi1]

/-- The pieces of interval `i` of a curve, in double arithmetic. -/
def intervalPieces (R sqrt : ℚ → ℚ) (c : FlatCurve) (i : Nat) : List Piece :=
  piecesOf R sqrt (c.x.getD i 0) (c.y.getD i 0) (c.x.getD (i + 1) 0) (c.y.getD (i + 1) 0)
    (c.rightTangent.getD i 0) (c.leftTangent.getD (i + 1) 0)

/-- All the pieces of a curve in double arithmetic, in the order of the first loop. -/
def allPieces (R sqrt : ℚ → ℚ) (c : FlatCurve) : List Piece :=
  (List.range c.N).flatMap (intervalPieces R sqrt c)

/-- The samples the second loop appends for one piece, in double arithmetic. -/
def pieceSamples (R : ℚ → ℚ) (bez : Nat → ℚ → ℚ → ℚ → ℚ → ℚ → ℚ → ℚ → ℚ × ℚ) (ppn : Int)
    (total : ℚ) : Piece → List (ℚ × ℚ)
  | .line _ _ xb yb _ => [(xb, yb)]
  | .arc xa ya xb yb xc yc len =>
    ((List.range (toInt (R (R ((ppn : ℚ) * len) / total)) - 2).toNat).map fun (k : Nat) =>
        (R (bez (k + 1)
              (R (1 / (((toInt (R (R ((ppn : ℚ) * len) / total)) - 1 : Int) : ℚ))))
              xa ya xb yb xc yc).1,
         R (bez (k + 1)
              (R (1 / (((toInt (R (R ((ppn : ℚ) * len) / total)) - 1 : Int) : ℚ))))
              xa ya xb yb xc yc).2))
      ++ [(xc, yc)]

/-- The samples the second loop appends for interval `i`, in double arithmetic. -/
def intervalSamples (R sqrt : ℚ → ℚ) (bez : Nat → ℚ → ℚ → ℚ → ℚ → ℚ → ℚ → ℚ → ℚ × ℚ)
    (c : FlatCurve) (total : ℚ) (i : Nat) : List (ℚ × ℚ) :=
  (intervalPieces R sqrt c i).flatMap (pieceSamples R bez c.ppn total)

/-- The points of the polyline of a curve in double arithmetic: the first control point,
then the samples of the intervals `0 .. N-1`. -/
def polyPts (R sqrt : ℚ → ℚ) (bez : Nat → ℚ → ℚ → ℚ → ℚ → ℚ → ℚ → ℚ → ℚ × ℚ)
    (c : FlatCurve) : List (ℚ × ℚ) :=
  ptsUpTo (fun i => c.x.getD i 0) (fun i => c.y.getD i 0)
    (intervalSamples R sqrt bez c (subCurves R sqrt c).total_length) c.N

/-- What the constructor stores for a `FCT_MinMaxCPoints` list before the polyline is
built (lines 43-59), in double arithmetic. -/
def ctrlOf (R : ℚ → ℚ) (p : List ℚ) (poly_pn : Int) : FlatCurve :=
  { kind := FCT_MinMaxCPoints, ppn := poly_pn, N := (p.length - 1) / 4
    x := ((List.range ((p.length - 1) / 4)).map fun i => p.getD (1 + 4 * i) 0)
          ++ [R (p.getD 1 0 + 1)]
    y := ((List.range ((p.length - 1) / 4)).map fun i => p.getD (2 + 4 * i) 0) ++ [p.getD 2 0]
    leftTangent :=
      ((List.range ((p.length - 1) / 4)).map fun i => p.getD (3 + 4 * i) 0) ++ [p.getD 3 0]
    rightTangent :=
      ((List.range ((p.length - 1) / 4)).map fun i => p.getD (4 + 4 * i) 0) ++ [p.getD 4 0]
    poly_x := [], poly_y := [] }

/-- Modelled from the spec: the Bezier formula of `Curve::AddPolygons` (spec §4.2) for the
`k`-th interior sample, at `u = k * increment`, evaluated exactly; `Double.AddPolygons`
rounds its two coordinates. The concrete curves below are built with it. -/
def bezier (k : Nat) (increment x1 y1 x2 y2 x3 y3 : ℚ) : ℚ × ℚ :=
  (bez ((k : ℚ) * increment) x1 x2 x3, bez ((k : ℚ) * increment) y1 y2 y3)

end Double

/-- Every value of the list is a double. -/
def AllDoubles (R : ℚ → ℚ) (l : List ℚ) : Prop := ∀ v, v ∈ l → R v = v

instance (R : ℚ → ℚ) (l : List ℚ) : Decidable (AllDoubles R l) := by
  unfold AllDoubles
  infer_instance

/-- Every interval of the curve is emitted as a single line: `startLinear` and
`endLinear` of lines 102-103 both hold. -/
def FlatCurve.AllLines (c : FlatCurve) : Prop :=
  ∀ i, i < c.N →
    (c.rightTangent.getD i 0 = 0 ∨ c.y.getD i 0 = c.y.getD (i + 1) 0) ∧
    (c.leftTangent.getD (i + 1) 0 = 0 ∨ c.y.getD i 0 = c.y.getD (i + 1) 0)

instance (c : FlatCurve) : Decidable c.AllLines := by
  unfold FlatCurve.AllLines
  infer_instance

/-! ### Example curves in double arithmetic -/

/-- The two points `(0.069, 0.49)` and `(0.672, 0)`, as doubles, joined by straight
lines. -/
def dipParams : List ℚ :=
  [2, binary64 (69/1000), binary64 (49/100), 0, 0, binary64 (672/1000), 0, 0, 0]

/-- The curve the constructor builds from `dipParams` in double arithmetic, with a
budget of 10. -/
def dipCurve : FlatCurve :=
  { kind := 2, ppn := 10, N := 2
    x := [binary64 (69/1000), binary64 (672/1000), binary64 (binary64 (69/1000) + 1)]
    y := [binary64 (49/100), 0, binary64 (49/100)]
    leftTangent := [0, 0, 0], rightTangent := [0, 0, 0]
    poly_x := [binary64 (69/1000), binary64 (672/1000), binary64 (binary64 (69/1000) + 1)]
    poly_y := [binary64 (49/100), 0, binary64 (49/100)] }

/-- The two points `(0.1, 0.2)` and `(0.7, 0.9)`, as doubles, with both tangents of the
interval between them equal to `0.5`. -/
def wobbleParams : List ℚ :=
  [2, binary64 (1/10), binary64 (1/5), 0, 1/2, binary64 (7/10), binary64 (9/10), 1/2, 0]

/-- The control points the constructor stores for `wobbleParams` in the arithmetic
`binary64`. -/
def wobbleCtrl : FlatCurve := Double.ctrlOf binary64 wobbleParams 0

/-- Two points; the first interval has `rightTangent[0] = 1e-30`, as a double, and
`leftTangent[1] = 1`: the sum `1e-30 + 1.0` rounds to `1.0`, so lines 143-145 do not
collapse the handles. -/
def tinyParams : List ℚ := [2, 1/2, 0, 0, binary64 (1/10^30), 3/4, 1, 1, 0]

/-- The curve the constructor builds from `tinyParams` in the arithmetic `binary64`, with a
budget of 10. -/
def tinyCurve : FlatCurve :=
  { kind := 2, ppn := 10, N := 2, x := [1/2, 3/4, 3/2], y := [0, 1, 0],
    leftTangent := [0, 1, 0], rightTangent := [binary64 (1/10^30), 0, binary64 (1/10^30)],
    poly_x := [1/2, 1/2, 9/16, 3/4, 3/2], poly_y := [0, 1/2, 7/8, 1, 0] }

/-- Two points; the closing interval has `rightTangent[1] = 1` and
`leftTangent[2] = leftTangent[0] = 1e-30`, as a double. -/
def tinyEndParams : List ℚ := [2, 0, 0, binary64 (1/10^30), 0, 3/4, 1, 0, 1]

/-- The curve the constructor builds from `tinyEndParams` in the arithmetic `binary64`,
with a budget of 10. -/
def tinyEndCurve : FlatCurve :=
  { kind := 2, ppn := 10, N := 2, x := [0, 3/4, 1], y := [0, 1, 0],
    leftTangent := [binary64 (1/10^30), 0, binary64 (1/10^30)], rightTangent := [0, 1, 0],
    poly_x := [0, 3/4, 15/16, 1, 1], poly_y := [0, 1, 7/8, 1/2, 0] }

/-- The two points `(0, 0.07)` and `(0.5, 0.63)`, as doubles, joined by straight lines. -/
def closeParams : List ℚ := [2, 0, binary64 (7/100), 0, 0, 1/2, binary64 (63/100), 0, 0]

/-- The curve the constructor builds from `closeParams` in the arithmetic `binary64`, with
a budget of 10. -/
def closeCurve : FlatCurve :=
  { kind := 2, ppn := 10, N := 2, x := [0, 1/2, 1],
    y := [binary64 (7/100), binary64 (63/100), binary64 (7/100)],
    leftTangent := [0, 0, 0], rightTangent := [0, 0, 0],
    poly_x := [0, 1/2, 1],
    poly_y := [binary64 (7/100), binary64 (63/100), binary64 (7/100)] }

/-- The three points `(0, 0.2, 0, 0)`, `(0.002, 0.8, 0, 0)`, `(0.021, 0.3, 1, 0)`, as
doubles: interval 0 is a single line, interval 1 starts linear and ends with an arc whose
handle covers the whole interval (`leftTangent[2] = 1`). -/
def kinkParams : List ℚ :=
  [2, 0, binary64 (1/5), 0, 0, binary64 (2/1000), binary64 (4/5), 0, 0,
    binary64 (21/1000), binary64 (3/10), 1, 0]

/-- The curve the constructor builds from `kinkParams` in the arithmetic `binary64`, with a
budget of 10: the third sample lies `2^(-60)` to the left of the second. -/
def kinkCurve : FlatCurve :=
  { kind := 2, ppn := 10, N := 3,
    x := [0, binary64 (2/1000), binary64 (21/1000), 1],
    y := [binary64 (1/5), binary64 (4/5), binary64 (3/10), binary64 (1/5)],
    leftTangent := [0, 0, 1, 0], rightTangent := [0, 0, 0, 0],
    poly_x := [0, binary64 (2/1000), binary64 (2/1000) - pow2 (-60), binary64 (21/1000), 1],
    poly_y := [binary64 (1/5), binary64 (4/5), binary64 (55/100), binary64 (3/10),
      binary64 (1/5)] }

/-- The three points of the scenario of spec §8, `(0.1,0.2,0,0)`, `(0.4,0.8,0,0)`,
`(0.7,0.3,0,0)`, as doubles. -/
def scenarioDoubles : List ℚ :=
  [2, binary64 (1/10), binary64 (1/5), 0, 0, binary64 (2/5), binary64 (4/5), 0, 0,
    binary64 (7/10), binary64 (3/10), 0, 0]

/-- The curve the constructor builds from `scenarioDoubles` in the arithmetic `binary64`,
with a budget of 50. -/
def scenarioDoublesCurve : FlatCurve :=
  { kind := 2, ppn := 50, N := 3,
    x := [binary64 (1/10), binary64 (2/5), binary64 (7/10), binary64 (binary64 (1/10) + 1)],
    y := [binary64 (1/5), binary64 (4/5), binary64 (3/10), binary64 (1/5)],
    leftTangent := [0, 0, 0, 0], rightTangent := [0, 0, 0, 0],
    poly_x := [binary64 (1/10), binary64 (2/5), binary64 (7/10),
      binary64 (binary64 (1/10) + 1)],
    poly_y := [binary64 (1/5), binary64 (4/5), binary64 (3/10), binary64 (1/5)] }

/-- Two points whose abscissae are neighbouring doubles, `0.5` and `0.5 + 2^(-53)`, with
both tangents of the interval between them equal to `0.5`. -/
def ulpParams : List ℚ := [2, 1/2, 0, 0, 1/2, 1/2 + pow2 (-53), 1, 1/2, 0]

/-- The curve the constructor builds from `ulpParams` in the arithmetic `binary64`, with a
budget of 10. -/
def ulpCurve : FlatCurve :=
  { kind := 2, ppn := 10, N := 2, x := [1/2, 1/2 + pow2 (-53), 3/2], y := [0, 1, 0],
    leftTangent := [0, 1/2, 0], rightTangent := [1/2, 0, 1/2],
    poly_x := [1/2, 1/2, 1/2 + pow2 (-53), 3/2], poly_y := [0, 1/2, 1, 0] }

/-- The curve the constructor builds from `wobbleParams` in the arithmetic `binary64`,
with a budget of 0: no half-arc gets an interior sample. -/
def wobbleCurve : FlatCurve :=
  { kind := 2, ppn := 0, N := 2,
    x := [binary64 (1/10), binary64 (7/10), binary64 (binary64 (1/10) + 1)],
    y := [binary64 (1/5), binary64 (9/10), binary64 (1/5)],
    leftTangent := [0, 1/2, 0], rightTangent := [1/2, 0, 1/2],
    poly_x := [binary64 (1/10), binary64 (2/5), binary64 (7/10),
      binary64 (binary64 (1/10) + 1)],
    poly_y := [binary64 (1/5), binary64 (55/100), binary64 (9/10), binary64 (1/5)] }

/-! ## The two loops of `CtrlPoints_set`, piece by piece -/

theorem subCurvesStep_eq (sqrt : ℚ → ℚ) (c : FlatCurve) (s : SubCurves) (i : Nat) :
    subCurvesStep sqrt c s i = (intervalPieces sqrt c i).foldl SubCurves.add s := by
  unfold subCurvesStep intervalPieces piecesOf
  dsimp only
  split_ifs <;> rfl

theorem foldl_add_fields (ps : List Piece) (s : SubCurves) :
    (ps.foldl SubCurves.add s).sc_x = s.sc_x ++ ps.flatMap Piece.xs ∧
    (ps.foldl SubCurves.add s).sc_y = s.sc_y ++ ps.flatMap Piece.ys ∧
    (ps.foldl SubCurves.add s).sc_length = s.sc_length ++ ps.map Piece.len ∧
    (ps.foldl SubCurves.add s).sc_isLinear = s.sc_isLinear ++ ps.map Piece.isLinear := by
  induction ps generalizing s with
  | nil => simp
  | cons p ps ih =>
    obtain ⟨h1, h2, h3, h4⟩ := ih (s.add p)
    rw [List.foldl_cons, h1, h2, h3, h4]
    simp [SubCurves.add, List.flatMap_cons]

theorem foldl_subCurvesStep (sqrt : ℚ → ℚ) (c : FlatCurve) (l : List Nat) (s : SubCurves) :
    l.foldl (subCurvesStep sqrt c) s
      = (l.flatMap (intervalPieces sqrt c)).foldl SubCurves.add s := by
  induction l generalizing s with
  | nil => rfl
  | cons i l ih =>
    simp only [List.foldl_cons, List.flatMap_cons, List.foldl_append, ih, subCurvesStep_eq]

theorem subCurves_fields (sqrt : ℚ → ℚ) (c : FlatCurve) :
    (subCurves sqrt c).sc_x = (allPieces sqrt c).flatMap Piece.xs ∧
    (subCurves sqrt c).sc_y = (allPieces sqrt c).flatMap Piece.ys ∧
    (subCurves sqrt c).sc_length = (allPieces sqrt c).map Piece.len ∧
    (subCurves sqrt c).sc_isLinear = (allPieces sqrt c).map Piece.isLinear := by
  unfold subCurves allPieces
  rw [foldl_subCurvesStep]
  simpa using foldl_add_fields _ _

theorem AddPolygons_eq (n : Int) (x1 y1 x2 y2 x3 y3 : ℚ) (poly : List ℚ × List ℚ) :
    AddPolygons n (1 / (((n - 1 : Int) : ℚ))) x1 y1 x2 y2 x3 y3 poly
      = (poly.1 ++ (arcSamples n x1 y1 x2 y2 x3 y3).map Prod.fst,
         poly.2 ++ (arcSamples n x1 y1 x2 y2 x3 y3).map Prod.snd) := by
  simp [AddPolygons, arcSamples, bez, List.map_append, List.map_map, Function.comp_def]

theorem drop_eq_cons {α : Type} {l : List α} {i : Nat} {a : α} {r : List α}
    (h : l.drop i = a :: r) : l[i]? = some a ∧ l.drop (i + 1) = r := by
  constructor
  · have := List.getElem?_drop l i 0
    rw [h] at this
    simpa using this.symm
  · have : (l.drop i).drop 1 = l.drop (i + 1) := by rw [List.drop_drop]
    rw [← this, h]
    rfl

theorem polyLoop_pieces (s : SubCurves) (ppn : Int) :
    ∀ (ps : List Piece) (i j : Nat) (poly poly' : List ℚ × List ℚ),
      s.sc_isLinear.drop i = ps.map Piece.isLinear →
      s.sc_length.drop i = ps.map Piece.len →
      s.sc_x.drop j = ps.flatMap Piece.xs →
      s.sc_y.drop j = ps.flatMap Piece.ys →
      polyLoop s ppn ps.length i j poly = .ok poly' →
      poly' = (poly.1 ++ (ps.flatMap (pieceSamples ppn s.total_length)).map Prod.fst,
               poly.2 ++ (ps.flatMap (pieceSamples ppn s.total_length)).map Prod.snd) := by
  intro ps
  induction ps with
  | nil =>
    intro i j poly poly' _ _ _ _ h
    simp only [List.length_nil, polyLoop] at h
    cases h
    simp
  | cons p ps ih =>
    intro i j poly poly' hf hl hx hy h
    rw [List.map_cons] at hf hl
    rw [List.flatMap_cons] at hx hy
    obtain ⟨hf0, hf1⟩ := drop_eq_cons hf
    obtain ⟨hl0, hl1⟩ := drop_eq_cons hl
    rw [List.length_cons, polyLoop] at h
    cases p with
    | line xa ya xb yb len =>
      simp only [Piece.xs, Piece.ys, List.cons_append, List.nil_append] at hx hy
      obtain ⟨-, hx1⟩ := drop_eq_cons hx
      obtain ⟨hx1, hx2⟩ := drop_eq_cons hx1
      obtain ⟨-, hy1⟩ := drop_eq_cons hy
      obtain ⟨hy1, hy2⟩ := drop_eq_cons hy1
      simp only [hf0, Piece.isLinear, hx1, hy1] at h
      rw [ih (i + 1) (j + 2) _ poly' hf1 hl1 hx2 hy2 h]
      simp [pieceSamples, List.flatMap_cons]
    | arc xa ya xb yb xc yc len =>
      simp only [Piece.xs, Piece.ys, List.cons_append, List.nil_append] at hx hy
      obtain ⟨hx0, hx1⟩ := drop_eq_cons hx
      obtain ⟨hx1, hx2⟩ := drop_eq_cons hx1
      obtain ⟨hx2, hx3⟩ := drop_eq_cons hx2
      obtain ⟨hy0, hy1⟩ := drop_eq_cons hy
      obtain ⟨hy1, hy2⟩ := drop_eq_cons hy1
      obtain ⟨hy2, hy3⟩ := drop_eq_cons hy2
      simp only [hf0, Piece.isLinear, hl0, Piece.len, hx0, hx1, hx2, hy0, hy1, hy2] at h
      split at h
      · cases h
      · split at h
        · cases h
        · rw [AddPolygons_eq] at h
          rw [ih (i + 1) (j + 3) _ poly' hf1 hl1 hx3 hy3 h]
          simp [pieceSamples, List.flatMap_cons]

/-! ## The samples of one piece -/

theorem pieceSamples_getLast (ppn : Int) (total : ℚ) (p : Piece) :
    (pieceSamples ppn total p).getLast? = some p.endPt := by
  cases p <;> simp [pieceSamples, Piece.endPt, arcSamples]

theorem pieceSamples_ne_nil (ppn : Int) (total : ℚ) (p : Piece) :
    pieceSamples ppn total p ≠ [] := by
  cases p <;> simp [pieceSamples, arcSamples]

/-! ## The samples of one interval -/

theorem piecesOf_line (sqrt : ℚ → ℚ) {xi yi xi1 yi1 rt lt : ℚ}
    (h : (rt = 0 ∨ yi = yi1) ∧ (lt = 0 ∨ yi = yi1)) :
    piecesOf sqrt xi yi xi1 yi1 rt lt = [mkLine sqrt xi yi xi1 yi1] := by
  unfold piecesOf
  simp [h.1, h.2]

theorem piecesOf_line_arc (sqrt : ℚ → ℚ) {xi yi xi1 yi1 lt : ℚ} (hy : yi ≠ yi1)
    (hl : lt ≠ 0) (hl1 : lt ≤ 1) :
    piecesOf sqrt xi yi xi1 yi1 0 lt =
      [mkLine sqrt xi yi ((xi + ((xi - xi1) * lt + xi1)) / 2) ((yi + yi1) / 2),
       mkArc sqrt ((xi + ((xi - xi1) * lt + xi1)) / 2) ((yi + yi1) / 2)
         ((xi - xi1) * lt + xi1) yi1 xi1 yi1] := by
  have hc : ¬ (1 < lt) := not_lt.mpr hl1
  unfold piecesOf
  simp [hy, hl, hc]

theorem piecesOf_arc_line (sqrt : ℚ → ℚ) {xi yi xi1 yi1 rt : ℚ} (hy : yi ≠ yi1)
    (hr : rt ≠ 0) (hr1 : rt ≤ 1) :
    piecesOf sqrt xi yi xi1 yi1 rt 0 =
      [mkArc sqrt xi yi ((xi1 - xi) * rt + xi) yi (((xi1 - xi) * rt + xi + xi1) / 2)
         ((yi + yi1) / 2),
       mkLine sqrt (((xi1 - xi) * rt + xi + xi1) / 2) ((yi + yi1) / 2) xi1 yi1] := by
  have hc : ¬ (1 < rt) := not_lt.mpr hr1
  unfold piecesOf
  simp [hy, hr, hc]

theorem piecesOf_arc_arc (sqrt : ℚ → ℚ) {xi yi xi1 yi1 rt lt : ℚ} (hy : yi ≠ yi1)
    (hr : rt ≠ 0) (hl : lt ≠ 0) :
    piecesOf sqrt xi yi xi1 yi1 rt lt =
      [mkArc sqrt xi yi
         (if rt + lt > 1 then ((xi1 - xi) * rt + xi + ((xi - xi1) * lt + xi1)) / 2
          else (xi1 - xi) * rt + xi) yi
         (((xi1 - xi) * rt + xi + ((xi - xi1) * lt + xi1)) / 2) ((yi + yi1) / 2),
       mkArc sqrt (((xi1 - xi) * rt + xi + ((xi - xi1) * lt + xi1)) / 2) ((yi + yi1) / 2)
         (if rt + lt > 1 then ((xi1 - xi) * rt + xi + ((xi - xi1) * lt + xi1)) / 2
          else (xi - xi1) * lt + xi1) yi1 xi1 yi1] := by
  unfold piecesOf
  simp [hy, hr, hl]

theorem Piece.Ordered.le {p : Piece} (h : p.Ordered) : p.a ≤ p.b := by
  cases p with
  | line xa ya xb yb len => exact h
  | arc xa ya xb yb xc yc len => exact h.1.trans h.2

theorem piecesOf_last (sqrt : ℚ → ℚ) (xi yi xi1 yi1 rt lt : ℚ) :
    ∃ init pl, piecesOf sqrt xi yi xi1 yi1 rt lt = init ++ [pl] ∧ pl.endPt = (xi1, yi1) := by
  unfold piecesOf
  dsimp only
  split_ifs
  · exact ⟨[], _, rfl, rfl⟩
  all_goals exact ⟨[_], _, rfl, rfl⟩

theorem samplesOf_getLast (sqrt : ℚ → ℚ) (ppn : Int) (total xi yi xi1 yi1 rt lt : ℚ) :
    (samplesOf sqrt ppn total xi yi xi1 yi1 rt lt).getLast? = some (xi1, yi1) := by
  obtain ⟨init, pl, h, he⟩ := piecesOf_last sqrt xi yi xi1 yi1 rt lt
  unfold samplesOf
  rw [h, List.flatMap_append]
  simp only [List.flatMap_cons, List.flatMap_nil, List.append_nil]
  rw [List.getLast?_append_of_ne_nil _ (pieceSamples_ne_nil ppn total pl),
    pieceSamples_getLast, he]

/-! ## The constructor -/

theorem readPoints_eq (p : List ℚ) (n ix : Nat) (a : CtrlArrays) :
    readPoints p n ix a =
      { x := a.x ++ (List.range n).map fun i => p.getD (ix + 4 * i) 0
        y := a.y ++ (List.range n).map fun i => p.getD (ix + 1 + 4 * i) 0
        leftTangent := a.leftTangent ++ (List.range n).map fun i => p.getD (ix + 2 + 4 * i) 0
        rightTangent :=
          a.rightTangent ++ (List.range n).map fun i => p.getD (ix + 3 + 4 * i) 0 } := by
  induction n generalizing ix a with
  | zero => simp [readPoints]
  | succ n ih =>
    rw [readPoints, ih]
    have e : ∀ k i : Nat, ix + 4 + k + 4 * i = ix + k + 4 * (i + 1) := by intros; omega
    have e0 : ∀ i : Nat, ix + 4 + 4 * i = ix + 4 * (i + 1) := by intros; omega
    simp [List.range_succ_eq_map, List.map_map, Function.comp_def, e, e0]

theorem CtrlPoints_set_ok {sqrt : ℚ → ℚ} {c c' : FlatCurve}
    (h : c.CtrlPoints_set sqrt = .ok c') :
    ∃ a b poly, (subCurves sqrt c).sc_x[0]? = some a ∧ (subCurves sqrt c).sc_y[0]? = some b ∧
      polyLoop (subCurves sqrt c) c.ppn (subCurves sqrt c).sc_length.length 0 0 ([a], [b])
        = .ok poly ∧
      c' = { c with poly_x := poly.1, poly_y := poly.2 } := by
  unfold FlatCurve.CtrlPoints_set at h
  dsimp only at h
  split at h
  · next a b ha hb =>
    split at h
    · next poly hp =>
      refine ⟨a, b, poly, ha, hb, hp, ?_⟩
      cases h; rfl
    · cases h
  · cases h

theorem construct_minmax (sqrt : ℚ → ℚ) (p : List ℚ) (ppn : Int) (hL : 4 < p.length)
    (hk : toInt (p.getD 0 0) = FCT_MinMaxCPoints) :
    FlatCurve.construct sqrt p ppn =
      if (p.length - 1) / 4 > 1 then (ctrlOf p ppn).CtrlPoints_set sqrt
      else .ok (ctrlOf p ppn) := by
  have hk' : toKind (p.getD 0 0) = .ok FCT_MinMaxCPoints := by
    unfold toKind
    rw [hk, if_pos (by decide)]
  unfold FlatCurve.construct
  simp only [hL, hk', if_true, readPoints_eq, List.nil_append, ctrlOf]

theorem construct_other (sqrt : ℚ → ℚ) (p : List ℚ) (ppn : Int)
    (h : p.length < 5 ∨ ∃ k, toKind (p.getD 0 0) = .ok k ∧ k ≠ FCT_MinMaxCPoints) :
    ∃ c, FlatCurve.construct sqrt p ppn = .ok c ∧ c.kind ≠ FCT_MinMaxCPoints := by
  unfold FlatCurve.construct
  by_cases hL : p.length > 4
  · obtain ⟨k, hk, hne⟩ : ∃ k, toKind (p.getD 0 0) = .ok k ∧ k ≠ FCT_MinMaxCPoints := by
      rcases h with h | h
      · omega
      · exact h
    simp only [hL, hk, hne, if_true, if_false]
    exact ⟨_, rfl, hne⟩
  · simp only [hL, if_false]
    refine ⟨_, rfl, ?_⟩
    show FCT_Empty ≠ FCT_MinMaxCPoints
    decide

theorem getElem?_tab (f : Nat → ℚ) (a : ℚ) (N i : Nat) (h : i < N) :
    ((List.range N).map f ++ [a])[i]? = some (f i) := by
  rw [List.getElem?_append_left (by simpa using h)]
  simp [List.getElem?_map, List.getElem?_range h]

theorem getElem?_tab_last (f : Nat → ℚ) (a : ℚ) (N : Nat) :
    ((List.range N).map f ++ [a])[N]? = some a := by
  rw [List.getElem?_append_right (by simp)]
  simp

theorem getD_tab (f : Nat → ℚ) (a : ℚ) (N i : Nat) (h : i < N) :
    ((List.range N).map f ++ [a]).getD i 0 = f i := by
  simp [List.getD_eq_getElem?_getD, getElem?_tab f a N i h]

theorem getD_tab_last (f : Nat → ℚ) (a : ℚ) (N : Nat) :
    ((List.range N).map f ++ [a]).getD N 0 = a := by
  simp [List.getD_eq_getElem?_getD, getElem?_tab_last f a N]

theorem construct_fields {sqrt : ℚ → ℚ} {p : List ℚ} {ppn : Int} {c : FlatCurve}
    (hL : 4 < p.length) (hk : toInt (p.getD 0 0) = FCT_MinMaxCPoints)
    (hc : FlatCurve.construct sqrt p ppn = .ok c) :
    c.kind = FCT_MinMaxCPoints ∧ c.ppn = ppn ∧ c.N = (p.length - 1) / 4 ∧
      c.x = (ctrlOf p ppn).x ∧ c.y = (ctrlOf p ppn).y ∧
      c.leftTangent = (ctrlOf p ppn).leftTangent ∧
      c.rightTangent = (ctrlOf p ppn).rightTangent := by
  rw [construct_minmax sqrt p ppn hL hk] at hc
  split at hc
  · obtain ⟨a, b, poly, -, -, -, rfl⟩ := CtrlPoints_set_ok hc
    exact ⟨rfl, rfl, rfl, rfl, rfl, rfl, rfl⟩
  · cases hc
    exact ⟨rfl, rfl, rfl, rfl, rfl, rfl, rfl⟩

theorem getD_of_lt (p : List ℚ) (k : Nat) (h : k < p.length) : p[k]? = some (p.getD k 0) := by
  simp [List.getD_eq_getElem?_getD, List.getElem?_eq_getElem h]

/-! ## The binary search -/

theorem search_spec (xs : List ℚ) (t : ℚ) :
    ∀ (n lo hi : Nat), hi - lo = n → lo < hi → hi < xs.length →
      ∃ k, search xs t lo hi = .ok (k, k + 1) ∧ lo ≤ k ∧ k < hi ∧
        (k = lo ∨ ∃ a, xs[k]? = some a ∧ a ≤ t) ∧
        (k + 1 = hi ∨ ∃ b, xs[k + 1]? = some b ∧ t < b) := by
  intro n
  induction n using Nat.strong_induction_on with
  | _ n ih =>
    intro lo hi hn hlt hhi
    rw [search]
    by_cases h1 : hi - lo > 1
    · rw [if_pos h1]
      have hm : (hi + lo) / 2 < xs.length := by omega
      rw [List.getElem?_eq_getElem hm]
      dsimp only
      by_cases hv : xs[(hi + lo) / 2] > t
      · rw [if_pos hv]
        obtain ⟨k, hk, h2, h3, h4, h5⟩ :=
          ih (((hi + lo) / 2) - lo) (by omega) lo ((hi + lo) / 2) rfl (by omega) hm
        refine ⟨k, hk, h2, by omega, h4, ?_⟩
        rcases h5 with h5 | h5
        · right
          exact ⟨xs[(hi + lo) / 2], by rw [h5, List.getElem?_eq_getElem hm], hv⟩
        · exact Or.inr h5
      · rw [if_neg hv]
        obtain ⟨k, hk, h2, h3, h4, h5⟩ :=
          ih (hi - ((hi + lo) / 2)) (by omega) ((hi + lo) / 2) hi rfl (by omega) hhi
        refine ⟨k, hk, by omega, h3, ?_, h5⟩
        rcases h4 with h4 | h4
        · right
          exact ⟨xs[(hi + lo) / 2], by rw [h4, List.getElem?_eq_getElem hm], not_lt.mp hv⟩
        · exact Or.inr h4
    · rw [if_neg h1]
      have : hi = lo + 1 := by omega
      subst this
      exact ⟨lo, rfl, le_refl _, by omega, Or.inl rfl, Or.inl rfl⟩

/-- The value `lookup` returns once the search has ended on the pair `(k, k+1)`. -/
theorem lookup_of_search {c : FlatCurve} {t a b ya yb : ℚ} {k : Nat}
    (hs : search c.poly_x t 0 (c.poly_x.length - 1) = .ok (k, k + 1))
    (ha : c.poly_x[k]? = some a) (hb : c.poly_x[k + 1]? = some b)
    (hya : c.poly_y[k]? = some ya) (hyb : c.poly_y[k + 1]? = some yb) (hne : b - a ≠ 0) :
    c.lookup t = .ok (ya + (t - a) * (yb - ya) / (b - a)) := by
  unfold FlatCurve.lookup
  rw [hs]
  simp only [ha, hb, hya, hyb, if_neg hne]

/-! ## The polyline, interval by interval -/

theorem ptsUpTo_succ (X Y : Nat → ℚ) (S : Nat → List (ℚ × ℚ)) (i : Nat) :
    ptsUpTo X Y S (i + 1) = ptsUpTo X Y S i ++ S i := by
  simp [ptsUpTo, List.range_succ, List.flatMap_append]

/-! ## The lookup on a polyline cut in two -/

theorem getElem?_map_fst_append_left {A B : List (ℚ × ℚ)} {m : Nat} (hm : m < A.length) :
    ∃ q, q ∈ A ∧ ((A ++ B).map Prod.fst)[m]? = some q.1 ∧
      ((A ++ B).map Prod.snd)[m]? = some q.2 ∧ A[m]? = some q := by
  refine ⟨A[m], List.getElem_mem _, ?_, ?_, List.getElem?_eq_getElem hm⟩
  · rw [List.getElem?_map, List.getElem?_append_left hm, List.getElem?_eq_getElem hm]; rfl
  · rw [List.getElem?_map, List.getElem?_append_left hm, List.getElem?_eq_getElem hm]; rfl

theorem getElem?_map_fst_append_right {A B : List (ℚ × ℚ)} {m : Nat} (hm : A.length ≤ m)
    (hm' : m < A.length + B.length) :
    ∃ q, q ∈ B ∧ ((A ++ B).map Prod.fst)[m]? = some q.1 ∧
      ((A ++ B).map Prod.snd)[m]? = some q.2 ∧ B[m - A.length]? = some q := by
  have hb : m - A.length < B.length := by omega
  refine ⟨B[m - A.length], List.getElem_mem _, ?_, ?_, List.getElem?_eq_getElem hb⟩
  · rw [List.getElem?_map, List.getElem?_append_right hm, List.getElem?_eq_getElem hb]; rfl
  · rw [List.getElem?_map, List.getElem?_append_right hm, List.getElem?_eq_getElem hb]; rfl

/-! ## The polyline of a constructed curve -/

theorem piecesOf_head (sqrt : ℚ → ℚ) (xi yi xi1 yi1 rt lt : ℚ) :
    ∃ rx ry, (piecesOf sqrt xi yi xi1 yi1 rt lt).flatMap Piece.xs = xi :: rx ∧
      (piecesOf sqrt xi yi xi1 yi1 rt lt).flatMap Piece.ys = yi :: ry := by
  unfold piecesOf
  dsimp only
  split_ifs <;> exact ⟨_, _, rfl, rfl⟩

theorem intervalSamples_eq (sqrt : ℚ → ℚ) (c : FlatCurve) (total : ℚ) (i : Nat) :
    intervalSamples sqrt c total i =
      samplesOf sqrt c.ppn total (c.x.getD i 0) (c.y.getD i 0) (c.x.getD (i + 1) 0)
        (c.y.getD (i + 1) 0) (c.rightTangent.getD i 0) (c.leftTangent.getD (i + 1) 0) := rfl

theorem polyPts_eq (sqrt : ℚ → ℚ) (c : FlatCurve) :
    polyPts sqrt c =
      ptsUpTo (fun i => c.x.getD i 0) (fun i => c.y.getD i 0)
        (intervalSamples sqrt c (subCurves sqrt c).total_length) c.N := rfl

theorem polyline_eq {sqrt : ℚ → ℚ} {c c' : FlatCurve}
    (h : c.CtrlPoints_set sqrt = .ok c') (hN : 0 < c.N) :
    c'.poly_x = (polyPts sqrt c).map Prod.fst ∧ c'.poly_y = (polyPts sqrt c).map Prod.snd := by
  obtain ⟨a, b, poly, ha, hb, hp, rfl⟩ := CtrlPoints_set_ok h
  obtain ⟨hx, hy, hl, hf⟩ := subCurves_fields sqrt c
  have hr : List.range c.N = 0 :: (List.range (c.N - 1)).map Nat.succ := by
    conv_lhs => rw [show c.N = (c.N - 1) + 1 by omega]
    exact List.range_succ_eq_map _
  obtain ⟨rx, ry, e1, e2⟩ :=
    piecesOf_head sqrt (c.x.getD 0 0) (c.y.getD 0 0) (c.x.getD (0 + 1) 0)
      (c.y.getD (0 + 1) 0) (c.rightTangent.getD 0 0) (c.leftTangent.getD (0 + 1) 0)
  have ha' : a = c.x.getD 0 0 := by
    rw [hx, allPieces, hr, List.flatMap_cons, List.flatMap_append, intervalPieces, e1] at ha
    simpa using ha.symm
  have hb' : b = c.y.getD 0 0 := by
    rw [hy, allPieces, hr, List.flatMap_cons, List.flatMap_append, intervalPieces, e2] at hb
    simpa using hb.symm
  have hp' := polyLoop_pieces (subCurves sqrt c) c.ppn (allPieces sqrt c) 0 0 ([a], [b]) poly
    (by simp [hf]) (by simp [hl]) (by simp [hx]) (by simp [hy])
    (by rw [hl, List.length_map] at hp; exact hp)
  have hs : (allPieces sqrt c).flatMap (pieceSamples c.ppn (subCurves sqrt c).total_length)
      = (List.range c.N).flatMap
          (intervalSamples sqrt c (subCurves sqrt c).total_length) := by
    unfold allPieces
    rw [List.flatMap_assoc]
    rfl
  rw [hs] at hp'
  subst ha' hb'
  rw [hp']
  exact ⟨rfl, rfl⟩

theorem construct_polyline {sqrt : ℚ → ℚ} {p : List ℚ} {ppn : Int} {c : FlatCurve}
    (hL : 4 < p.length) (hk : toInt (p.getD 0 0) = FCT_MinMaxCPoints)
    (hN : 2 ≤ (p.length - 1) / 4) (hc : FlatCurve.construct sqrt p ppn = .ok c) :
    c.poly_x = (polyPts sqrt c).map Prod.fst ∧ c.poly_y = (polyPts sqrt c).map Prod.snd := by
  rw [construct_minmax sqrt p ppn hL hk, if_pos (by omega)] at hc
  have h := polyline_eq hc (by show 0 < (p.length - 1) / 4; omega)
  obtain ⟨a, b, poly, -, -, -, rfl⟩ := CtrlPoints_set_ok hc
  exact h

theorem polyPts_head (sqrt : ℚ → ℚ) (c : FlatCurve) :
    ((polyPts sqrt c).map Prod.fst)[0]? = some (c.x.getD 0 0) ∧
      ((polyPts sqrt c).map Prod.snd)[0]? = some (c.y.getD 0 0) := by
  simp [polyPts]

/-! ## Claims on the constructor and on the evaluator alone -/

theorem toInt_of_nonneg {q : ℚ} (h : 0 ≤ q) : toInt q = ⌊q⌋ := by
  unfold toInt
  rw [Int.tdiv_eq_ediv (Rat.num_nonneg.mpr h) (Int.natCast_nonneg _), Rat.floor_def]

theorem toInt_of_neg {q : ℚ} (h : q < 0) : toInt q = -⌊-q⌋ := by
  have e : toInt q = -toInt (-q) := by
    unfold toInt
    rw [Rat.neg_num, Rat.neg_den, Int.neg_tdiv, neg_neg]
  rw [e, toInt_of_nonneg (by linarith)]

/-- The first values that convert to a kind other than `FCT_MinMaxCPoints`: those below
`2` and above `-2^31 - 1`, and those from `3` up to `2^31`, excluded. -/
theorem toKind_other {q : ℚ}
    (h : (-2147483649 < q ∧ q < 2) ∨ (3 ≤ q ∧ q < 2147483648)) :
    ∃ k, toKind q = .ok k ∧ k ≠ FCT_MinMaxCPoints := by
  have key : -2147483648 ≤ toInt q ∧ toInt q ≤ 2147483647 ∧ toInt q ≠ 2 := by
    rcases h with ⟨h1, h2⟩ | ⟨h1, h2⟩
    · rcases lt_or_le q 0 with hq | hq
      · rw [toInt_of_neg hq]
        have f1 : ⌊-q⌋ ≤ 2147483648 := by
          have : ⌊-q⌋ < 2147483649 := Int.floor_lt.mpr (by push_cast; linarith)
          omega
        have f2 : 0 ≤ ⌊-q⌋ := Int.floor_nonneg.mpr (by linarith)
        omega
      · rw [toInt_of_nonneg hq]
        have f1 : ⌊q⌋ < 2 := Int.floor_lt.mpr (by push_cast; linarith)
        have f2 : 0 ≤ ⌊q⌋ := Int.floor_nonneg.mpr hq
        omega
    · rw [toInt_of_nonneg (by linarith)]
      have f1 : ⌊q⌋ < 2147483648 := Int.floor_lt.mpr (by push_cast; linarith)
      have f2 : 3 ≤ ⌊q⌋ := Int.le_floor.mpr (by push_cast; linarith)
      omega
  refine ⟨toInt q, ?_, key.2.2⟩
  unfold toKind
  rw [if_pos ⟨key.1, key.2.1⟩]

/-- C2, amended (identity fallback). For a parameter list with fewer than 5 values, and
for a list of 5 or more values whose first value `p[0]` satisfies `-2^31 - 1 < p[0] < 2`
or `3 <= p[0] < 2^31` (the values that the conversion `(FlatCurveType)p[0]`, a truncation
toward zero, sends to a kind other than `FCT_MinMaxCPoints`), the constructor returns a
curve and `getVal t` returns `t` on it for every `t`. -/
theorem identity_fallback (sqrt : ℚ → ℚ) (p : List ℚ) (ppn : Int)
    (h : p.length < 5 ∨ (-2147483649 < p.getD 0 0 ∧ p.getD 0 0 < 2) ∨
      (3 ≤ p.getD 0 0 ∧ p.getD 0 0 < 2147483648)) :
    ∃ c, FlatCurve.construct sqrt p ppn = .ok c ∧ ∀ t : ℚ, c.getVal t = .ok t := by
  obtain ⟨c, hc, hk⟩ := construct_other sqrt p ppn (h.imp id toKind_other)
  refine ⟨c, hc, fun t => ?_⟩
  unfold FlatCurve.getVal
  rw [if_neg hk]

/-- Witness of C2, amended: a Linear curve (tag 1) with two points. -/
theorem identity_fallback_witness :
    (([1, 0, 0, 0, 0, 1/2, 1, 1, 1] : List ℚ).length < 5 ∨
        (-2147483649 < ([1, 0, 0, 0, 0, 1/2, 1, 1, 1] : List ℚ).getD 0 0 ∧
          ([1, 0, 0, 0, 0, 1/2, 1, 1, 1] : List ℚ).getD 0 0 < 2) ∨
        (3 ≤ ([1, 0, 0, 0, 0, 1/2, 1, 1, 1] : List ℚ).getD 0 0 ∧
          ([1, 0, 0, 0, 0, 1/2, 1, 1, 1] : List ℚ).getD 0 0 < 2147483648)) ∧
      ∃ c, FlatCurve.construct Rat.sqrt [1, 0, 0, 0, 0, 1/2, 1, 1, 1] 50 = .ok c ∧
        ∀ t : ℚ, c.getVal t = .ok t :=
  ⟨by decide!, identity_fallback Rat.sqrt _ 50 (by decide!)⟩

/-- C2 as stated fails. The list `[2.5, 0,0,0,0, 0.25,1,0,0]` has 9 values and its first
value `2.5` is not the tag `2`; the conversion of line 41 truncates it to `2`, the
constructor builds the `FCT_MinMaxCPoints` curve of the points `(0,0)` and `(0.25,1)`, and
`getVal (0.125)` returns `0.5`, not `0.125`. -/
theorem identity_fallback_fails :
    5 ≤ ([5/2, 0, 0, 0, 0, 1/4, 1, 0, 0] : List ℚ).length ∧
      ([5/2, 0, 0, 0, 0, 1/4, 1, 0, 0] : List ℚ).getD 0 0 ≠ 2 ∧
      FlatCurve.construct Rat.sqrt [5/2, 0, 0, 0, 0, 1/4, 1, 0, 0] 10 =
        .ok { kind := 2, ppn := 10, N := 2, x := [0, 1/4, 1], y := [0, 1, 0],
              leftTangent := [0, 0, 0], rightTangent := [0, 0, 0],
              poly_x := [0, 1/4, 1], poly_y := [0, 1, 0] } ∧
      FlatCurve.getVal
        { kind := 2, ppn := 10, N := 2, x := [0, 1/4, 1], y := [0, 1, 0],
          leftTangent := [0, 0, 0], rightTangent := [0, 0, 0],
          poly_x := [0, 1/4, 1], poly_y := [0, 1, 0] } (1/8) = .ok (1/2) ∧
      (1/2 : ℚ) ≠ 1/8 := by
  decide!

/-- C9 (constructor parsing). For a parameter list `p` of length `L > 4` whose first value
reads as `FCT_MinMaxCPoints`, every curve the constructor returns has `N = (L-1)/4`, its
four arrays hold `N + 1` values, entry `i < N` of `x`, `y`, `leftTangent`, `rightTangent`
is `p[1+4i]`, `p[2+4i]`, `p[3+4i]`, `p[4+4i]` (all four reads inside `p`), and entry `N`
is the closing point `(p[1] + 1, p[2], p[3], p[4])`. -/
theorem constructor_parsing (sqrt : ℚ → ℚ) (p : List ℚ) (ppn : Int) (c : FlatCurve)
    (hL : 4 < p.length) (hk : toInt (p.getD 0 0) = FCT_MinMaxCPoints)
    (hc : FlatCurve.construct sqrt p ppn = .ok c) :
    c.N = (p.length - 1) / 4 ∧
    c.x.length = c.N + 1 ∧ c.y.length = c.N + 1 ∧
    c.leftTangent.length = c.N + 1 ∧ c.rightTangent.length = c.N + 1 ∧
    (∀ i, i < c.N → 4 + 4 * i < p.length ∧
      c.x[i]? = p[1 + 4 * i]? ∧ c.y[i]? = p[2 + 4 * i]? ∧
      c.leftTangent[i]? = p[3 + 4 * i]? ∧ c.rightTangent[i]? = p[4 + 4 * i]?) ∧
    (∃ p1 p2 p3 p4, p[1]? = some p1 ∧ p[2]? = some p2 ∧ p[3]? = some p3 ∧ p[4]? = some p4 ∧
      c.x[c.N]? = some (p1 + 1) ∧ c.y[c.N]? = some p2 ∧
      c.leftTangent[c.N]? = some p3 ∧ c.rightTangent[c.N]? = some p4) := by
  obtain ⟨-, -, hN, hx, hy, hl, hr⟩ := construct_fields hL hk hc
  rw [hx, hy, hl, hr, hN]
  refine ⟨rfl, by simp [ctrlOf], by simp [ctrlOf], by simp [ctrlOf], by simp [ctrlOf], ?_, ?_⟩
  · intro i hi
    have h4 : 4 + 4 * i < p.length := by omega
    refine ⟨h4, ?_, ?_, ?_, ?_⟩
    · rw [getD_of_lt p (1 + 4 * i) (by omega)]; exact getElem?_tab _ _ _ _ hi
    · rw [getD_of_lt p (2 + 4 * i) (by omega)]; exact getElem?_tab _ _ _ _ hi
    · rw [getD_of_lt p (3 + 4 * i) (by omega)]; exact getElem?_tab _ _ _ _ hi
    · rw [getD_of_lt p (4 + 4 * i) (by omega)]; exact getElem?_tab _ _ _ _ hi
  · exact ⟨p.getD 1 0, p.getD 2 0, p.getD 3 0, p.getD 4 0, getD_of_lt p 1 (by omega),
      getD_of_lt p 2 (by omega), getD_of_lt p 3 (by omega), getD_of_lt p 4 (by omega),
      getElem?_tab_last _ _ _, getElem?_tab_last _ _ _, getElem?_tab_last _ _ _,
      getElem?_tab_last _ _ _⟩

/-- Witness of C9: a list of 11 values (two points and two spare values), on which the
constructor builds a curve. -/
theorem constructor_parsing_witness :
    ∃ c, FlatCurve.construct Rat.sqrt [2, 0, 0, 0, 0, 1/4, 1, 1, 0, 7, 7] 10 = .ok c ∧
      c.N = 2 ∧ c.x = [0, 1/4, 1] ∧ c.y = [0, 1, 0] ∧ c.leftTangent = [0, 1, 0] ∧
      c.rightTangent = [0, 0, 0] ∧
      (c.N = (([2, 0, 0, 0, 0, 1/4, 1, 1, 0, 7, 7] : List ℚ).length - 1) / 4 ∧
        c.x.length = c.N + 1 ∧ c.y.length = c.N + 1 ∧
        c.leftTangent.length = c.N + 1 ∧ c.rightTangent.length = c.N + 1 ∧
        (∀ i, i < c.N → 4 + 4 * i < ([2, 0, 0, 0, 0, 1/4, 1, 1, 0, 7, 7] : List ℚ).length ∧
          c.x[i]? = ([2, 0, 0, 0, 0, 1/4, 1, 1, 0, 7, 7] : List ℚ)[1 + 4 * i]? ∧
          c.y[i]? = ([2, 0, 0, 0, 0, 1/4, 1, 1, 0, 7, 7] : List ℚ)[2 + 4 * i]? ∧
          c.leftTangent[i]? = ([2, 0, 0, 0, 0, 1/4, 1, 1, 0, 7, 7] : List ℚ)[3 + 4 * i]? ∧
          c.rightTangent[i]? = ([2, 0, 0, 0, 0, 1/4, 1, 1, 0, 7, 7] : List ℚ)[4 + 4 * i]?) ∧
        (∃ p1 p2 p3 p4, ([2, 0, 0, 0, 0, 1/4, 1, 1, 0, 7, 7] : List ℚ)[1]? = some p1 ∧
          ([2, 0, 0, 0, 0, 1/4, 1, 1, 0, 7, 7] : List ℚ)[2]? = some p2 ∧
          ([2, 0, 0, 0, 0, 1/4, 1, 1, 0, 7, 7] : List ℚ)[3]? = some p3 ∧
          ([2, 0, 0, 0, 0, 1/4, 1, 1, 0, 7, 7] : List ℚ)[4]? = some p4 ∧
          c.x[c.N]? = some (p1 + 1) ∧ c.y[c.N]? = some p2 ∧
          c.leftTangent[c.N]? = some p3 ∧ c.rightTangent[c.N]? = some p4)) :=
  ⟨{ kind := 2, ppn := 10, N := 2, x := [0, 1/4, 1], y := [0, 1, 0], leftTangent := [0, 1, 0],
     rightTangent := [0, 0, 0], poly_x := [0, 0, 1/16, 1/4, 1],
     poly_y := [0, 1/2, 7/8, 1, 0] },
   by decide!, rfl, rfl, rfl, rfl, rfl,
   constructor_parsing Rat.sqrt _ 10 _ (by decide) (by decide!) (by decide!)⟩

/-- C6, at its failing input. The list `[2, 1/2, 1/2, 0, 0]` (one control point) gives a
`FCT_MinMaxCPoints` curve with `N = 1`; `CtrlPoints_set` is not called, the polyline stays
empty, and `getVal` reads `poly_x[0]` past the end of the empty vector for every `t`. -/
theorem getVal_single_point_out_of_bounds :
    ∃ c, FlatCurve.construct Rat.sqrt [2, 1/2, 1/2, 0, 0] 50 = .ok c ∧
      c.kind = FCT_MinMaxCPoints ∧ c.N = 1 ∧ c.poly_x = [] ∧ c.poly_y = [] ∧
      ∀ t : ℚ, c.getVal t = .error .outOfBounds :=
  ⟨{ kind := 2, ppn := 50, N := 1, x := [1/2, 3/2], y := [1/2, 1/2], leftTangent := [0, 0],
     rightTangent := [0, 0], poly_x := [], poly_y := [] },
   by decide!, rfl, rfl, rfl, rfl, fun _ => rfl⟩

/-- C7 (lookup bracket). For a `FCT_MinMaxCPoints` curve whose polyline has at least 2
samples, and a query `t` whose wrapped value `t'` (`t + 1` if `t < poly_x[0]`, else `t`)
satisfies `poly_x[0] <= t' < poly_x[last]`, the binary search ends on `k_hi = k_lo + 1`
with `poly_x[k_lo] <= t' < poly_x[k_hi]`, the denominator `poly_x[k_hi] - poly_x[k_lo]` is
positive, and `getVal t` returns the linear interpolation at `t'` between the two
samples. No order on the samples is assumed. -/
theorem lookup_bracket (c : FlatCurve) (t x0 xl : ℚ) (hk : c.kind = FCT_MinMaxCPoints)
    (hlen : 2 ≤ c.poly_x.length) (hy : c.poly_y.length = c.poly_x.length)
    (h0 : c.poly_x[0]? = some x0) (hl : c.poly_x[c.poly_x.length - 1]? = some xl)
    (h1 : x0 ≤ (if t < x0 then t + 1 else t)) (h2 : (if t < x0 then t + 1 else t) < xl) :
    ∃ k_lo a b ya yb,
      search c.poly_x (if t < x0 then t + 1 else t) 0 (c.poly_x.length - 1)
        = .ok (k_lo, k_lo + 1) ∧
      c.poly_x[k_lo]? = some a ∧ c.poly_x[k_lo + 1]? = some b ∧
      c.poly_y[k_lo]? = some ya ∧ c.poly_y[k_lo + 1]? = some yb ∧
      a ≤ (if t < x0 then t + 1 else t) ∧ (if t < x0 then t + 1 else t) < b ∧ 0 < b - a ∧
      c.getVal t = .ok (ya + ((if t < x0 then t + 1 else t) - a) * (yb - ya) / (b - a)) := by
  obtain ⟨k, hs, -, hk2, hlo, hhi⟩ :=
    search_spec c.poly_x (if t < x0 then t + 1 else t) _ 0 (c.poly_x.length - 1) rfl
      (by omega) (by omega)
  obtain ⟨a, ha, hat⟩ : ∃ a, c.poly_x[k]? = some a ∧ a ≤ (if t < x0 then t + 1 else t) := by
    rcases hlo with rfl | h
    · exact ⟨x0, h0, h1⟩
    · exact h
  obtain ⟨b, hb, hbt⟩ : ∃ b, c.poly_x[k + 1]? = some b ∧ (if t < x0 then t + 1 else t) < b := by
    rcases hhi with e | h
    · exact ⟨xl, by rw [e]; exact hl, h2⟩
    · exact h
  have hpos : 0 < b - a := by linarith
  refine ⟨k, a, b, c.poly_y.getD k 0, c.poly_y.getD (k + 1) 0, hs, ha, hb,
    getD_of_lt _ _ (by omega), getD_of_lt _ _ (by omega), hat, hbt, hpos, ?_⟩
  unfold FlatCurve.getVal
  rw [if_pos hk]
  simp only [h0]
  exact lookup_of_search hs ha hb (getD_of_lt _ _ (by omega)) (getD_of_lt _ _ (by omega))
    (ne_of_gt hpos)

/-- Witness of C7: the polyline `(0,0), (1/4,1), (1/2,0), (1,1)`, not built by the
constructor, queried at `3/8`. -/
theorem lookup_bracket_witness :
    ∃ k_lo a b ya yb,
      search [0, 1/4, 1/2, 1] (if (3/8 : ℚ) < 0 then 3/8 + 1 else 3/8) 0 3
        = .ok (k_lo, k_lo + 1) ∧
      ([0, 1/4, 1/2, 1] : List ℚ)[k_lo]? = some a ∧
      ([0, 1/4, 1/2, 1] : List ℚ)[k_lo + 1]? = some b ∧
      ([0, 1, 0, 1] : List ℚ)[k_lo]? = some ya ∧ ([0, 1, 0, 1] : List ℚ)[k_lo + 1]? = some yb ∧
      a ≤ (if (3/8 : ℚ) < 0 then 3/8 + 1 else 3/8) ∧
      (if (3/8 : ℚ) < 0 then 3/8 + 1 else 3/8) < b ∧ 0 < b - a ∧
      FlatCurve.getVal
        { kind := 2, ppn := 0, N := 0, x := [], y := [], leftTangent := [], rightTangent := [],
          poly_x := [0, 1/4, 1/2, 1], poly_y := [0, 1, 0, 1] } (3/8)
        = .ok (ya + ((if (3/8 : ℚ) < 0 then 3/8 + 1 else 3/8) - a) * (yb - ya) / (b - a)) :=
  lookup_bracket
    { kind := 2, ppn := 0, N := 0, x := [], y := [], leftTangent := [], rightTangent := [],
      poly_x := [0, 1/4, 1/2, 1], poly_y := [0, 1, 0, 1] } (3/8) 0 1 rfl (by decide) rfl rfl rfl
    (by decide!) (by decide!)

/-- C8 (periodic wraparound). For a `FCT_MinMaxCPoints` curve whose polyline has a first
sample `poly_x[0]` and a query `t` with `poly_x[0] - 1 <= t < poly_x[0]`, `getVal t`
equals `getVal (t + 1)`, and both are the lookup (lines 304-314) at `t + 1`. -/
theorem periodic_wraparound (c : FlatCurve) (t x0 : ℚ) (hk : c.kind = FCT_MinMaxCPoints)
    (h0 : c.poly_x[0]? = some x0) (h1 : x0 - 1 ≤ t) (h2 : t < x0) :
    c.getVal t = c.getVal (t + 1) ∧ c.getVal t = c.lookup (t + 1) := by
  have h3 : ¬ (t + 1 < x0) := by linarith
  unfold FlatCurve.getVal
  simp only [if_pos hk, h0, if_pos h2, if_neg h3, and_self]

/-- Witness of C8: the curve of the points `(1/2, 0)` and `(3/4, 1)`, queried at `1/4`. -/
theorem periodic_wraparound_witness :
    FlatCurve.getVal
        { kind := 2, ppn := 0, N := 2, x := [1/2, 3/4, 3/2], y := [0, 1, 0],
          leftTangent := [0, 0, 0], rightTangent := [0, 0, 0],
          poly_x := [1/2, 3/4, 3/2], poly_y := [0, 1, 0] } (1/4)
      = FlatCurve.getVal
        { kind := 2, ppn := 0, N := 2, x := [1/2, 3/4, 3/2], y := [0, 1, 0],
          leftTangent := [0, 0, 0], rightTangent := [0, 0, 0],
          poly_x := [1/2, 3/4, 3/2], poly_y := [0, 1, 0] } (1/4 + 1) ∧
    FlatCurve.getVal
        { kind := 2, ppn := 0, N := 2, x := [1/2, 3/4, 3/2], y := [0, 1, 0],
          leftTangent := [0, 0, 0], rightTangent := [0, 0, 0],
          poly_x := [1/2, 3/4, 3/2], poly_y := [0, 1, 0] } (1/4)
      = FlatCurve.lookup
        { kind := 2, ppn := 0, N := 2, x := [1/2, 3/4, 3/2], y := [0, 1, 0],
          leftTangent := [0, 0, 0], rightTangent := [0, 0, 0],
          poly_x := [1/2, 3/4, 3/2], poly_y := [0, 1, 0] } (1/4 + 1) :=
  periodic_wraparound _ (1/4) (1/2) rfl rfl (by decide!) (by decide!)

/-! ## Claims on the ends of the polyline -/

/-- C10 (closure). For every `FCT_MinMaxCPoints` curve with `N >= 2` the constructor
builds (valid or not), `poly_x` and `poly_y` have the same size, the first sample of the
polyline is the first control point `(p[1], p[2])` and the last sample is the closing
point `(p[1] + 1, p[2])`. -/
theorem polyline_closure (sqrt : ℚ → ℚ) (p : List ℚ) (ppn : Int) (c : FlatCurve)
    (hL : 4 < p.length) (hk : toInt (p.getD 0 0) = FCT_MinMaxCPoints)
    (hN : 2 ≤ (p.length - 1) / 4) (hc : FlatCurve.construct sqrt p ppn = .ok c) :
    c.poly_x.length = c.poly_y.length ∧
      c.poly_x[0]? = some (p.getD 1 0) ∧ c.poly_y[0]? = some (p.getD 2 0) ∧
      c.poly_x[c.poly_x.length - 1]? = some (p.getD 1 0 + 1) ∧
      c.poly_y[c.poly_y.length - 1]? = some (p.getD 2 0) := by
  obtain ⟨hx, hy⟩ := construct_polyline hL hk hN hc
  obtain ⟨-, -, eN, ex, ey, -, -⟩ := construct_fields hL hk hc
  have hX0 : c.x.getD 0 0 = p.getD 1 0 := by
    rw [ex]; exact getD_tab _ _ _ _ (by omega)
  have hY0 : c.y.getD 0 0 = p.getD 2 0 := by
    rw [ey]; exact getD_tab _ _ _ _ (by omega)
  have hXN : c.x.getD (c.N - 1 + 1) 0 = p.getD 1 0 + 1 := by
    rw [show c.N - 1 + 1 = (p.length - 1) / 4 by omega, ex]; exact getD_tab_last _ _ _
  have hYN : c.y.getD (c.N - 1 + 1) 0 = p.getD 2 0 := by
    rw [show c.N - 1 + 1 = (p.length - 1) / 4 by omega, ey]; exact getD_tab_last _ _ _
  have e : polyPts sqrt c = _ := polyPts_eq sqrt c
  rw [show c.N = c.N - 1 + 1 by omega, ptsUpTo_succ] at e
  have hl := samplesOf_getLast sqrt c.ppn (subCurves sqrt c).total_length
    (c.x.getD (c.N - 1) 0) (c.y.getD (c.N - 1) 0) (c.x.getD (c.N - 1 + 1) 0)
    (c.y.getD (c.N - 1 + 1) 0) (c.rightTangent.getD (c.N - 1) 0)
    (c.leftTangent.getD (c.N - 1 + 1) 0)
  rw [← intervalSamples_eq] at hl
  obtain ⟨D, hD⟩ := List.getLast?_eq_some_iff.mp hl
  rw [hD, ← List.append_assoc] at e
  refine ⟨by rw [hx, hy]; simp, ?_, ?_, ?_, ?_⟩
  · rw [hx, (polyPts_head sqrt c).1, hX0]
  · rw [hy, (polyPts_head sqrt c).2, hY0]
  · rw [← List.getLast?_eq_getElem?, hx, e, List.map_append, List.map_singleton,
      List.getLast?_concat, hXN]
  · rw [← List.getLast?_eq_getElem?, hy, e, List.map_append, List.map_singleton,
      List.getLast?_concat, hYN]

/-- Witness of C10: the curve `arcCurve`; its polyline runs from `(0, 0)` to `(1, 0)`. -/
theorem polyline_closure_witness :
    FlatCurve.construct Rat.sqrt arcParams 20 = .ok arcCurve ∧
      (arcCurve.poly_x.length = arcCurve.poly_y.length ∧
        arcCurve.poly_x[0]? = some (arcParams.getD 1 0) ∧
        arcCurve.poly_y[0]? = some (arcParams.getD 2 0) ∧
        arcCurve.poly_x[arcCurve.poly_x.length - 1]? = some (arcParams.getD 1 0 + 1) ∧
        arcCurve.poly_y[arcCurve.poly_y.length - 1]? = some (arcParams.getD 2 0)) :=
  ⟨by decide!,
    polyline_closure Rat.sqrt arcParams 20 arcCurve (by decide!) (by decide!) (by decide!)
      (by decide!)⟩

/-! ## Claims on the evaluator: batch evaluation, termination -/

theorem resize_length (res : List ℚ) (n : Nat) : (resize res n).length = n := by
  simp [resize]
  omega

theorem getValLoop_spec (c : FlatCurve) (t : List ℚ) :
    ∀ (n i : Nat) (res : List ℚ), i + n = t.length → res.length = t.length →
      (∀ out : List ℚ, getValLoop c t n i res = .ok out →
        out.length = t.length ∧ (∀ k : Nat, k < i → out[k]? = res[k]?) ∧
        ∀ (k : Nat) (ti : ℚ), i ≤ k → t[k]? = some ti →
          ∃ v, c.getVal ti = .ok v ∧ out[k]? = some v) ∧
      ((∀ (k : Nat) (ti : ℚ), i ≤ k → t[k]? = some ti → ∃ v, c.getVal ti = .ok v) →
        ∃ out, getValLoop c t n i res = .ok out) := by
  intro n
  induction n with
  | zero =>
    intro i res hi hr
    refine ⟨fun out h => ?_, fun _ => ⟨res, rfl⟩⟩
    simp only [getValLoop] at h
    cases h
    refine ⟨hr, fun _ _ => rfl, fun k ti hk hti => ?_⟩
    have := (List.getElem?_eq_some_iff.mp hti).1
    omega
  | succ n ih =>
    intro i res hi hr
    have hit : i < t.length := by omega
    have hti : t[i]? = some t[i] := List.getElem?_eq_getElem hit
    have hres : i < res.length := by omega
    constructor
    · intro out h
      rw [getValLoop, hti] at h
      dsimp only at h
      cases hv : c.getVal t[i] with
      | error e => rw [hv] at h; cases h
      | ok v =>
        rw [hv] at h
        simp only [if_pos hres] at h
        obtain ⟨h1, h2, h3⟩ :=
          (ih (i + 1) (res.set i v) (by omega) (by simpa using hr)).1 out h
        refine ⟨h1, fun k hk => ?_, fun k tk hk htk => ?_⟩
        · rw [h2 k (by omega), List.getElem?_set_ne (by omega)]
        · rcases Nat.eq_or_lt_of_le hk with rfl | hlt
          · rw [hti] at htk
            cases htk
            refine ⟨v, hv, ?_⟩
            rw [h2 i (by omega), List.getElem?_set_eq_of_lt _ hres]
          · exact h3 k tk hlt htk
    · intro hall
      obtain ⟨v, hv⟩ := hall i t[i] (le_refl _) hti
      rw [getValLoop, hti]
      dsimp only
      rw [hv]
      simp only [if_pos hres]
      exact (ih (i + 1) (res.set i v) (by omega) (by simpa using hr)).2
        (fun k tk hk htk => hall k tk (by omega) htk)

/-- C11 (batch evaluation). For every curve, every input sequence `ts` and every initial
content of `res`: when the batch `getVal` returns, `res` has exactly `ts.size()` elements
and `res[i]` is the value `getVal (ts[i])` returns, for every index `i`; and it returns
whenever the scalar `getVal` returns a value on every element of `ts`. -/
theorem batch_evaluation (c : FlatCurve) (ts res : List ℚ) :
    (∀ out : List ℚ, c.getValVector ts res = .ok out →
      out.length = ts.length ∧
      ∀ (i : Nat) (ti : ℚ), ts[i]? = some ti → ∃ v, c.getVal ti = .ok v ∧ out[i]? = some v) ∧
    ((∀ ti, ti ∈ ts → ∃ v, c.getVal ti = .ok v) → ∃ out, c.getValVector ts res = .ok out) := by
  have h := getValLoop_spec c ts ts.length 0 (resize res ts.length) (by omega)
    (resize_length res ts.length)
  refine ⟨fun out ho => ?_, fun hall => ?_⟩
  · obtain ⟨h1, -, h3⟩ := h.1 out ho
    exact ⟨h1, fun i ti hti => h3 i ti (Nat.zero_le i) hti⟩
  · exact h.2 (fun k ti _ hti => hall ti (List.mem_iff_getElem?.mpr ⟨k, hti⟩))

/-- An instance of C11: on the curve `arcCurve`, three queries written over a `res` that
held five stale values. -/
theorem batch_evaluation_example :
    arcCurve.getValVector [0, 1/8, 1/4] [9, 9, 9, 9, 9] = .ok [0, 1/2, 1] ∧
      arcCurve.getVal 0 = .ok 0 ∧ arcCurve.getVal (1/8) = .ok (1/2) ∧
      arcCurve.getVal (1/4) = .ok 1 := by
  decide!

theorem searchLoop_spec (xs : List ℚ) (t : ℚ) :
    ∀ (n lo hi : Nat), hi - lo ≤ n + 1 → lo ≤ hi → hi < xs.length →
      ∃ st, searchLoop xs t n (lo, hi) = .ok (some st) ∧ search xs t lo hi = .ok st ∧
        st.2 - st.1 ≤ 1 ∧ st.2 < xs.length := by
  intro n
  induction n with
  | zero =>
    intro lo hi hn _ hhi
    have h1 : ¬ (hi - lo > 1) := by omega
    refine ⟨(lo, hi), ?_, ?_, by simpa using h1, hhi⟩
    · simp only [searchLoop, if_neg h1]
    · rw [search, if_neg h1]
  | succ n ih =>
    intro lo hi hn hle hhi
    by_cases h1 : hi - lo > 1
    · have hm : (hi + lo) / 2 < xs.length := by omega
      rw [search, if_pos h1, List.getElem?_eq_getElem hm]
      simp only [searchLoop, if_pos h1, searchBody, List.getElem?_eq_getElem hm]
      by_cases hv : xs[(hi + lo) / 2] > t
      · simp only [if_pos hv]
        exact ih lo ((hi + lo) / 2) (by omega) (by omega) hm
      · simp only [if_neg hv]
        exact ih ((hi + lo) / 2) hi (by omega) (by omega) hhi
    · refine ⟨(lo, hi), ?_, ?_, by simpa using h1, hhi⟩
      · simp only [searchLoop, if_neg h1]
      · rw [search, if_neg h1]

/-- C17 (the binary search terminates). For every polyline and every query `t`: an
iteration of the loop run on a state with `k_hi - k_lo > 1` and `k_hi` inside the polyline
reads inside the polyline and strictly decreases `k_hi - k_lo`; and the loop started by
`getVal` on `(0, size - 1)` leaves within `size` iterations, on a state with
`k_hi - k_lo <= 1`, which is the state `search` returns. (On the empty polyline the C++
`k_hi` is `-1` and the model's is `0`; the loop test fails at once in both.) -/
theorem search_terminates (poly_x : List ℚ) (t : ℚ) :
    (∀ k_lo k_hi, k_hi - k_lo > 1 → k_hi < poly_x.length →
      ∃ st, searchBody poly_x t (k_lo, k_hi) = .ok st ∧ st.2 - st.1 < k_hi - k_lo ∧
        st.1 < st.2 ∧ st.2 < poly_x.length) ∧
    ∃ st, searchLoop poly_x t poly_x.length (0, poly_x.length - 1) = .ok (some st) ∧
      search poly_x t 0 (poly_x.length - 1) = .ok st ∧ st.2 - st.1 ≤ 1 := by
  constructor
  · intro lo hi h1 hhi
    have hm : (hi + lo) / 2 < poly_x.length := by omega
    simp only [searchBody, List.getElem?_eq_getElem hm]
    by_cases hv : poly_x[(hi + lo) / 2] > t
    · exact ⟨_, by rw [if_pos hv], by simp only; omega, by simp only; omega,
        by simp only; omega⟩
    · exact ⟨_, by rw [if_neg hv], by simp only; omega, by simp only; omega,
        by simp only; omega⟩
  · by_cases hne : 1 ≤ poly_x.length
    · obtain ⟨st, h1, h2, h3, -⟩ :=
        searchLoop_spec poly_x t poly_x.length 0 (poly_x.length - 1) (by omega)
          (Nat.zero_le _) (by omega)
      exact ⟨st, h1, h2, h3⟩
    · have h0 : poly_x.length = 0 := by omega
      refine ⟨(0, 0), ?_, ?_, by simp⟩
      · rw [h0]
        simp [searchLoop]
      · rw [h0, search]
        simp

/-- An instance of C17: the polyline of `arcCurve` (10 samples) queried at `1/5`; the loop
leaves on `(7, 8)` within 10 iterations. -/
theorem search_terminates_example :
    searchLoop arcCurve.poly_x (1/5) arcCurve.poly_x.length (0, arcCurve.poly_x.length - 1)
        = .ok (some (7, 8)) ∧
      search arcCurve.poly_x (1/5) 0 (arcCurve.poly_x.length - 1) = .ok (7, 8) := by
  decide!

/-! ## Claims on the first loop of `CtrlPoints_set` -/

theorem mem_piecesOf_len (sqrt : ℚ → ℚ) (xi yi xi1 yi1 rt lt : ℚ) {p : Piece}
    (hp : p ∈ piecesOf sqrt xi yi xi1 yi1 rt lt) : p.len = p.polyLen sqrt := by
  unfold piecesOf at hp
  dsimp only at hp
  split_ifs at hp <;>
    simp only [List.mem_cons, List.mem_singleton, List.not_mem_nil, or_false] at hp <;>
    rcases hp with rfl | rfl <;> rfl

theorem mem_allPieces_len (sqrt : ℚ → ℚ) (c : FlatCurve) {p : Piece}
    (hp : p ∈ allPieces sqrt c) : p.len = p.polyLen sqrt := by
  obtain ⟨i, -, hi⟩ := List.mem_flatMap.mp hp
  exact mem_piecesOf_len sqrt _ _ _ _ _ _ hi

theorem foldl_add_total (ps : List Piece) (s : SubCurves) :
    (ps.foldl SubCurves.add s).total_length = s.total_length + (ps.map Piece.len).sum := by
  induction ps generalizing s with
  | nil => simp
  | cons p ps ih =>
    rw [List.foldl_cons, ih]
    simp [SubCurves.add, add_assoc]

theorem subCurves_total (sqrt : ℚ → ℚ) (c : FlatCurve) :
    (subCurves sqrt c).total_length = ((allPieces sqrt c).map Piece.len).sum := by
  unfold subCurves allPieces
  rw [foldl_subCurvesStep, foldl_add_total]
  simp

/-- C16, amended (length contribution). For every curve, the scratch vectors after the
first loop are made of pieces (two stored points and the flag `true`, or three stored
points and the flag `false`), and the length stored for a piece is: for a two-point
piece (a full-interval line or a linear half) the distance `sqrt (dx*dx + dy*dy)` between
its two points; for a three-point piece `[P0, P1, M]` the sum of the distances from `P0`
to `P1` and from `P1` to `M`. `total_length` is the sum of the stored lengths. -/
theorem stored_lengths (sqrt : ℚ → ℚ) (c : FlatCurve) :
    ∃ ps : List Piece,
      (subCurves sqrt c).sc_x = ps.flatMap Piece.xs ∧
      (subCurves sqrt c).sc_y = ps.flatMap Piece.ys ∧
      (subCurves sqrt c).sc_isLinear = ps.map Piece.isLinear ∧
      (subCurves sqrt c).sc_length = ps.map (Piece.polyLen sqrt) ∧
      (subCurves sqrt c).total_length = (subCurves sqrt c).sc_length.sum := by
  obtain ⟨hx, hy, hl, hf⟩ := subCurves_fields sqrt c
  refine ⟨allPieces sqrt c, hx, hy, hf, ?_, ?_⟩
  · rw [hl]
    exact List.map_congr_left (fun p hp => mem_allPieces_len sqrt c hp)
  · rw [subCurves_total, hl]

/-- C16 as stated fails. The first sub-curve of `arcCurve` is the curved half-arc with
the points `(0,0)`, `(1/8,0)`, `(1/8,1/2)`; its stored length is `5/8 = 1/8 + 1/2`, and
`5/8` is not the distance from `(0,0)` to `(1/8,1/2)`, whose square is `17/64`. -/
theorem stored_lengths_fails :
    (subCurves Rat.sqrt arcCurve).sc_isLinear[0]? = some false ∧
      (subCurves Rat.sqrt arcCurve).sc_x.take 3 = [0, 1/8, 1/8] ∧
      (subCurves Rat.sqrt arcCurve).sc_y.take 3 = [0, 0, 1/2] ∧
      (subCurves Rat.sqrt arcCurve).sc_length[0]? = some (5/8) ∧
      (5/8 : ℚ) * (5/8) ≠ (1/8 - 0) * (1/8 - 0) + (1/2 - 0) * (1/2 - 0) ∧
      Rat.sqrt ((1/8 - 0) * (1/8 - 0) + (1/2 - 0) * (1/2 - 0)) ≠ 5/8 := by
  decide!

theorem piecesOf_sizes (sqrt : ℚ → ℚ) (xi yi xi1 yi1 rt lt : ℚ) :
    (piecesOf sqrt xi yi xi1 yi1 rt lt).length ≤ 2 ∧
      ((piecesOf sqrt xi yi xi1 yi1 rt lt).flatMap Piece.xs).length ≤ 6 := by
  unfold piecesOf
  dsimp only
  split_ifs <;> simp [mkLine, mkArc, Piece.xs, List.flatMap_cons]

theorem pieces_sizes (sqrt : ℚ → ℚ) (c : FlatCurve) (l : List Nat) :
    (l.flatMap (intervalPieces sqrt c)).length ≤ 2 * l.length ∧
      ((l.flatMap (intervalPieces sqrt c)).flatMap Piece.xs).length ≤ 6 * l.length := by
  induction l with
  | nil => simp
  | cons i l ih =>
    have h : (intervalPieces sqrt c i).length ≤ 2 ∧
        ((intervalPieces sqrt c i).flatMap Piece.xs).length ≤ 6 :=
      piecesOf_sizes sqrt (c.x.getD i 0) (c.y.getD i 0) (c.x.getD (i + 1) 0)
        (c.y.getD (i + 1) 0) (c.rightTangent.getD i 0) (c.leftTangent.getD (i + 1) 0)
    simp only [List.flatMap_cons, List.flatMap_append, List.length_append, List.length_cons]
    omega

theorem pieces_xs_ys (ps : List Piece) :
    (ps.flatMap Piece.ys).length = (ps.flatMap Piece.xs).length ∧
      (ps.flatMap Piece.xs).length
        = ((ps.map Piece.isLinear).map fun l => if l then 2 else 3).sum := by
  induction ps with
  | nil => simp
  | cons p ps ih =>
    cases p <;>
      simp [List.flatMap_cons, Piece.xs, Piece.ys, Piece.isLinear, ih.1, ih.2] <;> omega

theorem subCurvesUpTo_fields (sqrt : ℚ → ℚ) (c : FlatCurve) (i : Nat) :
    (subCurvesUpTo sqrt c i).sc_x
        = ((List.range i).flatMap (intervalPieces sqrt c)).flatMap Piece.xs ∧
      (subCurvesUpTo sqrt c i).sc_y
        = ((List.range i).flatMap (intervalPieces sqrt c)).flatMap Piece.ys ∧
      (subCurvesUpTo sqrt c i).sc_length
        = ((List.range i).flatMap (intervalPieces sqrt c)).map Piece.len ∧
      (subCurvesUpTo sqrt c i).sc_isLinear
        = ((List.range i).flatMap (intervalPieces sqrt c)).map Piece.isLinear := by
  unfold subCurvesUpTo
  rw [foldl_subCurvesStep]
  simpa using foldl_add_fields _ _

theorem polyLoop_no_oob (s : SubCurves) (ppn : Int) :
    ∀ (ps : List Piece) (i j : Nat) (poly : List ℚ × List ℚ),
      s.sc_isLinear.drop i = ps.map Piece.isLinear →
      s.sc_length.drop i = ps.map Piece.len →
      s.sc_x.drop j = ps.flatMap Piece.xs →
      s.sc_y.drop j = ps.flatMap Piece.ys →
      polyLoop s ppn ps.length i j poly ≠ .error .outOfBounds := by
  intro ps
  induction ps with
  | nil =>
    intro i j poly _ _ _ _
    simp [polyLoop]
  | cons p ps ih =>
    intro i j poly hf hl hx hy
    rw [List.map_cons] at hf hl
    rw [List.flatMap_cons] at hx hy
    obtain ⟨hf0, hf1⟩ := drop_eq_cons hf
    obtain ⟨hl0, hl1⟩ := drop_eq_cons hl
    rw [List.length_cons, polyLoop]
    cases p with
    | line xa ya xb yb len =>
      simp only [Piece.xs, Piece.ys, List.cons_append, List.nil_append] at hx hy
      obtain ⟨-, hx1⟩ := drop_eq_cons hx
      obtain ⟨hx1, hx2⟩ := drop_eq_cons hx1
      obtain ⟨-, hy1⟩ := drop_eq_cons hy
      obtain ⟨hy1, hy2⟩ := drop_eq_cons hy1
      simp only [hf0, Piece.isLinear, hx1, hy1]
      exact ih (i + 1) (j + 2) _ hf1 hl1 hx2 hy2
    | arc xa ya xb yb xc yc len =>
      simp only [Piece.xs, Piece.ys, List.cons_append, List.nil_append] at hx hy
      obtain ⟨hx0, hx1⟩ := drop_eq_cons hx
      obtain ⟨hx1, hx2⟩ := drop_eq_cons hx1
      obtain ⟨hx2, hx3⟩ := drop_eq_cons hx2
      obtain ⟨hy0, hy1⟩ := drop_eq_cons hy
      obtain ⟨hy1, hy2⟩ := drop_eq_cons hy1
      obtain ⟨hy2, hy3⟩ := drop_eq_cons hy2
      simp only [hf0, Piece.isLinear, hl0, Piece.len, hx0, hx1, hx2, hy0, hy1, hy2]
      split_ifs
      · simp
      · simp
      · exact ih (i + 1) (j + 3) _ hf1 hl1 hx3 hy3

theorem subCurves_head {sqrt : ℚ → ℚ} {c : FlatCurve} (hN : 0 < c.N) :
    (subCurves sqrt c).sc_x[0]? = some (c.x.getD 0 0) ∧
      (subCurves sqrt c).sc_y[0]? = some (c.y.getD 0 0) := by
  obtain ⟨hx, hy, -, -⟩ := subCurves_fields sqrt c
  have hr : List.range c.N = 0 :: (List.range (c.N - 1)).map Nat.succ := by
    conv_lhs => rw [show c.N = (c.N - 1) + 1 by omega]
    exact List.range_succ_eq_map _
  obtain ⟨rx, ry, e1, e2⟩ :=
    piecesOf_head sqrt (c.x.getD 0 0) (c.y.getD 0 0) (c.x.getD (0 + 1) 0)
      (c.y.getD (0 + 1) 0) (c.rightTangent.getD 0 0) (c.leftTangent.getD (0 + 1) 0)
  constructor
  · rw [hx, allPieces, hr, List.flatMap_cons, List.flatMap_append, intervalPieces, e1]
    simp
  · rw [hy, allPieces, hr, List.flatMap_cons, List.flatMap_append, intervalPieces, e2]
    simp

/-- C19 (the scratch buffers are never overrun). For every curve with `N >= 1` and any
control points: after `i <= N` iterations of the first loop at most `6*i` points and
`2*i` sub-curves have been written (so every write index is below `6*N`, resp. `2*N`),
`sc_y` is as long as `sc_x` and `sc_isLinear` as long as `sc_length`; the points written
are 2 for each linear sub-curve and 3 for each curved one; and `CtrlPoints_set` never
reads `sc_x`, `sc_y`, `sc_length` or `sc_isLinear` at or past the number of values
written. -/
theorem scratch_buffers_in_bounds (sqrt : ℚ → ℚ) (c : FlatCurve) (hN : 1 ≤ c.N) :
    (∀ i, i ≤ c.N →
      (subCurvesUpTo sqrt c i).sc_x.length ≤ 6 * i ∧
      (subCurvesUpTo sqrt c i).sc_y.length = (subCurvesUpTo sqrt c i).sc_x.length ∧
      (subCurvesUpTo sqrt c i).sc_length.length ≤ 2 * i ∧
      (subCurvesUpTo sqrt c i).sc_isLinear.length
        = (subCurvesUpTo sqrt c i).sc_length.length) ∧
    subCurvesUpTo sqrt c c.N = subCurves sqrt c ∧
    (subCurves sqrt c).sc_x.length ≤ 6 * c.N ∧ (subCurves sqrt c).sc_length.length ≤ 2 * c.N ∧
    (subCurves sqrt c).sc_x.length
      = ((subCurves sqrt c).sc_isLinear.map fun l => if l then 2 else 3).sum ∧
    c.CtrlPoints_set sqrt ≠ .error .outOfBounds := by
  have hsz : ∀ i, (subCurvesUpTo sqrt c i).sc_x.length ≤ 6 * i ∧
      (subCurvesUpTo sqrt c i).sc_y.length = (subCurvesUpTo sqrt c i).sc_x.length ∧
      (subCurvesUpTo sqrt c i).sc_length.length ≤ 2 * i ∧
      (subCurvesUpTo sqrt c i).sc_isLinear.length
        = (subCurvesUpTo sqrt c i).sc_length.length := by
    intro i
    obtain ⟨hx, hy, hl, hf⟩ := subCurvesUpTo_fields sqrt c i
    have h := pieces_sizes sqrt c (List.range i)
    rw [List.length_range] at h
    rw [hx, hy, hl, hf]
    exact ⟨h.2, (pieces_xs_ys _).1, by simpa using h.1, by simp⟩
  have hfull : subCurvesUpTo sqrt c c.N = subCurves sqrt c := rfl
  obtain ⟨hx, hy, hl, hf⟩ := subCurves_fields sqrt c
  refine ⟨fun i _ => hsz i, hfull, ?_, ?_, ?_, ?_⟩
  · rw [← hfull]; exact (hsz c.N).1
  · rw [← hfull]; exact (hsz c.N).2.2.1
  · rw [hx, hf]; exact (pieces_xs_ys _).2
  · obtain ⟨h0x, h0y⟩ := @subCurves_head sqrt c (by omega)
    unfold FlatCurve.CtrlPoints_set
    simp only [h0x, h0y]
    have hno := polyLoop_no_oob (subCurves sqrt c) c.ppn (allPieces sqrt c) 0 0
      ([c.x.getD 0 0], [c.y.getD 0 0]) (by simp [hf]) (by simp [hl]) (by simp [hx])
      (by simp [hy])
    rw [hl, List.length_map]
    cases hp : polyLoop (subCurves sqrt c) c.ppn (allPieces sqrt c).length 0 0
        ([c.x.getD 0 0], [c.y.getD 0 0]) with
    | ok poly => simp
    | error e =>
      rw [hp] at hno
      simpa using hno

/-- Witness of C19: the control points of `arcCurve` (`N = 2`); the first loop writes 8
points and 3 sub-curves. -/
theorem scratch_buffers_in_bounds_witness :
    (subCurves Rat.sqrt arcCurve).sc_x.length = 8 ∧
      (subCurves Rat.sqrt arcCurve).sc_length.length = 3 ∧
      ((∀ i, i ≤ arcCurve.N →
        (subCurvesUpTo Rat.sqrt arcCurve i).sc_x.length ≤ 6 * i ∧
        (subCurvesUpTo Rat.sqrt arcCurve i).sc_y.length
          = (subCurvesUpTo Rat.sqrt arcCurve i).sc_x.length ∧
        (subCurvesUpTo Rat.sqrt arcCurve i).sc_length.length ≤ 2 * i ∧
        (subCurvesUpTo Rat.sqrt arcCurve i).sc_isLinear.length
          = (subCurvesUpTo Rat.sqrt arcCurve i).sc_length.length) ∧
      subCurvesUpTo Rat.sqrt arcCurve arcCurve.N = subCurves Rat.sqrt arcCurve ∧
      (subCurves Rat.sqrt arcCurve).sc_x.length ≤ 6 * arcCurve.N ∧
      (subCurves Rat.sqrt arcCurve).sc_length.length ≤ 2 * arcCurve.N ∧
      (subCurves Rat.sqrt arcCurve).sc_x.length
        = ((subCurves Rat.sqrt arcCurve).sc_isLinear.map fun l => if l then 2 else 3).sum ∧
      arcCurve.CtrlPoints_set Rat.sqrt ≠ .error .outOfBounds) :=
  ⟨by decide!, by decide!, scratch_buffers_in_bounds Rat.sqrt arcCurve (by decide)⟩

theorem piecesOf_xs (sqrt : ℚ → ℚ) {xi yi xi1 yi1 rt lt : ℚ} (hr1 : rt ≤ 1) (hl1 : lt ≤ 1)
    (h : ¬((rt = 0 ∨ yi = yi1) ∧ (lt = 0 ∨ yi = yi1))) :
    (piecesOf sqrt xi yi xi1 yi1 rt lt).flatMap Piece.xs =
      ((if rt = 0 then [xi, (handleAbscissae xi yi xi1 yi1 rt lt).2.1]
        else [xi, (handleAbscissae xi yi xi1 yi1 rt lt).1,
              (handleAbscissae xi yi xi1 yi1 rt lt).2.1]) ++
       (if lt = 0 then [(handleAbscissae xi yi xi1 yi1 rt lt).2.1, xi1]
        else [(handleAbscissae xi yi xi1 yi1 rt lt).2.1,
              (handleAbscissae xi yi xi1 yi1 rt lt).2.2, xi1])) ∧
    (piecesOf sqrt xi yi xi1 yi1 rt lt).map Piece.isLinear
      = [decide (rt = 0), decide (lt = 0)] := by
  have hy : yi ≠ yi1 := fun e => h ⟨Or.inr e, Or.inr e⟩
  by_cases hr : rt = 0
  · have hl : lt ≠ 0 := fun e => h ⟨Or.inl hr, Or.inl e⟩
    subst hr
    have hc : ¬ (1 < lt) := not_lt.mpr hl1
    rw [piecesOf_line_arc sqrt hy hl hl1]
    simp [handleAbscissae, hl, hy, hc, mkLine, mkArc, Piece.xs, Piece.isLinear,
      List.flatMap_cons]
  · by_cases hl : lt = 0
    · subst hl
      have hc : ¬ (1 < rt) := not_lt.mpr hr1
      rw [piecesOf_arc_line sqrt hy hr hr1]
      simp [handleAbscissae, hr, hy, hc, mkLine, mkArc, Piece.xs, Piece.isLinear,
        List.flatMap_cons]
    · rw [piecesOf_arc_arc sqrt hy hr hl]
      simp [handleAbscissae, hr, hl, hy, mkLine, mkArc, Piece.xs, Piece.isLinear,
        List.flatMap_cons]

theorem subCurvesStep_fields (sqrt : ℚ → ℚ) (c : FlatCurve) (s : SubCurves) (i : Nat) :
    (subCurvesStep sqrt c s i).sc_x
        = s.sc_x ++ (intervalPieces sqrt c i).flatMap Piece.xs ∧
      (subCurvesStep sqrt c s i).sc_isLinear
        = s.sc_isLinear ++ (intervalPieces sqrt c i).map Piece.isLinear := by
  rw [subCurvesStep_eq]
  obtain ⟨h1, -, -, h4⟩ := foldl_add_fields (intervalPieces sqrt c i) s
  exact ⟨h1, h4⟩

theorem subCurvesStep_line (sqrt : ℚ → ℚ) (c : FlatCurve) (s : SubCurves) (i : Nat)
    (h : (c.rightTangent.getD i 0 = 0 ∨ c.y.getD i 0 = c.y.getD (i + 1) 0) ∧
      (c.leftTangent.getD (i + 1) 0 = 0 ∨ c.y.getD i 0 = c.y.getD (i + 1) 0)) :
    (subCurvesStep sqrt c s i).sc_x = s.sc_x ++ [c.x.getD i 0, c.x.getD (i + 1) 0] ∧
      (subCurvesStep sqrt c s i).sc_isLinear = s.sc_isLinear ++ [true] := by
  obtain ⟨f1, f2⟩ := subCurvesStep_fields sqrt c s i
  unfold intervalPieces at f1 f2
  rw [piecesOf_line sqrt h] at f1 f2
  exact ⟨f1, f2⟩


theorem toInt_nonneg {q : ℚ} (h : 0 ≤ q) : 0 ≤ toInt q :=
  Int.tdiv_nonneg (Rat.num_nonneg.mpr h) (Int.natCast_nonneg _)

theorem toInt_le {q : ℚ} (h : 0 ≤ q) : ((toInt q : Int) : ℚ) ≤ q := by
  have e : toInt q = ⌊q⌋ := by
    unfold toInt
    rw [Int.tdiv_eq_ediv (Rat.num_nonneg.mpr h) (Int.natCast_nonneg _), Rat.floor_def]
  rw [e]
  exact Int.floor_le q

theorem sqrtOK_ratSqrt : SqrtOK Rat.sqrt where
  nonneg := Rat.sqrt_nonneg
  pos := fun a ha => by
    have hn : 0 < a.num := Rat.num_pos.mpr ha
    have h1 : 0 < Int.sqrt a.num := by
      unfold Int.sqrt
      exact_mod_cast Nat.sqrt_pos.mpr (by omega)
    have h2 : 0 < Nat.sqrt a.den := Nat.sqrt_pos.mpr a.den_pos
    unfold Rat.sqrt
    rw [Rat.mkRat_eq_div]
    exact div_pos (by exact_mod_cast h1) (by exact_mod_cast h2)

theorem sq_add_sq_pos {a b : ℚ} (h : a ≠ 0 ∨ b ≠ 0) : 0 < a * a + b * b := by
  rcases h with h | h
  · have := mul_self_pos.mpr h
    have := mul_self_nonneg b
    linarith
  · have := mul_self_pos.mpr h
    have := mul_self_nonneg a
    linarith

theorem mkLine_len_pos {sqrt : ℚ → ℚ} (hs : SqrtOK sqrt) {xa ya xb yb : ℚ}
    (h : xb - xa ≠ 0 ∨ yb - ya ≠ 0) : 0 < (mkLine sqrt xa ya xb yb).len :=
  hs.pos _ (sq_add_sq_pos h)

theorem mkArc_len_pos {sqrt : ℚ → ℚ} (hs : SqrtOK sqrt) {xa ya xb yb xc yc : ℚ}
    (h : yb - ya ≠ 0 ∨ yc - yb ≠ 0) : 0 < (mkArc sqrt xa ya xb yb xc yc).len := by
  show 0 < sqrt _ + sqrt _
  rcases h with h | h
  · have := hs.pos _ (sq_add_sq_pos (a := xb - xa) (Or.inr h))
    have := hs.nonneg ((xc - xb) * (xc - xb) + (yc - yb) * (yc - yb))
    linarith
  · have := hs.pos _ (sq_add_sq_pos (a := xc - xb) (Or.inr h))
    have := hs.nonneg ((xb - xa) * (xb - xa) + (yb - ya) * (yb - ya))
    linarith

theorem polyLen_nonneg {sqrt : ℚ → ℚ} (hs : SqrtOK sqrt) (p : Piece) :
    0 ≤ p.polyLen sqrt := by
  cases p with
  | line xa ya xb yb len => exact hs.nonneg _
  | arc xa ya xb yb xc yc len => exact add_nonneg (hs.nonneg _) (hs.nonneg _)

theorem allPieces_len_nonneg {sqrt : ℚ → ℚ} (hs : SqrtOK sqrt) (c : FlatCurve) {p : Piece}
    (hp : p ∈ allPieces sqrt c) : 0 ≤ p.len := by
  rw [mem_allPieces_len sqrt c hp]
  exact polyLen_nonneg hs p

/-- The first piece of an interval with `x[i] < x[i+1]` has a positive length, whatever
the tangents. -/
theorem piecesOf_first_pos {sqrt : ℚ → ℚ} (hs : SqrtOK sqrt) {xi yi xi1 yi1 : ℚ} (rt lt : ℚ)
    (hd : xi < xi1) :
    ∃ p rest, piecesOf sqrt xi yi xi1 yi1 rt lt = p :: rest ∧ 0 < p.len := by
  by_cases h : (rt = 0 ∨ yi = yi1) ∧ (lt = 0 ∨ yi = yi1)
  · exact ⟨_, _, piecesOf_line sqrt h, mkLine_len_pos hs (Or.inl (by intro e; linarith))⟩
  · have hy : yi ≠ yi1 := fun e => h ⟨Or.inr e, Or.inr e⟩
    have h1 : (yi + yi1) / 2 - yi ≠ 0 := by
      intro e
      apply hy
      linarith
    have hb : ¬ (((decide (rt = 0) || decide (yi = yi1))
        && (decide (lt = 0) || decide (yi = yi1))) = true) := by
      simpa using h
    unfold piecesOf
    dsimp only
    rw [if_neg hb]
    split_ifs
    all_goals first
      | exact ⟨_, _, rfl, mkLine_len_pos hs (Or.inr h1)⟩
      | exact ⟨_, _, rfl, mkArc_len_pos hs (Or.inr h1)⟩

theorem total_length_pos {sqrt : ℚ → ℚ} (hs : SqrtOK sqrt) {c : FlatCurve} (hN : 0 < c.N)
    (h01 : c.x.getD 0 0 < c.x.getD 1 0) : 0 < (subCurves sqrt c).total_length := by
  rw [subCurves_total]
  have hr : List.range c.N = 0 :: (List.range (c.N - 1)).map Nat.succ := by
    conv_lhs => rw [show c.N = (c.N - 1) + 1 by omega]
    exact List.range_succ_eq_map _
  obtain ⟨p, rest, hp, hpos⟩ := @piecesOf_first_pos sqrt hs _ (c.y.getD 0 0) _
    (c.y.getD (0 + 1) 0) (c.rightTangent.getD 0 0) (c.leftTangent.getD (0 + 1) 0) h01
  have hmem : p ∈ allPieces sqrt c := by
    rw [allPieces, hr, List.flatMap_cons, intervalPieces, hp]
    simp
  have hle : p.len ≤ ((allPieces sqrt c).map Piece.len).sum :=
    List.single_le_sum
      (fun x hx => by
        obtain ⟨r, hr', rfl⟩ := List.mem_map.mp hx
        exact allPieces_len_nonneg hs c hr')
      _ (List.mem_map_of_mem _ hmem)
  linarith

theorem nbrPointsList_eq (sqrt : ℚ → ℚ) (c : FlatCurve) (ppn : Int) :
    nbrPointsList (subCurves sqrt c) ppn =
      (allPieces sqrt c).filterMap fun p =>
        if p.isLinear then none
        else some (toInt ((ppn : ℚ) * p.len / (subCurves sqrt c).total_length)) := by
  obtain ⟨-, -, hl, hf⟩ := subCurves_fields sqrt c
  unfold nbrPointsList
  rw [hl, hf]
  generalize allPieces sqrt c = ps
  induction ps with
  | nil => rfl
  | cons p ps ih =>
    simp only [List.map_cons, List.zip_cons_cons, List.filterMap_cons, ih]

theorem mem_nbrPointsList {sqrt : ℚ → ℚ} {c : FlatCurve} {ppn n : Int}
    (h : n ∈ nbrPointsList (subCurves sqrt c) ppn) :
    ∃ p, p ∈ allPieces sqrt c ∧ p.isLinear = false ∧
      n = toInt ((ppn : ℚ) * p.len / (subCurves sqrt c).total_length) := by
  rw [nbrPointsList_eq, List.mem_filterMap] at h
  obtain ⟨p, hp, e⟩ := h
  refine ⟨p, hp, ?_⟩
  cases hl : p.isLinear with
  | true => rw [hl] at e; simp at e
  | false =>
    rw [hl] at e
    simp only [Bool.false_eq_true, if_false, Option.some.injEq] at e
    exact ⟨rfl, e.symm⟩

theorem polyLoop_pieces_ok (s : SubCurves) (ppn : Int) (ht : s.total_length ≠ 0) :
    ∀ (ps : List Piece) (i j : Nat) (poly : List ℚ × List ℚ),
      s.sc_isLinear.drop i = ps.map Piece.isLinear →
      s.sc_length.drop i = ps.map Piece.len →
      s.sc_x.drop j = ps.flatMap Piece.xs →
      s.sc_y.drop j = ps.flatMap Piece.ys →
      (∀ p, p ∈ ps → p.isLinear = false →
        0 ≤ toInt ((ppn : ℚ) * p.len / s.total_length)) →
      ∃ poly', polyLoop s ppn ps.length i j poly = .ok poly' := by
  intro ps
  induction ps with
  | nil =>
    intro i j poly _ _ _ _ _
    exact ⟨poly, rfl⟩
  | cons p ps ih =>
    intro i j poly hf hl hx hy hn
    rw [List.map_cons] at hf hl
    rw [List.flatMap_cons] at hx hy
    obtain ⟨hf0, hf1⟩ := drop_eq_cons hf
    obtain ⟨hl0, hl1⟩ := drop_eq_cons hl
    have hn' : ∀ q, q ∈ ps → q.isLinear = false →
        0 ≤ toInt ((ppn : ℚ) * q.len / s.total_length) :=
      fun q hq => hn q (List.mem_cons_of_mem _ hq)
    have hn0 := hn p (List.mem_cons_self _ _)
    rw [List.length_cons, polyLoop]
    cases p with
    | line xa ya xb yb len =>
      simp only [Piece.xs, Piece.ys, List.cons_append, List.nil_append] at hx hy
      obtain ⟨-, hx1⟩ := drop_eq_cons hx
      obtain ⟨hx1, hx2⟩ := drop_eq_cons hx1
      obtain ⟨-, hy1⟩ := drop_eq_cons hy
      obtain ⟨hy1, hy2⟩ := drop_eq_cons hy1
      simp only [hf0, Piece.isLinear, hx1, hy1]
      exact ih (i + 1) (j + 2) _ hf1 hl1 hx2 hy2 hn'
    | arc xa ya xb yb xc yc len =>
      simp only [Piece.xs, Piece.ys, List.cons_append, List.nil_append] at hx hy
      obtain ⟨hx0, hx1⟩ := drop_eq_cons hx
      obtain ⟨hx1, hx2⟩ := drop_eq_cons hx1
      obtain ⟨hx2, hx3⟩ := drop_eq_cons hx2
      obtain ⟨hy0, hy1⟩ := drop_eq_cons hy
      obtain ⟨hy1, hy2⟩ := drop_eq_cons hy1
      obtain ⟨hy2, hy3⟩ := drop_eq_cons hy2
      have hn1 : ¬ toInt ((ppn : ℚ) * len / s.total_length) < 0 := not_lt.mpr (hn0 rfl)
      simp only [hf0, Piece.isLinear, hl0, Piece.len, hx0, hx1, hx2, hy0, hy1, hy2,
        if_neg ht, if_neg hn1]
      exact ih (i + 1) (j + 3) _ hf1 hl1 hx3 hy3 hn'

theorem CtrlPoints_set_returns {sqrt : ℚ → ℚ} (hs : SqrtOK sqrt) {c : FlatCurve}
    (hN : 0 < c.N) (h01 : c.x.getD 0 0 < c.x.getD 1 0) (hp : 0 ≤ c.ppn) :
    ∃ c', c.CtrlPoints_set sqrt = .ok c' := by
  have ht := total_length_pos hs hN h01
  obtain ⟨hx, hy, hl, hf⟩ := subCurves_fields sqrt c
  obtain ⟨h0x, h0y⟩ := @subCurves_head sqrt c hN
  obtain ⟨poly', hpl⟩ := polyLoop_pieces_ok (subCurves sqrt c) c.ppn (ne_of_gt ht)
    (allPieces sqrt c) 0 0 ([c.x.getD 0 0], [c.y.getD 0 0]) (by simp [hf]) (by simp [hl])
    (by simp [hx]) (by simp [hy])
    (fun p hp' _ => toInt_nonneg (div_nonneg (mul_nonneg (by exact_mod_cast hp)
      (allPieces_len_nonneg hs c hp')) ht.le))
  unfold FlatCurve.CtrlPoints_set
  simp only [h0x, h0y]
  rw [hl, List.length_map, hpl]
  exact ⟨_, rfl⟩

theorem orderedParams_of_valid {p : List ℚ} (hv : ValidParams p) : OrderedParams p :=
  ⟨hv.1, hv.2.1, hv.2.2.1, hv.2.2.2.2⟩

/-- For a parameter list with `N >= 2` increasing abscissae, a budget `ppn >= 0` and a
`sqrt` that is never negative and positive on positive arguments, the constructor returns
a curve, and `total_length` is positive. -/
theorem construct_returns {sqrt : ℚ → ℚ} (hs : SqrtOK sqrt) {p : List ℚ}
    (ho : OrderedParams p) {ppn : Int} (hp : 0 ≤ ppn) :
    ∃ c, FlatCurve.construct sqrt p ppn = .ok c ∧ 0 < (subCurves sqrt c).total_length := by
  obtain ⟨hL, hk, hN, hm⟩ := ho
  have hN' : 0 < (ctrlOf p ppn).N := by show 0 < (p.length - 1) / 4; omega
  have h01 : (ctrlOf p ppn).x.getD 0 0 < (ctrlOf p ppn).x.getD 1 0 := by
    show ((List.range _).map _ ++ _).getD 0 0 < ((List.range _).map _ ++ _).getD 1 0
    rw [getD_tab _ _ _ _ (by omega), getD_tab _ _ _ _ (by omega)]
    exact hm 0 (by omega)
  obtain ⟨c, hc⟩ := CtrlPoints_set_returns hs hN' h01 (show 0 ≤ (ctrlOf p ppn).ppn from hp)
  have hcon : FlatCurve.construct sqrt p ppn = .ok c := by
    rw [construct_minmax sqrt p ppn hL hk, if_pos (by omega)]
    exact hc
  have ht := total_length_pos hs hN' h01
  obtain ⟨a, b, poly, -, -, -, rfl⟩ := CtrlPoints_set_ok hc
  exact ⟨_, hcon, ht⟩

theorem sum_counts_le (ppn : Int) (T : ℚ) (hp : 0 ≤ ppn) (hT : 0 < T) :
    ∀ ps : List Piece, (∀ p, p ∈ ps → 0 ≤ p.len) →
      (((ps.filterMap fun p =>
          if p.isLinear then none else some (toInt ((ppn : ℚ) * p.len / T))).sum : Int) : ℚ)
        ≤ (ppn : ℚ) * (ps.map Piece.len).sum / T := by
  have hpq : (0 : ℚ) ≤ (ppn : ℚ) := by exact_mod_cast hp
  intro ps
  induction ps with
  | nil => intro _; simp
  | cons p ps ih =>
    intro hl
    have ih' := ih (fun q hq => hl q (List.mem_cons_of_mem _ hq))
    have h0 : 0 ≤ (ppn : ℚ) * p.len / T :=
      div_nonneg (mul_nonneg hpq (hl p (List.mem_cons_self _ _))) hT.le
    have e : (ppn : ℚ) * (p.len + (ps.map Piece.len).sum) / T
        = (ppn : ℚ) * p.len / T + (ppn : ℚ) * (ps.map Piece.len).sum / T := by ring
    rw [List.map_cons, List.sum_cons, e, List.filterMap_cons]
    cases hlin : p.isLinear with
    | true =>
      simp only [if_true]
      linarith
    | false =>
      simp only [Bool.false_eq_true, if_false, List.sum_cons, Int.cast_add]
      have := toInt_le h0
      linarith

/-- C14 (the sample count is never negative). For every `FCT_MinMaxCPoints` parameter
list with `N >= 2` control points and strictly increasing `x` (every valid list is one),
every budget `ppn >= 0`, and a `sqrt` that is never negative and positive on positive
arguments: the constructor returns a curve, so the fault branch with `exit(0)` is not
taken; `total_length` is strictly positive; and every `nbr_points` computed at line 257
is `>= 0`. -/
theorem sample_count_nonneg (sqrt : ℚ → ℚ) (p : List ℚ) (ppn : Int) (hs : SqrtOK sqrt)
    (ho : OrderedParams p) (hp : 0 ≤ ppn) :
    ∃ c, FlatCurve.construct sqrt p ppn = .ok c ∧
      FlatCurve.construct sqrt p ppn ≠ .error .exit ∧
      0 < (subCurves sqrt c).total_length ∧
      ∀ n, n ∈ nbrPointsList (subCurves sqrt c) ppn → 0 ≤ n := by
  obtain ⟨c, hc, ht⟩ := construct_returns hs ho hp
  refine ⟨c, hc, by rw [hc]; simp, ht, fun n hn => ?_⟩
  obtain ⟨q, hq, -, rfl⟩ := mem_nbrPointsList hn
  exact toInt_nonneg (div_nonneg (mul_nonneg (by exact_mod_cast hp)
    (allPieces_len_nonneg hs c hq)) ht.le)

/-- Witness of C14: `arcParams` with budget 20 and `Rat.sqrt`, exact on the squares that
occur; `total_length = 5/2` and the two curved half-arcs get 5 points each. -/
theorem sample_count_nonneg_witness :
    ValidParams arcParams ∧ (subCurves Rat.sqrt arcCurve).total_length = 5/2 ∧
      nbrPointsList (subCurves Rat.sqrt arcCurve) 20 = [5, 5] ∧
      ∃ c, FlatCurve.construct Rat.sqrt arcParams 20 = .ok c ∧
        FlatCurve.construct Rat.sqrt arcParams 20 ≠ .error .exit ∧
        0 < (subCurves Rat.sqrt c).total_length ∧
        ∀ n, n ∈ nbrPointsList (subCurves Rat.sqrt c) 20 → 0 ≤ n :=
  ⟨by decide!, by decide!, by decide!,
    sample_count_nonneg Rat.sqrt arcParams 20 sqrtOK_ratSqrt (by decide!) (by decide)⟩

/-- C15 (budget allocation). For every `FCT_MinMaxCPoints` parameter list with `N >= 2`
control points and strictly increasing `x` (every valid list is one), every budget
`ppn >= 0`, and a `sqrt` that is never negative and positive on positive arguments: the
constructor returns a curve, the sum of the `nbr_points` computed for its non-linear
sub-curves does not exceed `ppn`, and each of them is at most `ppn`. -/
theorem budget_allocation (sqrt : ℚ → ℚ) (p : List ℚ) (ppn : Int) (hs : SqrtOK sqrt)
    (ho : OrderedParams p) (hp : 0 ≤ ppn) :
    ∃ c, FlatCurve.construct sqrt p ppn = .ok c ∧
      (nbrPointsList (subCurves sqrt c) ppn).sum ≤ ppn ∧
      ∀ n, n ∈ nbrPointsList (subCurves sqrt c) ppn → n ≤ ppn := by
  obtain ⟨c, hc, ht⟩ := construct_returns hs ho hp
  have hpq : (0 : ℚ) ≤ (ppn : ℚ) := by exact_mod_cast hp
  have hnn : ∀ q, q ∈ allPieces sqrt c → 0 ≤ q.len :=
    fun q hq => allPieces_len_nonneg hs c hq
  refine ⟨c, hc, ?_, fun n hn => ?_⟩
  · have h := sum_counts_le ppn _ hp ht (allPieces sqrt c) hnn
    rw [← nbrPointsList_eq, ← subCurves_total, mul_div_assoc, div_self (ne_of_gt ht),
      mul_one] at h
    exact_mod_cast h
  · obtain ⟨q, hq, -, rfl⟩ := mem_nbrPointsList hn
    have h1 : q.len ≤ (subCurves sqrt c).total_length := by
      rw [subCurves_total]
      exact List.single_le_sum
        (fun x hx => by
          obtain ⟨r, hr, rfl⟩ := List.mem_map.mp hx
          exact hnn r hr)
        _ (List.mem_map_of_mem _ hq)
    have h0 : 0 ≤ (ppn : ℚ) * q.len / (subCurves sqrt c).total_length :=
      div_nonneg (mul_nonneg hpq (hnn q hq)) ht.le
    have h2 : (ppn : ℚ) * q.len / (subCurves sqrt c).total_length ≤ (ppn : ℚ) := by
      rw [div_le_iff₀ ht]
      exact mul_le_mul_of_nonneg_left h1 hpq
    have h3 := toInt_le h0
    exact_mod_cast h3.trans h2

/-- Witness of C15: `arcParams` with budget 20 and `Rat.sqrt`; the counts are 5 and 5,
their sum 10. -/
theorem budget_allocation_witness :
    ValidParams arcParams ∧ nbrPointsList (subCurves Rat.sqrt arcCurve) 20 = [5, 5] ∧
      ∃ c, FlatCurve.construct Rat.sqrt arcParams 20 = .ok c ∧
        (nbrPointsList (subCurves Rat.sqrt c) 20).sum ≤ 20 ∧
        ∀ n, n ∈ nbrPointsList (subCurves Rat.sqrt c) 20 → n ≤ 20 :=
  ⟨by decide!, by decide!,
    budget_allocation Rat.sqrt arcParams 20 sqrtOK_ratSqrt (by decide!) (by decide)⟩

/-! ## The rounding `binary64` -/

theorem pow2_eq (k : Int) : pow2 k = (2 : ℚ) ^ k := by
  unfold pow2
  split_ifs with h
  · obtain ⟨n, rfl⟩ := Int.eq_ofNat_of_zero_le h
    simp
  · obtain ⟨n, hn⟩ := Int.exists_eq_neg_ofNat (by omega : k ≤ 0)
    subst hn
    simp

theorem pow2_pos (k : Int) : 0 < pow2 k := by
  rw [pow2_eq]
  positivity

theorem pow2_add (a b : Int) : pow2 (a + b) = pow2 a * pow2 b := by
  simp only [pow2_eq]
  exact zpow_add₀ (by norm_num) a b

theorem pow2_le {a b : Int} (h : a ≤ b) : pow2 a ≤ pow2 b := by
  simp only [pow2_eq]
  exact zpow_le_zpow_right₀ (by norm_num) h

theorem pow2_lt_iff {a b : Int} : pow2 a < pow2 b ↔ a < b := by
  simp only [pow2_eq]
  exact zpow_lt_zpow_iff_right₀ (by norm_num)

theorem pow2_natCast (n : Nat) : pow2 (n : Int) = ((2 ^ n : Nat) : ℚ) := by
  rw [pow2_eq]
  simp

theorem log2Loop_eq : ∀ (fuel n acc : Nat), n ≤ fuel → log2Loop fuel n acc = acc + Nat.log 2 n
  | 0, n, acc, h => by
    have : n = 0 := by omega
    subst this
    simp [log2Loop]
  | fuel + 1, n, acc, h => by
    rw [log2Loop]
    split_ifs with h2
    · rw [log2Loop_eq fuel (n / 2) (acc + 1) (by omega),
        Nat.log_of_one_lt_of_le (by norm_num) h2]
      omega
    · rw [Nat.log_of_lt (by omega)]
      rfl

theorem natLog2_eq (n : Nat) : natLog2 n = Nat.log 2 n := by
  unfold natLog2
  rw [log2Loop_eq n n 0 (le_refl _)]
  omega

theorem natLog2_spec {n : Nat} (h : n ≠ 0) : 2 ^ natLog2 n ≤ n ∧ n < 2 ^ (natLog2 n + 1) := by
  rw [natLog2_eq]
  exact ⟨Nat.pow_log_le_self 2 h, Nat.lt_pow_succ_log_self (by norm_num) n⟩

/-- The exponent computed by `ilog2` brackets a positive rational. -/
theorem ilog2_spec {q : ℚ} (hq : 0 < q) : pow2 (ilog2 q) ≤ q ∧ q < pow2 (ilog2 q + 1) := by
  have hn : 0 < q.num := Rat.num_pos.mpr hq
  have hd : 0 < q.den := q.den_pos
  obtain ⟨a1, a2⟩ := natLog2_spec (n := q.num.natAbs) (by omega)
  obtain ⟨b1, b2⟩ := natLog2_spec (n := q.den) (by omega)
  have hnum : ((q.num.natAbs : Nat) : ℚ) = (q.num : ℚ) := by
    rw [← Int.cast_natCast, Int.natAbs_of_nonneg hn.le]
  have hqe : (q.num.natAbs : ℚ) / (q.den : ℚ) = q := by
    rw [hnum]
    exact Rat.num_div_den q
  have hdq : (0 : ℚ) < (q.den : ℚ) := by exact_mod_cast hd
  have A1 : pow2 (natLog2 q.num.natAbs : Int) ≤ (q.num.natAbs : ℚ) := by
    rw [pow2_natCast]
    exact_mod_cast a1
  have A2 : (q.num.natAbs : ℚ) < pow2 ((natLog2 q.num.natAbs : Int) + 1) := by
    have : ((natLog2 q.num.natAbs : Int) + 1) = ((natLog2 q.num.natAbs + 1 : Nat) : Int) := by
      push_cast; rfl
    rw [this, pow2_natCast]
    exact_mod_cast a2
  have B1 : pow2 (natLog2 q.den : Int) ≤ (q.den : ℚ) := by
    rw [pow2_natCast]
    exact_mod_cast b1
  have B2 : (q.den : ℚ) < pow2 ((natLog2 q.den : Int) + 1) := by
    have : ((natLog2 q.den : Int) + 1) = ((natLog2 q.den + 1 : Nat) : Int) := by
      push_cast; rfl
    rw [this, pow2_natCast]
    exact_mod_cast b2
  have U : q < pow2 ((natLog2 q.num.natAbs : Int) - (natLog2 q.den : Int) + 1) := by
    have e : pow2 ((natLog2 q.num.natAbs : Int) - (natLog2 q.den : Int) + 1)
        * pow2 (natLog2 q.den : Int) = pow2 ((natLog2 q.num.natAbs : Int) + 1) := by
      rw [← pow2_add]
      congr 1
      ring
    have hp := pow2_pos ((natLog2 q.num.natAbs : Int) - (natLog2 q.den : Int) + 1)
    have : (q.num.natAbs : ℚ) / (q.den : ℚ)
        < pow2 ((natLog2 q.num.natAbs : Int) - (natLog2 q.den : Int) + 1) := by
      rw [div_lt_iff₀ hdq]
      calc (q.num.natAbs : ℚ) < pow2 ((natLog2 q.num.natAbs : Int) + 1) := A2
        _ = pow2 ((natLog2 q.num.natAbs : Int) - (natLog2 q.den : Int) + 1)
              * pow2 (natLog2 q.den : Int) := e.symm
        _ ≤ pow2 ((natLog2 q.num.natAbs : Int) - (natLog2 q.den : Int) + 1) * (q.den : ℚ) :=
            mul_le_mul_of_nonneg_left B1 hp.le
    rwa [hqe] at this
  have L : pow2 ((natLog2 q.num.natAbs : Int) - (natLog2 q.den : Int) - 1) ≤ q := by
    have e : pow2 ((natLog2 q.num.natAbs : Int) - (natLog2 q.den : Int) - 1)
        * pow2 ((natLog2 q.den : Int) + 1) = pow2 (natLog2 q.num.natAbs : Int) := by
      rw [← pow2_add]
      congr 1
      ring
    have hp := pow2_pos ((natLog2 q.num.natAbs : Int) - (natLog2 q.den : Int) - 1)
    have : pow2 ((natLog2 q.num.natAbs : Int) - (natLog2 q.den : Int) - 1)
        ≤ (q.num.natAbs : ℚ) / (q.den : ℚ) := by
      rw [le_div_iff₀ hdq]
      calc pow2 ((natLog2 q.num.natAbs : Int) - (natLog2 q.den : Int) - 1) * (q.den : ℚ)
          ≤ pow2 ((natLog2 q.num.natAbs : Int) - (natLog2 q.den : Int) - 1)
              * pow2 ((natLog2 q.den : Int) + 1) := mul_le_mul_of_nonneg_left B2.le hp.le
        _ = pow2 (natLog2 q.num.natAbs : Int) := e
        _ ≤ (q.num.natAbs : ℚ) := A1
    rwa [hqe] at this
  unfold ilog2
  dsimp only
  split_ifs with h
  · exact ⟨h, U⟩
  · refine ⟨L, ?_⟩
    rw [sub_add_cancel]
    exact lt_of_not_le h

/-- The exponent that brackets a positive rational is unique. -/
theorem ilog2_unique {q : ℚ} (hq : 0 < q) {k : Int} (h1 : pow2 k ≤ q) (h2 : q < pow2 (k + 1)) :
    ilog2 q = k := by
  obtain ⟨s1, s2⟩ := ilog2_spec hq
  have a : k < ilog2 q + 1 := pow2_lt_iff.mp (lt_of_le_of_lt h1 s2)
  have b : ilog2 q < k + 1 := pow2_lt_iff.mp (lt_of_le_of_lt s1 h2)
  omega

theorem ilog2_mono {a b : ℚ} (ha : 0 < a) (hab : a ≤ b) : ilog2 a ≤ ilog2 b := by
  obtain ⟨s1, -⟩ := ilog2_spec ha
  obtain ⟨-, t2⟩ := ilog2_spec (lt_of_lt_of_le ha hab)
  have : ilog2 a < ilog2 b + 1 := pow2_lt_iff.mp (lt_of_le_of_lt (s1.trans hab) t2)
  omega

theorem roundEven_intCast (n : Int) : roundEven (n : ℚ) = n := by
  unfold roundEven
  simp

theorem roundEven_cases (s : ℚ) : roundEven s = ⌊s⌋ ∨ roundEven s = ⌊s⌋ + 1 := by
  unfold roundEven
  dsimp only
  split_ifs <;> simp

theorem roundEven_mono {s s' : ℚ} (h : s ≤ s') : roundEven s ≤ roundEven s' := by
  have hf : ⌊s⌋ ≤ ⌊s'⌋ := Int.floor_mono h
  rcases lt_or_eq_of_le hf with hlt | heq
  · have h1 : roundEven s ≤ ⌊s⌋ + 1 := by
      rcases roundEven_cases s with e | e <;> omega
    have h2 : ⌊s'⌋ ≤ roundEven s' := by
      rcases roundEven_cases s' with e | e <;> omega
    omega
  · unfold roundEven
    dsimp only
    rw [← heq]
    split_ifs <;> first | omega | (exfalso; linarith)

theorem roundEven_le_int {s : ℚ} {n : Int} (h : s ≤ n) : roundEven s ≤ n := by
  have := roundEven_mono h
  rwa [roundEven_intCast] at this

theorem int_le_roundEven {s : ℚ} {n : Int} (h : (n : ℚ) ≤ s) : n ≤ roundEven s := by
  have := roundEven_mono h
  rwa [roundEven_intCast] at this

theorem roundEven_neg (s : ℚ) : roundEven (-s) = -roundEven s := by
  by_cases hs : s = (⌊s⌋ : ℚ)
  · rw [hs, ← Int.cast_neg, roundEven_intCast, roundEven_intCast]
  · have h1 : (⌊s⌋ : ℚ) ≤ s := Int.floor_le s
    have h2 : s < ⌊s⌋ + 1 := Int.lt_floor_add_one s
    have h3 : (⌊s⌋ : ℚ) < s := lt_of_le_of_ne h1 (Ne.symm hs)
    have hf : ⌊-s⌋ = -⌊s⌋ - 1 := by
      rw [Int.floor_eq_iff]
      push_cast
      constructor <;> linarith
    unfold roundEven
    dsimp only
    rw [hf]
    push_cast
    split_ifs <;> first | omega | (exfalso; linarith)

theorem ulpExp_neg (q : ℚ) : ulpExp (-q) = ulpExp q := by
  unfold ulpExp
  rw [abs_neg]

theorem binary64_neg (q : ℚ) : binary64 (-q) = -binary64 q := by
  unfold binary64
  by_cases h : q = 0
  · simp [h]
  · rw [if_neg h, if_neg (neg_ne_zero.mpr h), ulpExp_neg, neg_div, roundEven_neg]
    push_cast
    ring

theorem binary64_zero : binary64 0 = 0 := by
  unfold binary64
  simp

theorem binary64_nonneg {q : ℚ} (h : 0 ≤ q) : 0 ≤ binary64 q := by
  unfold binary64
  split_ifs
  · exact le_refl _
  · have : (0 : Int) ≤ roundEven (q / pow2 (ulpExp q)) :=
      int_le_roundEven (by push_cast; exact div_nonneg h (pow2_pos _).le)
    exact mul_nonneg (by exact_mod_cast this) (pow2_pos _).le

theorem ulpExp_ge (q : ℚ) : -1074 ≤ ulpExp q := le_max_right _ _

theorem ulpExp_ge_log (q : ℚ) : ilog2 |q| - 52 ≤ ulpExp q := le_max_left _ _

/-- A positive rational is below `2^53` units in the last place. -/
theorem lt_pow2_ulpExp {q : ℚ} (hq : 0 < q) : q < pow2 (ulpExp q + 53) := by
  obtain ⟨-, h2⟩ := ilog2_spec hq
  have : ilog2 q + 1 ≤ ulpExp q + 53 := by
    have := ulpExp_ge_log q
    rw [abs_of_pos hq] at this
    omega
  exact lt_of_lt_of_le h2 (pow2_le this)

theorem binary64_pos_le {q : ℚ} (hq : 0 < q) : binary64 q ≤ pow2 (ulpExp q + 53) := by
  unfold binary64
  rw [if_neg (ne_of_gt hq), pow2_add, mul_comm (pow2 (ulpExp q))]
  have h53 : pow2 53 = ((2 ^ 53 : Int) : ℚ) := by
    rw [pow2_eq]; norm_num
  rw [h53]
  have : roundEven (q / pow2 (ulpExp q)) ≤ 2 ^ 53 := by
    apply roundEven_le_int
    rw [← h53, div_le_iff₀ (pow2_pos _), ← pow2_add, add_comm]
    exact (lt_pow2_ulpExp hq).le
  exact mul_le_mul_of_nonneg_right (by exact_mod_cast this) (pow2_pos _).le

/-- On positive rationals the rounding is monotone. -/
theorem binary64_mono_pos {a b : ℚ} (ha : 0 < a) (hab : a ≤ b) : binary64 a ≤ binary64 b := by
  have hb : 0 < b := lt_of_lt_of_le ha hab
  have he : ulpExp a ≤ ulpExp b := by
    unfold ulpExp
    rw [abs_of_pos ha, abs_of_pos hb]
    exact max_le_max (by have := ilog2_mono ha hab; omega) (le_refl _)
  rcases lt_or_eq_of_le he with hlt | heq
  · -- the two roundings are separated by a power of two
    have hbe : ulpExp b = ilog2 b - 52 := by
      have h1 := ulpExp_ge a
      unfold ulpExp at hlt ⊢
      rw [abs_of_pos hb] at hlt ⊢
      rw [abs_of_pos ha] at hlt
      rcases max_cases (ilog2 b - 52) (-1074) with ⟨e, -⟩ | ⟨e, -⟩
      · exact e
      · rw [e] at hlt
        have := le_max_right (ilog2 a - 52) (-1074)
        omega
    have h1 : binary64 a ≤ pow2 (ulpExp b + 52) :=
      (binary64_pos_le ha).trans (pow2_le (by omega))
    have h2 : pow2 (ulpExp b + 52) ≤ binary64 b := by
      unfold binary64
      rw [if_neg (ne_of_gt hb), pow2_add, mul_comm (pow2 (ulpExp b))]
      have h52 : pow2 52 = ((2 ^ 52 : Int) : ℚ) := by
        rw [pow2_eq]; norm_num
      rw [h52]
      have : (2 ^ 52 : Int) ≤ roundEven (b / pow2 (ulpExp b)) := by
        apply int_le_roundEven
        rw [← h52, le_div_iff₀ (pow2_pos _), ← pow2_add, add_comm, hbe]
        have := (ilog2_spec hb).1
        rwa [show ilog2 b - 52 + 52 = ilog2 b by ring]
      exact mul_le_mul_of_nonneg_right (by exact_mod_cast this) (pow2_pos _).le
    exact h1.trans h2
  · unfold binary64
    rw [if_neg (ne_of_gt ha), if_neg (ne_of_gt hb), heq]
    have : roundEven (a / pow2 (ulpExp b)) ≤ roundEven (b / pow2 (ulpExp b)) :=
      roundEven_mono (div_le_div_of_nonneg_right hab (pow2_pos _).le)
    exact mul_le_mul_of_nonneg_right (by exact_mod_cast this) (pow2_pos _).le

theorem binary64_mono {a b : ℚ} (hab : a ≤ b) : binary64 a ≤ binary64 b := by
  rcases lt_trichotomy a 0 with ha | ha | ha
  · rcases lt_or_le b 0 with hb | hb
    · have := binary64_mono_pos (a := -b) (b := -a) (by linarith) (by linarith)
      rw [binary64_neg, binary64_neg] at this
      linarith
    · have h1 := binary64_nonneg (q := -a) (by linarith)
      rw [binary64_neg] at h1
      have h2 := binary64_nonneg hb
      linarith
  · subst ha
    rw [binary64_zero]
    exact binary64_nonneg hab
  · exact binary64_mono_pos ha hab

theorem pow2_nonneg_int {k : Int} (hk : 0 ≤ k) : pow2 k = (((2 : Int) ^ k.toNat : Int) : ℚ) := by
  obtain ⟨n, rfl⟩ := Int.eq_ofNat_of_zero_le hk
  rw [pow2_natCast]
  simp

/-- A multiple `m * 2^e` of a power of two with `|m| < 2^53` and `e >= -1074` is a
double. -/
theorem binary64_fix_lt (m e : Int) (hm : |m| < 2 ^ 53) (he : -1074 ≤ e) :
    binary64 ((m : ℚ) * pow2 e) = (m : ℚ) * pow2 e := by
  by_cases h0 : m = 0
  · subst h0
    simp [binary64_zero]
  have hq : (m : ℚ) * pow2 e ≠ 0 :=
    mul_ne_zero (by exact_mod_cast h0) (ne_of_gt (pow2_pos e))
  have habs : |(m : ℚ) * pow2 e| = (|m| : ℚ) * pow2 e := by
    rw [abs_mul, abs_of_pos (pow2_pos e)]
  have hlog : ilog2 |(m : ℚ) * pow2 e| < 53 + e := by
    have hp : 0 < |(m : ℚ) * pow2 e| := abs_pos.mpr hq
    have h1 := (ilog2_spec hp).1
    apply pow2_lt_iff.mp
    refine lt_of_le_of_lt h1 ?_
    rw [habs, pow2_add]
    have h53 : pow2 53 = ((2 ^ 53 : Int) : ℚ) := by
      rw [pow2_eq]; norm_num
    rw [h53]
    have : ((|m| : Int) : ℚ) < ((2 ^ 53 : Int) : ℚ) := by exact_mod_cast hm
    rw [Int.cast_abs] at this
    exact mul_lt_mul_of_pos_right this (pow2_pos e)
  have hu : ulpExp ((m : ℚ) * pow2 e) ≤ e := max_le (by omega) he
  have hdiv : (m : ℚ) * pow2 e / pow2 (ulpExp ((m : ℚ) * pow2 e))
      = ((m * (2 : Int) ^ (e - ulpExp ((m : ℚ) * pow2 e)).toNat : Int) : ℚ) := by
    rw [div_eq_iff (ne_of_gt (pow2_pos _))]
    push_cast
    rw [mul_assoc]
    congr 1
    have := pow2_nonneg_int (k := e - ulpExp ((m : ℚ) * pow2 e)) (by omega)
    push_cast at this
    rw [← this, ← pow2_add]
    congr 1
    ring
  unfold binary64
  rw [if_neg hq, hdiv, roundEven_intCast, ← hdiv]
  exact div_mul_cancel₀ _ (ne_of_gt (pow2_pos _))

/-- A multiple `m * 2^e` of a power of two with `|m| <= 2^53` and `e >= -1074` is a
double. -/
theorem binary64_fix (m e : Int) (hm : |m| ≤ 2 ^ 53) (he : -1074 ≤ e) :
    binary64 ((m : ℚ) * pow2 e) = (m : ℚ) * pow2 e := by
  rcases lt_or_eq_of_le hm with h | h
  · exact binary64_fix_lt m e h he
  · have hm2 : m = 2 * (m / 2) := by
      rcases abs_cases m with ⟨e1, -⟩ | ⟨e1, -⟩ <;> omega
    have e2 : (m : ℚ) * pow2 e = ((m / 2 : Int) : ℚ) * pow2 (e + 1) := by
      rw [pow2_add]
      have : pow2 1 = 2 := by rw [pow2_eq]; norm_num
      rw [this]
      conv_lhs => rw [hm2]
      push_cast
      ring
    rw [e2]
    apply binary64_fix_lt _ _ _ (by omega)
    rcases abs_cases m with ⟨e1, -⟩ | ⟨e1, -⟩ <;>
      rcases abs_cases (m / 2) with ⟨e3, -⟩ | ⟨e3, -⟩ <;> omega

/-- Every value of the rounding is a multiple `m * 2^e` with `|m| <= 2^53` and
`e >= -1074`. -/
theorem binary64_form (q : ℚ) :
    ∃ m e : Int, |m| ≤ 2 ^ 53 ∧ -1074 ≤ e ∧ binary64 q = (m : ℚ) * pow2 e := by
  have pos : ∀ q : ℚ, 0 < q →
      ∃ m e : Int, |m| ≤ 2 ^ 53 ∧ -1074 ≤ e ∧ binary64 q = (m : ℚ) * pow2 e := by
    intro q hq
    refine ⟨roundEven (q / pow2 (ulpExp q)), ulpExp q, ?_, ulpExp_ge q, ?_⟩
    · have h1 : (0 : Int) ≤ roundEven (q / pow2 (ulpExp q)) :=
        int_le_roundEven (by push_cast; exact div_nonneg hq.le (pow2_pos _).le)
      have h2 : roundEven (q / pow2 (ulpExp q)) ≤ 2 ^ 53 := by
        apply roundEven_le_int
        have h53 : pow2 53 = ((2 ^ 53 : Int) : ℚ) := by
          rw [pow2_eq]; norm_num
        rw [← h53, div_le_iff₀ (pow2_pos _), ← pow2_add, add_comm]
        exact (lt_pow2_ulpExp hq).le
      rw [abs_of_nonneg h1]
      exact h2
    · unfold binary64
      rw [if_neg (ne_of_gt hq)]
  rcases lt_trichotomy q 0 with h | h | h
  · obtain ⟨m, e, hm, he, hq⟩ := pos (-q) (by linarith)
    refine ⟨-m, e, by rwa [abs_neg], he, ?_⟩
    rw [binary64_neg] at hq
    push_cast
    linarith
  · subst h
    exact ⟨0, 0, by norm_num, by norm_num, by simp [binary64_zero]⟩
  · exact pos q h

theorem binary64_idem (q : ℚ) : binary64 (binary64 q) = binary64 q := by
  obtain ⟨m, e, hm, he, hq⟩ := binary64_form q
  rw [hq]
  exact binary64_fix m e hm he

theorem binary64_twice (q : ℚ) : binary64 (2 * binary64 q) = 2 * binary64 q := by
  obtain ⟨m, e, hm, he, hq⟩ := binary64_form q
  have : 2 * binary64 q = (m : ℚ) * pow2 (e + 1) := by
    rw [hq, pow2_add]
    have : pow2 1 = 2 := by rw [pow2_eq]; norm_num
    rw [this]
    ring
  rw [this]
  exact binary64_fix m (e + 1) hm (by omega)

/-- Every double is an integer multiple of `2^(-1074)`. -/
theorem double_grid {q : ℚ} (h : binary64 q = q) : ∃ M : Int, q = (M : ℚ) * pow2 (-1074) := by
  obtain ⟨m, e, -, he, hq⟩ := binary64_form q
  refine ⟨m * 2 ^ (e + 1074).toNat, ?_⟩
  rw [← h, hq]
  push_cast
  rw [mul_assoc]
  congr 1
  have := pow2_nonneg_int (k := e + 1074) (by omega)
  push_cast at this
  rw [← this, ← pow2_add]
  congr 1
  ring

theorem binary64_sub_pos (a b : ℚ) (ha : binary64 a = a) (hb : binary64 b = b) (hab : a < b) :
    0 < binary64 (b - a) := by
  obtain ⟨A, hA⟩ := double_grid ha
  obtain ⟨B, hB⟩ := double_grid hb
  have hp := pow2_pos (-1074)
  have hAB : A < B := by
    have : (A : ℚ) * pow2 (-1074) < (B : ℚ) * pow2 (-1074) := by rw [← hA, ← hB]; exact hab
    have := lt_of_mul_lt_mul_right this hp.le
    exact_mod_cast this
  have hge : pow2 (-1074) ≤ b - a := by
    rw [hA, hB, ← sub_mul]
    have : (1 : ℚ) ≤ (B : ℚ) - (A : ℚ) := by
      have : A + 1 ≤ B := hAB
      have : ((A + 1 : Int) : ℚ) ≤ (B : ℚ) := by exact_mod_cast this
      push_cast at this
      linarith
    calc pow2 (-1074) = 1 * pow2 (-1074) := (one_mul _).symm
      _ ≤ ((B : ℚ) - (A : ℚ)) * pow2 (-1074) := mul_le_mul_of_nonneg_right this hp.le
  have h1 := binary64_mono hge
  have h2 : binary64 (pow2 (-1074)) = pow2 (-1074) := by
    have := binary64_fix 1 (-1074) (by norm_num) (by norm_num)
    simpa using this
  rw [h2] at h1
  linarith

/-- The rounding of IEEE 754 double precision has the properties the claims use. -/
theorem roundOK_binary64 : RoundOK binary64 where
  mono := fun _ _ h => binary64_mono h
  idem := binary64_idem
  zero := binary64_zero
  one := by
    have := binary64_fix 1 0 (by norm_num) (by norm_num)
    have e : pow2 0 = 1 := by rw [pow2_eq]; norm_num
    simpa [e] using this
  twice := binary64_twice
  sub_pos := binary64_sub_pos

/-- Exact arithmetic, the rounding that changes nothing, has them too. -/
theorem roundOK_id : RoundOK (fun a => a) where
  mono := fun _ _ h => h
  idem := fun _ => rfl
  zero := rfl
  one := rfl
  twice := fun _ => rfl
  sub_pos := fun _ _ _ _ h => by linarith

/-! ## The evaluator in double arithmetic -/

/-- The value `Double.lookup` returns once the search has ended on the pair `(k, k+1)`. -/
theorem Double.lookup_of_search_rnd {R : ℚ → ℚ} {c : FlatCurve} {t a b ya yb : ℚ} {k : Nat}
    (hs : search c.poly_x t 0 (c.poly_x.length - 1) = .ok (k, k + 1))
    (ha : c.poly_x[k]? = some a) (hb : c.poly_x[k + 1]? = some b)
    (hya : c.poly_y[k]? = some ya) (hyb : c.poly_y[k + 1]? = some yb)
    (hne : R (b - a) ≠ 0) :
    Double.lookup R c t
      = .ok (R (ya + R (R (R (t - a) * R (yb - ya)) / R (b - a)))) := by
  unfold Double.lookup
  rw [hs]
  simp only [ha, hb, hya, hyb, if_neg hne]

/-- The interpolation of line 314 in double arithmetic is monotone in `t`: on a bracket
`a <= t < b` its value lies between `ya` and its value at `t = b`. -/
theorem Double.interp_between {R : ℚ → ℚ} (hR : RoundOK R) {a b t ya yb : ℚ}
    (hya : R ya = ya) (h1 : a ≤ t) (h2 : t < b) (hpos : 0 < R (b - a)) :
    (ya ≤ yb →
      ya ≤ R (ya + R (R (R (t - a) * R (yb - ya)) / R (b - a))) ∧
      R (ya + R (R (R (t - a) * R (yb - ya)) / R (b - a)))
        ≤ R (ya + R (R (R (b - a) * R (yb - ya)) / R (b - a)))) ∧
    (yb ≤ ya →
      R (ya + R (R (R (b - a) * R (yb - ya)) / R (b - a)))
        ≤ R (ya + R (R (R (t - a) * R (yb - ya)) / R (b - a))) ∧
      R (ya + R (R (R (t - a) * R (yb - ya)) / R (b - a))) ≤ ya) := by
  have d0 : 0 ≤ R (t - a) := by
    have := hR.mono 0 (t - a) (by linarith)
    rwa [hR.zero] at this
  have d1 : R (t - a) ≤ R (b - a) := hR.mono _ _ (by linarith)
  constructor
  · intro hy
    have e0 : 0 ≤ R (yb - ya) := by
      have := hR.mono 0 (yb - ya) (by linarith)
      rwa [hR.zero] at this
    have q0 : 0 ≤ R (R (R (t - a) * R (yb - ya)) / R (b - a)) := by
      have w : 0 ≤ R (R (t - a) * R (yb - ya)) := by
        have := hR.mono 0 _ (mul_nonneg d0 e0)
        rwa [hR.zero] at this
      have := hR.mono 0 _ (div_nonneg w hpos.le)
      rwa [hR.zero] at this
    have q1 : R (R (R (t - a) * R (yb - ya)) / R (b - a))
        ≤ R (R (R (b - a) * R (yb - ya)) / R (b - a)) :=
      hR.mono _ _ (div_le_div_of_nonneg_right
        (hR.mono _ _ (mul_le_mul_of_nonneg_right d1 e0)) hpos.le)
    constructor
    · have := hR.mono ya _ (le_add_of_nonneg_right q0)
      rwa [hya] at this
    · exact hR.mono _ _ (by linarith)
  · intro hy
    have e0 : R (yb - ya) ≤ 0 := by
      have := hR.mono (yb - ya) 0 (by linarith)
      rwa [hR.zero] at this
    have q0 : R (R (R (t - a) * R (yb - ya)) / R (b - a)) ≤ 0 := by
      have w : R (R (t - a) * R (yb - ya)) ≤ 0 := by
        have := hR.mono _ 0 (mul_nonpos_of_nonneg_of_nonpos d0 e0)
        rwa [hR.zero] at this
      have := hR.mono _ 0 (div_nonpos_of_nonpos_of_nonneg w hpos.le)
      rwa [hR.zero] at this
    have q1 : R (R (R (b - a) * R (yb - ya)) / R (b - a))
        ≤ R (R (R (t - a) * R (yb - ya)) / R (b - a)) :=
      hR.mono _ _ (div_le_div_of_nonneg_right
        (hR.mono _ _ (mul_le_mul_of_nonpos_right d1 e0)) hpos.le)
    constructor
    · exact hR.mono _ _ (by linarith)
    · have := hR.mono _ ya (add_le_of_nonpos_right q0)
      rwa [hya] at this

theorem Double.subCurvesStep_eq_rnd (R sqrt : ℚ → ℚ) (c : FlatCurve) (s : SubCurves) (i : Nat) :
    Double.subCurvesStep R sqrt c s i
      = (Double.intervalPieces R sqrt c i).foldl (Double.add R) s := by
  unfold Double.subCurvesStep Double.intervalPieces Double.piecesOf
  dsimp only
  split_ifs <;> rfl

theorem Double.foldl_add_fields_rnd (R : ℚ → ℚ) (ps : List Piece) (s : SubCurves) :
    (ps.foldl (Double.add R) s).sc_x = s.sc_x ++ ps.flatMap Piece.xs ∧
    (ps.foldl (Double.add R) s).sc_y = s.sc_y ++ ps.flatMap Piece.ys ∧
    (ps.foldl (Double.add R) s).sc_length = s.sc_length ++ ps.map Piece.len ∧
    (ps.foldl (Double.add R) s).sc_isLinear = s.sc_isLinear ++ ps.map Piece.isLinear := by
  induction ps generalizing s with
  | nil => simp
  | cons p ps ih =>
    obtain ⟨h1, h2, h3, h4⟩ := ih (Double.add R s p)
    rw [List.foldl_cons, h1, h2, h3, h4]
    simp [Double.add, List.flatMap_cons]

theorem Double.foldl_subCurvesStep_rnd (R sqrt : ℚ → ℚ) (c : FlatCurve) (l : List Nat)
    (s : SubCurves) :
    l.foldl (Double.subCurvesStep R sqrt c) s
      = (l.flatMap (Double.intervalPieces R sqrt c)).foldl (Double.add R) s := by
  induction l generalizing s with
  | nil => rfl
  | cons i l ih =>
    simp only [List.foldl_cons, List.flatMap_cons, List.foldl_append, ih,
      Double.subCurvesStep_eq_rnd]

theorem Double.subCurves_fields_rnd (R sqrt : ℚ → ℚ) (c : FlatCurve) :
    (Double.subCurves R sqrt c).sc_x = (Double.allPieces R sqrt c).flatMap Piece.xs ∧
    (Double.subCurves R sqrt c).sc_y = (Double.allPieces R sqrt c).flatMap Piece.ys ∧
    (Double.subCurves R sqrt c).sc_length = (Double.allPieces R sqrt c).map Piece.len ∧
    (Double.subCurves R sqrt c).sc_isLinear
      = (Double.allPieces R sqrt c).map Piece.isLinear := by
  unfold Double.subCurves Double.allPieces
  rw [Double.foldl_subCurvesStep_rnd]
  simpa using Double.foldl_add_fields_rnd R _ _

theorem Double.piecesOf_line_rnd (R sqrt : ℚ → ℚ) {xi yi xi1 yi1 rt lt : ℚ}
    (h : (rt = 0 ∨ yi = yi1) ∧ (lt = 0 ∨ yi = yi1)) :
    Double.piecesOf R sqrt xi yi xi1 yi1 rt lt = [Double.mkLine R sqrt xi yi xi1 yi1] := by
  have hb : ((decide (rt = 0) || decide (yi = yi1))
      && (decide (lt = 0) || decide (yi = yi1))) = true := by
    simpa using h
  unfold Double.piecesOf
  dsimp only
  rw [if_pos hb]

/-- The two pieces of an interval that is not a single line, from the abscissae of
`Double.handleAbscissae`. -/
theorem Double.piecesOf_not_line (R sqrt : ℚ → ℚ) {xi yi xi1 yi1 rt lt : ℚ}
    (h : ¬((rt = 0 ∨ yi = yi1) ∧ (lt = 0 ∨ yi = yi1))) :
    Double.piecesOf R sqrt xi yi xi1 yi1 rt lt =
      [if rt = 0 then
          Double.mkLine R sqrt xi yi (Double.handleAbscissae R xi yi xi1 yi1 rt lt).2.2.1
            (R (R (yi + yi1) / 2))
        else
          Double.mkArc R sqrt xi yi (Double.handleAbscissae R xi yi xi1 yi1 rt lt).2.2.2.1 yi
            (Double.handleAbscissae R xi yi xi1 yi1 rt lt).2.2.1 (R (R (yi + yi1) / 2)),
       if lt = 0 then
          Double.mkLine R sqrt (Double.handleAbscissae R xi yi xi1 yi1 rt lt).2.2.1
            (R (R (yi + yi1) / 2)) xi1 yi1
        else
          Double.mkArc R sqrt (Double.handleAbscissae R xi yi xi1 yi1 rt lt).2.2.1
            (R (R (yi + yi1) / 2)) (Double.handleAbscissae R xi yi xi1 yi1 rt lt).2.2.2.2 yi1
            xi1 yi1] := by
  have hy : yi ≠ yi1 := fun e => h ⟨Or.inr e, Or.inr e⟩
  have hb : ¬ (((decide (rt = 0) || decide (yi = yi1))
      && (decide (lt = 0) || decide (yi = yi1))) = true) := by
    simpa using h
  unfold Double.piecesOf Double.handleAbscissae
  dsimp only
  rw [if_neg hb]
  simp only [hy, decide_False, Bool.or_false, decide_eq_true_eq]

/-- The abscissae and the flags an interval that is not a single line writes. -/
theorem Double.piecesOf_xs_rnd (R sqrt : ℚ → ℚ) {xi yi xi1 yi1 rt lt : ℚ}
    (h : ¬((rt = 0 ∨ yi = yi1) ∧ (lt = 0 ∨ yi = yi1))) :
    (Double.piecesOf R sqrt xi yi xi1 yi1 rt lt).flatMap Piece.xs =
      ((if rt = 0 then [xi, (Double.handleAbscissae R xi yi xi1 yi1 rt lt).2.2.1]
        else [xi, (Double.handleAbscissae R xi yi xi1 yi1 rt lt).2.2.2.1,
              (Double.handleAbscissae R xi yi xi1 yi1 rt lt).2.2.1]) ++
       (if lt = 0 then [(Double.handleAbscissae R xi yi xi1 yi1 rt lt).2.2.1, xi1]
        else [(Double.handleAbscissae R xi yi xi1 yi1 rt lt).2.2.1,
              (Double.handleAbscissae R xi yi xi1 yi1 rt lt).2.2.2.2, xi1])) ∧
    (Double.piecesOf R sqrt xi yi xi1 yi1 rt lt).map Piece.isLinear
      = [decide (rt = 0), decide (lt = 0)] := by
  rw [Double.piecesOf_not_line R sqrt h]
  by_cases h1 : rt = 0 <;> by_cases h2 : lt = 0 <;>
    simp [h1, h2, Double.mkLine, Double.mkArc, Piece.xs, Piece.isLinear, List.flatMap_cons]

theorem Double.subCurvesStep_fields_rnd (R sqrt : ℚ → ℚ) (c : FlatCurve) (s : SubCurves)
    (i : Nat) :
    (Double.subCurvesStep R sqrt c s i).sc_x
        = s.sc_x ++ (Double.intervalPieces R sqrt c i).flatMap Piece.xs ∧
      (Double.subCurvesStep R sqrt c s i).sc_isLinear
        = s.sc_isLinear ++ (Double.intervalPieces R sqrt c i).map Piece.isLinear := by
  rw [Double.subCurvesStep_eq_rnd]
  obtain ⟨h1, -, -, h4⟩ := Double.foldl_add_fields_rnd R (Double.intervalPieces R sqrt c i) s
  exact ⟨h1, h4⟩

theorem RoundOK.nonneg {R : ℚ → ℚ} (hR : RoundOK R) {a : ℚ} (h : 0 ≤ a) : 0 ≤ R a := by
  have := hR.mono 0 a h
  rwa [hR.zero] at this

theorem RoundOK.nonpos {R : ℚ → ℚ} (hR : RoundOK R) {a : ℚ} (h : a ≤ 0) : R a ≤ 0 := by
  have := hR.mono a 0 h
  rwa [hR.zero] at this

/-- The handle `xp1` of lines 126-130 is not left of `x[i]`. -/
theorem Double.xp1_ge {R : ℚ → ℚ} (hR : RoundOK R) {xi xi1 rt : ℚ} (hxi : R xi = xi)
    (hd : xi < xi1) (hr0 : 0 ≤ rt) : xi ≤ R (R (R (xi1 - xi) * rt) + xi) := by
  have h1 : 0 ≤ R (R (xi1 - xi) * rt) :=
    hR.nonneg (mul_nonneg (hR.nonneg (by linarith)) hr0)
  have := hR.mono xi (R (R (xi1 - xi) * rt) + xi) (by linarith)
  rwa [hxi] at this

/-- The handle `xp3` of lines 133-137 is not right of `x[i+1]`. -/
theorem Double.xp3_le {R : ℚ → ℚ} (hR : RoundOK R) {xi xi1 lt : ℚ} (hxi1 : R xi1 = xi1)
    (hd : xi < xi1) (hl0 : 0 ≤ lt) : R (R (R (xi - xi1) * lt) + xi1) ≤ xi1 := by
  have h1 : R (R (xi - xi1) * lt) ≤ 0 :=
    hR.nonpos (mul_nonpos_of_nonpos_of_nonneg (hR.nonpos (by linarith)) hl0)
  have := hR.mono (R (R (xi - xi1) * lt) + xi1) xi1 (by linarith)
  rwa [hxi1] at this

/-- The midpoint of line 140, computed from two doubles, lies between them. -/
theorem Double.mid_between {R : ℚ → ℚ} (hR : RoundOK R) {a b : ℚ} (ha : R a = a)
    (hb : R b = b) : min a b ≤ R (R (a + b) / 2) ∧ R (R (a + b) / 2) ≤ max a b := by
  have key : ∀ u v : ℚ, R u = u → R v = v → u ≤ v →
      u ≤ R (R (u + v) / 2) ∧ R (R (u + v) / 2) ≤ v := by
    intro u v hu hv huv
    have t1 : R (2 * u) = 2 * u := by
      have := hR.twice u
      rwa [hu] at this
    have t2 : R (2 * v) = 2 * v := by
      have := hR.twice v
      rwa [hv] at this
    have s1 : 2 * u ≤ R (u + v) := by
      have := hR.mono (2 * u) (u + v) (by linarith)
      rwa [t1] at this
    have s2 : R (u + v) ≤ 2 * v := by
      have := hR.mono (u + v) (2 * v) (by linarith)
      rwa [t2] at this
    constructor
    · have := hR.mono u (R (u + v) / 2) (by linarith)
      rwa [hu] at this
    · have := hR.mono (R (u + v) / 2) v (by linarith)
      rwa [hv] at this
  rcases le_total a b with h | h
  · rw [min_eq_left h, max_eq_right h]
    exact key a b ha hb h
  · rw [min_eq_right h, max_eq_left h, add_comm]
    exact key b a hb ha h

/-- C18, amended (the control abscissae). In double arithmetic, for an interval `i` with
`x[i] < x[i+1]`, both doubles, and both tangents `>= 0` (in particular in `[0,1]`) that
is not emitted as a single line: the handles of lines 125-138 satisfy `x[i] <= xp1` and
`xp3 <= x[i+1]`; `xp2` of line 140 lies between `xp1` and `xp3`, in whichever order they
are; the collapse rule leaves `xp1` and `xp3` as they are or sets both to `xp2`; and the
iteration writes `x[i]`, `xp1` (for a curved first half), `xp2`, `xp2`, `xp3` (for a
curved second half), `x[i+1]` to `sc_x`. -/
theorem control_abscissae_ordered (R sqrt : ℚ → ℚ) (c : FlatCurve) (s : SubCurves) (i : Nat)
    (hR : RoundOK R)
    (hxi : R (c.x.getD i 0) = c.x.getD i 0) (hxi1 : R (c.x.getD (i + 1) 0) = c.x.getD (i + 1) 0)
    (hd : c.x.getD i 0 < c.x.getD (i + 1) 0)
    (hr0 : 0 ≤ c.rightTangent.getD i 0) (hl0 : 0 ≤ c.leftTangent.getD (i + 1) 0)
    (hnl : ¬((c.rightTangent.getD i 0 = 0 ∨ c.y.getD i 0 = c.y.getD (i + 1) 0) ∧
        (c.leftTangent.getD (i + 1) 0 = 0 ∨ c.y.getD i 0 = c.y.getD (i + 1) 0))) :
    ∃ xp1 xp3 xp2 xp1' xp3',
      Double.handleAbscissae R (c.x.getD i 0) (c.y.getD i 0) (c.x.getD (i + 1) 0)
          (c.y.getD (i + 1) 0) (c.rightTangent.getD i 0) (c.leftTangent.getD (i + 1) 0)
        = (xp1, xp3, xp2, xp1', xp3') ∧
      c.x.getD i 0 ≤ xp1 ∧ xp3 ≤ c.x.getD (i + 1) 0 ∧
      min xp1 xp3 ≤ xp2 ∧ xp2 ≤ max xp1 xp3 ∧
      ((xp1' = xp1 ∧ xp3' = xp3) ∨ (xp1' = xp2 ∧ xp3' = xp2)) ∧
      (Double.subCurvesStep R sqrt c s i).sc_x = s.sc_x ++
        ((if c.rightTangent.getD i 0 = 0 then [c.x.getD i 0, xp2]
          else [c.x.getD i 0, xp1', xp2]) ++
         (if c.leftTangent.getD (i + 1) 0 = 0 then [xp2, c.x.getD (i + 1) 0]
          else [xp2, xp3', c.x.getD (i + 1) 0])) := by
  refine ⟨_, _, _, _, _, rfl, ?_, ?_, ?_, ?_, ?_, ?_⟩
  · show c.x.getD i 0 ≤ if _ then _ else _
    split_ifs
    · exact le_refl _
    · exact Double.xp1_ge hR hxi hd hr0
  · show (if _ then _ else _) ≤ c.x.getD (i + 1) 0
    split_ifs
    · exact le_refl _
    · exact Double.xp3_le hR hxi1 hd hl0
  · refine (Double.mid_between hR ?_ ?_).1
    · show R (if _ then _ else _) = if _ then _ else _
      split_ifs
      · exact hxi
      · exact hR.idem _
    · show R (if _ then _ else _) = if _ then _ else _
      split_ifs
      · exact hxi1
      · exact hR.idem _
  · refine (Double.mid_between hR ?_ ?_).2
    · show R (if _ then _ else _) = if _ then _ else _
      split_ifs
      · exact hxi
      · exact hR.idem _
    · show R (if _ then _ else _) = if _ then _ else _
      split_ifs
      · exact hxi1
      · exact hR.idem _
  · show ((if _ then _ else _) = _ ∧ (if _ then _ else _) = _) ∨
      ((if _ then _ else _) = _ ∧ (if _ then _ else _) = _)
    by_cases hc : R (c.rightTangent.getD i 0 + c.leftTangent.getD (i + 1) 0) > 1
    · right
      rw [if_pos hc, if_pos hc]
      exact ⟨rfl, rfl⟩
    · left
      rw [if_neg hc, if_neg hc]
      exact ⟨rfl, rfl⟩
  · rw [(Double.subCurvesStep_fields_rnd R sqrt c s i).1]
    exact congrArg _ (Double.piecesOf_xs_rnd R sqrt hnl).1

/-- Witness of C18, amended: interval 0 of `wobbleCtrl` in the arithmetic `binary64`, from
`x = 0.1` to `x = 0.7` with both tangents `0.5`. -/
theorem control_abscissae_ordered_witness :
    ∃ xp1 xp3 xp2 xp1' xp3',
      Double.handleAbscissae binary64 (wobbleCtrl.x.getD 0 0) (wobbleCtrl.y.getD 0 0)
          (wobbleCtrl.x.getD (0 + 1) 0) (wobbleCtrl.y.getD (0 + 1) 0)
          (wobbleCtrl.rightTangent.getD 0 0) (wobbleCtrl.leftTangent.getD (0 + 1) 0)
        = (xp1, xp3, xp2, xp1', xp3') ∧
      wobbleCtrl.x.getD 0 0 ≤ xp1 ∧ xp3 ≤ wobbleCtrl.x.getD (0 + 1) 0 ∧
      min xp1 xp3 ≤ xp2 ∧ xp2 ≤ max xp1 xp3 ∧
      ((xp1' = xp1 ∧ xp3' = xp3) ∨ (xp1' = xp2 ∧ xp3' = xp2)) ∧
      (Double.subCurvesStep binary64 sqrt64 wobbleCtrl
          { sc_x := [], sc_y := [], sc_length := [], sc_isLinear := [], total_length := 0 }
          0).sc_x = [] ++
        ((if wobbleCtrl.rightTangent.getD 0 0 = 0 then [wobbleCtrl.x.getD 0 0, xp2]
          else [wobbleCtrl.x.getD 0 0, xp1', xp2]) ++
         (if wobbleCtrl.leftTangent.getD (0 + 1) 0 = 0
          then [xp2, wobbleCtrl.x.getD (0 + 1) 0]
          else [xp2, xp3', wobbleCtrl.x.getD (0 + 1) 0])) :=
  control_abscissae_ordered binary64 sqrt64 wobbleCtrl
    { sc_x := [], sc_y := [], sc_length := [], sc_isLinear := [], total_length := 0 } 0
    roundOK_binary64 (by decide!) (by decide!) (by decide!) (by decide!) (by decide!)
    (by decide!)

/-- C18 as stated fails in double arithmetic. `wobbleParams` is valid and made of
doubles; on its interval 0, from `x = 0.1` to `x = 0.7` with both tangents `0.5`, no
collapse takes place, `xp1 = xp2 = 0.4` and `xp3 = 0.4 - 2^(-54)`, the double just below:
`xp2 <= xp3` fails, and the abscissae the first loop writes to `sc_x` are not
non-decreasing. -/
theorem control_abscissae_ordered_fails :
    ValidParams wobbleParams ∧ AllDoubles binary64 wobbleParams ∧
    wobbleCtrl.x = [binary64 (1/10), binary64 (7/10), binary64 (binary64 (1/10) + 1)] ∧
    wobbleCtrl.rightTangent.getD 0 0 = 1/2 ∧ wobbleCtrl.leftTangent.getD 1 0 = 1/2 ∧
    wobbleCtrl.y.getD 0 0 ≠ wobbleCtrl.y.getD 1 0 ∧
    Double.handleAbscissae binary64 (wobbleCtrl.x.getD 0 0) (wobbleCtrl.y.getD 0 0)
        (wobbleCtrl.x.getD 1 0) (wobbleCtrl.y.getD 1 0)
        (wobbleCtrl.rightTangent.getD 0 0) (wobbleCtrl.leftTangent.getD 1 0)
      = (binary64 (2/5), binary64 (2/5) - pow2 (-54), binary64 (2/5), binary64 (2/5),
          binary64 (2/5) - pow2 (-54)) ∧
    ¬ (binary64 (2/5) ≤ binary64 (2/5) - pow2 (-54)) ∧
    (Double.subCurves binary64 sqrt64 wobbleCtrl).sc_x
      = [binary64 (1/10), binary64 (2/5), binary64 (2/5), binary64 (2/5),
          binary64 (2/5) - pow2 (-54), binary64 (7/10), binary64 (7/10),
          binary64 (binary64 (1/10) + 1)] ∧
    ¬ List.Pairwise (· ≤ ·) (Double.subCurves binary64 sqrt64 wobbleCtrl).sc_x := by
  decide!

/-! ## The polyline of a curve built in double arithmetic -/

theorem Double.polyLoop_pieces_rnd (R : ℚ → ℚ)
    (bez : Nat → ℚ → ℚ → ℚ → ℚ → ℚ → ℚ → ℚ → ℚ × ℚ) (s : SubCurves) (ppn : Int) :
    ∀ (ps : List Piece) (i j : Nat) (poly poly' : List ℚ × List ℚ),
      s.sc_isLinear.drop i = ps.map Piece.isLinear →
      s.sc_length.drop i = ps.map Piece.len →
      s.sc_x.drop j = ps.flatMap Piece.xs →
      s.sc_y.drop j = ps.flatMap Piece.ys →
      Double.polyLoop R bez s ppn ps.length i j poly = .ok poly' →
      poly' =
        (poly.1 ++ (ps.flatMap (Double.pieceSamples R bez ppn s.total_length)).map Prod.fst,
         poly.2 ++ (ps.flatMap (Double.pieceSamples R bez ppn s.total_length)).map Prod.snd) := by
  intro ps
  induction ps with
  | nil =>
    intro i j poly poly' _ _ _ _ h
    simp only [List.length_nil, Double.polyLoop] at h
    cases h
    simp
  | cons p ps ih =>
    intro i j poly poly' hf hl hx hy h
    rw [List.map_cons] at hf hl
    rw [List.flatMap_cons] at hx hy
    obtain ⟨hf0, hf1⟩ := drop_eq_cons hf
    obtain ⟨hl0, hl1⟩ := drop_eq_cons hl
    rw [List.length_cons, Double.polyLoop] at h
    cases p with
    | line xa ya xb yb len =>
      simp only [Piece.xs, Piece.ys, List.cons_append, List.nil_append] at hx hy
      obtain ⟨-, hx1⟩ := drop_eq_cons hx
      obtain ⟨hx1, hx2⟩ := drop_eq_cons hx1
      obtain ⟨-, hy1⟩ := drop_eq_cons hy
      obtain ⟨hy1, hy2⟩ := drop_eq_cons hy1
      simp only [hf0, Piece.isLinear, hx1, hy1] at h
      rw [ih (i + 1) (j + 2) _ poly' hf1 hl1 hx2 hy2 h]
      simp [Double.pieceSamples, List.flatMap_cons]
    | arc xa ya xb yb xc yc len =>
      simp only [Piece.xs, Piece.ys, List.cons_append, List.nil_append] at hx hy
      obtain ⟨hx0, hx1⟩ := drop_eq_cons hx
      obtain ⟨hx1, hx2⟩ := drop_eq_cons hx1
      obtain ⟨hx2, hx3⟩ := drop_eq_cons hx2
      obtain ⟨hy0, hy1⟩ := drop_eq_cons hy
      obtain ⟨hy1, hy2⟩ := drop_eq_cons hy1
      obtain ⟨hy2, hy3⟩ := drop_eq_cons hy2
      simp only [hf0, Piece.isLinear, hl0, Piece.len, hx0, hx1, hx2, hy0, hy1, hy2] at h
      split at h
      · cases h
      · split at h
        · cases h
        · rw [ih (i + 1) (j + 3) _ poly' hf1 hl1 hx3 hy3 h]
          simp [Double.AddPolygons, Double.pieceSamples, List.flatMap_cons, List.map_map,
            Function.comp_def]

theorem Double.CtrlPoints_set_ok_rnd {R sqrt : ℚ → ℚ}
    {bez : Nat → ℚ → ℚ → ℚ → ℚ → ℚ → ℚ → ℚ → ℚ × ℚ} {c c' : FlatCurve}
    (h : Double.CtrlPoints_set R sqrt bez c = .ok c') :
    ∃ a b poly, (Double.subCurves R sqrt c).sc_x[0]? = some a ∧
      (Double.subCurves R sqrt c).sc_y[0]? = some b ∧
      Double.polyLoop R bez (Double.subCurves R sqrt c) c.ppn
        (Double.subCurves R sqrt c).sc_length.length 0 0 ([a], [b]) = .ok poly ∧
      c' = { c with poly_x := poly.1, poly_y := poly.2 } := by
  unfold Double.CtrlPoints_set at h
  dsimp only at h
  split at h
  · next a b ha hb =>
    split at h
    · next poly hp =>
      refine ⟨a, b, poly, ha, hb, hp, ?_⟩
      cases h; rfl
    · cases h
  · cases h

theorem Double.construct_minmax_rnd (R sqrt : ℚ → ℚ)
    (bez : Nat → ℚ → ℚ → ℚ → ℚ → ℚ → ℚ → ℚ → ℚ × ℚ) (p : List ℚ) (ppn : Int)
    (hL : 4 < p.length) (hk : toInt (p.getD 0 0) = FCT_MinMaxCPoints) :
    Double.construct R sqrt bez p ppn =
      if (p.length - 1) / 4 > 1 then Double.CtrlPoints_set R sqrt bez (Double.ctrlOf R p ppn)
      else .ok (Double.ctrlOf R p ppn) := by
  have hk' : toKind (p.getD 0 0) = .ok FCT_MinMaxCPoints := by
    unfold toKind
    rw [hk, if_pos (by decide)]
  unfold Double.construct
  simp only [hL, hk', if_true, readPoints_eq, List.nil_append, Double.ctrlOf]

theorem Double.piecesOf_head_rnd (R sqrt : ℚ → ℚ) (xi yi xi1 yi1 rt lt : ℚ) :
    ∃ rx ry, (Double.piecesOf R sqrt xi yi xi1 yi1 rt lt).flatMap Piece.xs = xi :: rx ∧
      (Double.piecesOf R sqrt xi yi xi1 yi1 rt lt).flatMap Piece.ys = yi :: ry := by
  unfold Double.piecesOf
  dsimp only
  split_ifs <;> exact ⟨_, _, rfl, rfl⟩

theorem Double.polyline_eq_rnd {R sqrt : ℚ → ℚ}
    {bez : Nat → ℚ → ℚ → ℚ → ℚ → ℚ → ℚ → ℚ → ℚ × ℚ} {c c' : FlatCurve}
    (h : Double.CtrlPoints_set R sqrt bez c = .ok c') (hN : 0 < c.N) :
    c'.poly_x = (Double.polyPts R sqrt bez c).map Prod.fst ∧
      c'.poly_y = (Double.polyPts R sqrt bez c).map Prod.snd := by
  obtain ⟨a, b, poly, ha, hb, hp, rfl⟩ := Double.CtrlPoints_set_ok_rnd h
  obtain ⟨hx, hy, hl, hf⟩ := Double.subCurves_fields_rnd R sqrt c
  have hr : List.range c.N = 0 :: (List.range (c.N - 1)).map Nat.succ := by
    conv_lhs => rw [show c.N = (c.N - 1) + 1 by omega]
    exact List.range_succ_eq_map _
  obtain ⟨rx, ry, e1, e2⟩ :=
    Double.piecesOf_head_rnd R sqrt (c.x.getD 0 0) (c.y.getD 0 0) (c.x.getD (0 + 1) 0)
      (c.y.getD (0 + 1) 0) (c.rightTangent.getD 0 0) (c.leftTangent.getD (0 + 1) 0)
  have ha' : a = c.x.getD 0 0 := by
    rw [hx, Double.allPieces, hr, List.flatMap_cons, List.flatMap_append,
      Double.intervalPieces, e1] at ha
    simpa using ha.symm
  have hb' : b = c.y.getD 0 0 := by
    rw [hy, Double.allPieces, hr, List.flatMap_cons, List.flatMap_append,
      Double.intervalPieces, e2] at hb
    simpa using hb.symm
  have hp' := Double.polyLoop_pieces_rnd R bez (Double.subCurves R sqrt c) c.ppn
    (Double.allPieces R sqrt c) 0 0 ([a], [b]) poly
    (by simp [hf]) (by simp [hl]) (by simp [hx]) (by simp [hy])
    (by rw [hl, List.length_map] at hp; exact hp)
  have hs : (Double.allPieces R sqrt c).flatMap
        (Double.pieceSamples R bez c.ppn (Double.subCurves R sqrt c).total_length)
      = (List.range c.N).flatMap
          (Double.intervalSamples R sqrt bez c (Double.subCurves R sqrt c).total_length) := by
    unfold Double.allPieces
    rw [List.flatMap_assoc]
    rfl
  rw [hs] at hp'
  subst ha' hb'
  rw [hp']
  exact ⟨rfl, rfl⟩

/-- What a curve built from a valid list of doubles holds: its control points are those
of the list, the closing abscissa is the sum `x[0] + 1.0` of line 56, and its polyline is
`Double.polyPts`. -/
theorem Double.valid_setup {R sqrt : ℚ → ℚ}
    {bez : Nat → ℚ → ℚ → ℚ → ℚ → ℚ → ℚ → ℚ → ℚ × ℚ} {p : List ℚ} {ppn : Int}
    {c : FlatCurve} (hv : ValidParams p)
    (hc : Double.construct R sqrt bez p ppn = .ok c) :
    c.kind = FCT_MinMaxCPoints ∧ c.ppn = ppn ∧ c.N = (p.length - 1) / 4 ∧ 2 ≤ c.N ∧
      (∀ j, j < c.N → c.x.getD j 0 = p.getD (1 + 4 * j) 0) ∧
      (∀ j, j < c.N → c.y.getD j 0 = p.getD (2 + 4 * j) 0) ∧
      (∀ j, j < c.N → c.leftTangent.getD j 0 = p.getD (3 + 4 * j) 0) ∧
      (∀ j, j < c.N → c.rightTangent.getD j 0 = p.getD (4 + 4 * j) 0) ∧
      c.x.getD c.N 0 = R (c.x.getD 0 0 + 1) ∧ c.y.getD c.N 0 = c.y.getD 0 0 ∧
      c.leftTangent.getD c.N 0 = c.leftTangent.getD 0 0 ∧
      c.poly_x = (Double.polyPts R sqrt bez c).map Prod.fst ∧
      c.poly_y = (Double.polyPts R sqrt bez c).map Prod.snd := by
  obtain ⟨hL, hk, hN, -, -⟩ := hv
  rw [Double.construct_minmax_rnd R sqrt bez p ppn hL hk, if_pos (by omega)] at hc
  have hpl := Double.polyline_eq_rnd hc (by show 0 < (p.length - 1) / 4; omega)
  obtain ⟨a, b, poly, -, -, -, rfl⟩ := Double.CtrlPoints_set_ok_rnd hc
  refine ⟨rfl, rfl, rfl, hN, ?_, ?_, ?_, ?_, ?_, ?_, ?_, hpl.1, hpl.2⟩
  · intro j hj; exact getD_tab _ _ _ _ hj
  · intro j hj; exact getD_tab _ _ _ _ hj
  · intro j hj; exact getD_tab _ _ _ _ hj
  · intro j hj; exact getD_tab _ _ _ _ hj
  · show ((List.range ((p.length - 1) / 4)).map _ ++ [_]).getD ((p.length - 1) / 4) 0
      = R (((List.range _).map _ ++ _).getD 0 0 + 1)
    rw [getD_tab_last, getD_tab _ _ _ _ (by omega)]
  · have e1 := getD_tab_last (fun i => p.getD (2 + 4 * i) 0) (p.getD 2 0) ((p.length - 1) / 4)
    have e2 := getD_tab (fun i => p.getD (2 + 4 * i) 0) (p.getD 2 0) ((p.length - 1) / 4) 0
      (by omega)
    exact e1.trans e2.symm
  · have e1 := getD_tab_last (fun i => p.getD (3 + 4 * i) 0) (p.getD 3 0) ((p.length - 1) / 4)
    have e2 := getD_tab (fun i => p.getD (3 + 4 * i) 0) (p.getD 3 0) ((p.length - 1) / 4) 0
      (by omega)
    exact e1.trans e2.symm

/-! ## The lookup on a polyline with increasing abscissae, in double arithmetic -/

/-- The bracket the binary search ends on when the polyline is cut in two parts, the
first with abscissae `<= t` and the second with abscissae `> t`. -/
theorem search_split {c : FlatCurve} {A B : List (ℚ × ℚ)} {pa pb : ℚ × ℚ} {t : ℚ}
    (hx : c.poly_x = (A ++ B).map Prod.fst) (hy : c.poly_y = (A ++ B).map Prod.snd)
    (hA : A.getLast? = some pa) (hB : B.head? = some pb)
    (h1 : ∀ q ∈ A, q.1 ≤ t) (h2 : ∀ q ∈ B, t < q.1) :
    ∃ k, search c.poly_x t 0 (c.poly_x.length - 1) = .ok (k, k + 1) ∧
      c.poly_x[k]? = some pa.1 ∧ c.poly_x[k + 1]? = some pb.1 ∧
      c.poly_y[k]? = some pa.2 ∧ c.poly_y[k + 1]? = some pb.2 := by
  have hAl : 0 < A.length := by
    cases A with
    | nil => simp at hA
    | cons a A => simp
  have hBl : 0 < B.length := by
    cases B with
    | nil => simp at hB
    | cons b B => simp
  have hlen : c.poly_x.length = A.length + B.length := by simp [hx]
  obtain ⟨k, hs, -, hk2, hlo, hhi⟩ :=
    search_spec c.poly_x t _ 0 (c.poly_x.length - 1) rfl (by omega) (by omega)
  have hkA : k < A.length := by
    by_contra hcon
    obtain ⟨q, hq, e, -, -⟩ :=
      @getElem?_map_fst_append_right A B k (by omega) (by omega)
    rw [← hx] at e
    rcases hlo with rfl | ⟨a, ha, hat⟩
    · omega
    · rw [e] at ha
      cases ha
      exact absurd (h2 q hq) (not_lt.mpr hat)
  have hkB : A.length ≤ k + 1 := by
    by_contra hcon
    obtain ⟨q, hq, e, -, -⟩ :=
      @getElem?_map_fst_append_left A B (k + 1) (by omega)
    rw [← hx] at e
    rcases hhi with e' | ⟨b, hb, hbt⟩
    · omega
    · rw [e] at hb
      cases hb
      exact absurd (h1 q hq) (not_le.mpr hbt)
  have hk : k = A.length - 1 := by omega
  obtain ⟨qa, hqa, ea, ea', eqa⟩ := @getElem?_map_fst_append_left A B k hkA
  obtain ⟨qb, hqb, eb, eb', eqb⟩ :=
    @getElem?_map_fst_append_right A B (k + 1) hkB (by omega)
  have e1 : qa = pa := by
    rw [List.getLast?_eq_getElem?, ← hk, eqa] at hA
    exact Option.some.inj hA
  have e2 : qb = pb := by
    have : k + 1 - A.length = 0 := by omega
    rw [this] at eqb
    rw [List.head?_eq_getElem?, eqb] at hB
    exact Option.some.inj hB
  subst e1 e2
  rw [← hx] at ea eb
  rw [← hy] at ea' eb'
  exact ⟨k, hs, ea, eb, ea', eb'⟩

/-- The bracket the binary search ends on for a query that no abscissa exceeds: the last
two samples. -/
theorem search_last {c : FlatCurve} {A : List (ℚ × ℚ)} {pa pb : ℚ × ℚ} {t : ℚ}
    (hx : c.poly_x = (A ++ [pb]).map Prod.fst) (hy : c.poly_y = (A ++ [pb]).map Prod.snd)
    (hA : A.getLast? = some pa) (h1 : ∀ q ∈ A, q.1 ≤ t) (h2 : pb.1 ≤ t) :
    ∃ k, search c.poly_x t 0 (c.poly_x.length - 1) = .ok (k, k + 1) ∧
      c.poly_x[k]? = some pa.1 ∧ c.poly_x[k + 1]? = some pb.1 ∧
      c.poly_y[k]? = some pa.2 ∧ c.poly_y[k + 1]? = some pb.2 := by
  have hAl : 0 < A.length := by
    cases A with
    | nil => simp at hA
    | cons a A => simp
  have hlen : c.poly_x.length = A.length + 1 := by simp [hx]
  obtain ⟨k, hs, -, hk2, hlo, hhi⟩ :=
    search_spec c.poly_x t _ 0 (c.poly_x.length - 1) rfl (by omega) (by omega)
  have hk : k + 1 = A.length := by
    rcases hhi with e | ⟨b, hb, hbt⟩
    · omega
    · exfalso
      by_cases hc : k + 1 < A.length
      · obtain ⟨q, hq, e, -, -⟩ := @getElem?_map_fst_append_left A [pb] (k + 1) hc
        rw [← hx, hb] at e
        cases e
        exact absurd (h1 q hq) (not_le.mpr hbt)
      · obtain ⟨q, hq, e, -, -⟩ :=
          @getElem?_map_fst_append_right A [pb] (k + 1) (by omega) (by simp; omega)
        rw [← hx, hb] at e
        cases e
        rw [List.mem_singleton] at hq
        subst hq
        exact absurd h2 (not_le.mpr hbt)
  obtain ⟨qa, hqa, ea, ea', eqa⟩ := @getElem?_map_fst_append_left A [pb] k (by omega)
  obtain ⟨qb, hqb, eb, eb', -⟩ :=
    @getElem?_map_fst_append_right A [pb] (k + 1) (by omega) (by simp; omega)
  rw [List.mem_singleton] at hqb
  subst hqb
  have e1 : qa = pa := by
    have : k = A.length - 1 := by omega
    rw [List.getLast?_eq_getElem?, ← this, eqa] at hA
    exact Option.some.inj hA
  subst e1
  rw [← hx] at ea eb
  rw [← hy] at ea' eb'
  exact ⟨k, hs, ea, eb, ea', eb'⟩

/-- In a list with strictly increasing abscissae cut in two parts, the last element of
the first part bounds the first part from above and the second part from below. -/
theorem pairwise_split {A B : List (ℚ × ℚ)} {pa : ℚ × ℚ}
    (hs : List.Pairwise (· < ·) ((A ++ B).map Prod.fst)) (hA : A.getLast? = some pa) :
    (∀ q ∈ A, q.1 ≤ pa.1) ∧ (∀ q ∈ B, pa.1 < q.1) := by
  rw [List.map_append, List.pairwise_append] at hs
  obtain ⟨hsA, -, hAB⟩ := hs
  have hne : A ≠ [] := by
    intro e
    rw [e] at hA
    simp at hA
  have hA' : A = A.dropLast ++ [pa] := by
    have h1 := List.dropLast_append_getLast hne
    have h2 : A.getLast hne = pa := by
      rw [List.getLast?_eq_getLast _ hne] at hA
      exact Option.some.inj hA
    rw [h2] at h1
    exact h1.symm
  have hpa : pa ∈ A := by
    rw [hA']
    simp
  constructor
  · intro q hq
    rw [hA'] at hq hsA
    rcases List.mem_append.mp hq with h | h
    · rw [List.map_append, List.pairwise_append] at hsA
      exact (hsA.2.2 q.1 (List.mem_map_of_mem _ h) pa.1 (by simp)).le
    · rw [List.mem_singleton] at h
      rw [h]
  · intro q hq
    exact hAB pa.1 (List.mem_map_of_mem _ hpa) q.1 (List.mem_map_of_mem _ hq)

theorem Double.getVal_eq_lookup {R : ℚ → ℚ} {c : FlatCurve} {t x0 : ℚ}
    (hk : c.kind = FCT_MinMaxCPoints) (h0 : c.poly_x[0]? = some x0) (ht : x0 ≤ t) :
    Double.getVal R c t = Double.lookup R c t := by
  unfold Double.getVal
  simp only [if_pos hk, h0, if_neg (not_lt.mpr ht)]

/-- The first abscissa of a polyline with increasing abscissae is the smallest. -/
theorem head_le_of_pairwise {l : List ℚ} (hs : List.Pairwise (· < ·) l) {x0 v : ℚ}
    (h0 : l[0]? = some x0) (hv : v ∈ l) : x0 ≤ v := by
  cases l with
  | nil => simp at hv
  | cons a l =>
    simp only [List.getElem?_cons_zero, Option.some.injEq] at h0
    subst h0
    rcases List.mem_cons.mp hv with e | e
    · rw [e]
    · exact ((List.pairwise_cons.mp hs).1 v e).le

/-- In double arithmetic, on a polyline of doubles with strictly increasing abscissae,
a query between two consecutive samples gets the interpolation of line 314 on them. -/
theorem Double.getVal_between {R : ℚ → ℚ} (hR : RoundOK R) {c : FlatCurve}
    {A B : List (ℚ × ℚ)} {pa pb : ℚ × ℚ} {t : ℚ} (hk : c.kind = FCT_MinMaxCPoints)
    (hx : c.poly_x = (A ++ B).map Prod.fst) (hy : c.poly_y = (A ++ B).map Prod.snd)
    (hA : A.getLast? = some pa) (hB : B.head? = some pb)
    (hs : List.Pairwise (· < ·) c.poly_x) (hd : AllDoubles R c.poly_x)
    (h1 : pa.1 ≤ t) (h2 : t < pb.1) :
    Double.getVal R c t
      = .ok (R (pa.2 + R (R (R (t - pa.1) * R (pb.2 - pa.2)) / R (pb.1 - pa.1)))) := by
  have hs' := hs
  rw [hx] at hs'
  obtain ⟨s1, s2⟩ := pairwise_split hs' hA
  have hne : A ≠ [] := by
    intro e
    rw [e] at hA
    simp at hA
  have hpa : pa ∈ A := List.mem_of_mem_getLast? hA
  have hpb : pb ∈ B := List.mem_of_mem_head? hB
  have m1 : pa.1 ∈ c.poly_x := by
    rw [hx]
    exact List.mem_map_of_mem _ (List.mem_append_left _ hpa)
  have m2 : pb.1 ∈ c.poly_x := by
    rw [hx]
    exact List.mem_map_of_mem _ (List.mem_append_right _ hpb)
  have hB' : ∀ q ∈ B, pb.1 ≤ q.1 := by
    intro q hq
    have hsB : List.Pairwise (· < ·) (B.map Prod.fst) := by
      rw [List.map_append, List.pairwise_append] at hs'
      exact hs'.2.1
    cases B with
    | nil => simp at hq
    | cons b B =>
      simp only [List.head?_cons, Option.some.injEq] at hB
      subst hB
      rcases List.mem_cons.mp hq with e | e
      · rw [e]
      · rw [List.map_cons, List.pairwise_cons] at hsB
        exact (hsB.1 q.1 (List.mem_map_of_mem _ e)).le
  obtain ⟨k, hsr, ea, eb, ea', eb'⟩ := search_split hx hy hA hB
    (fun q hq => (s1 q hq).trans h1) (fun q hq => lt_of_lt_of_le h2 (hB' q hq))
  have hpos : 0 < R (pb.1 - pa.1) := hR.sub_pos _ _ (hd _ m1) (hd _ m2) (by linarith)
  have h0 : c.poly_x[0]? = some (c.poly_x.getD 0 0) :=
    getD_of_lt _ _ (by rw [hx]; simp; have := List.length_pos.mpr hne; omega)
  have hx0 : c.poly_x.getD 0 0 ≤ t := (head_le_of_pairwise hs h0 m1).trans h1
  rw [Double.getVal_eq_lookup hk h0 hx0]
  exact Double.lookup_of_search_rnd hsr ea eb ea' eb' (ne_of_gt hpos)

/-- In double arithmetic, on a polyline of doubles with strictly increasing abscissae,
`getVal` at the abscissa of a sample that is not the last returns the ordinate of the
sample. -/
theorem Double.getVal_sample {R : ℚ → ℚ} (hR : RoundOK R) {c : FlatCurve}
    {A B : List (ℚ × ℚ)} {pa : ℚ × ℚ} (hk : c.kind = FCT_MinMaxCPoints)
    (hx : c.poly_x = (A ++ B).map Prod.fst) (hy : c.poly_y = (A ++ B).map Prod.snd)
    (hA : A.getLast? = some pa) (hB : B ≠ [])
    (hs : List.Pairwise (· < ·) c.poly_x) (hd : AllDoubles R c.poly_x)
    (hya : R pa.2 = pa.2) :
    Double.getVal R c pa.1 = .ok pa.2 := by
  obtain ⟨pb, hpb⟩ : ∃ pb, B.head? = some pb := by
    cases B with
    | nil => exact absurd rfl hB
    | cons b B => exact ⟨b, rfl⟩
  have hs' := hs
  rw [hx] at hs'
  have h2 := (pairwise_split hs' hA).2 pb (List.mem_of_mem_head? hpb)
  rw [Double.getVal_between hR hk hx hy hA hpb hs hd (le_refl _) h2]
  simp [hR.zero, hya]

/-- In double arithmetic, on a polyline of doubles with strictly increasing abscissae,
`getVal` at the abscissa of the last sample gets the interpolation of line 314 on the
last two samples. -/
theorem Double.getVal_last {R : ℚ → ℚ} (hR : RoundOK R) {c : FlatCurve}
    {A : List (ℚ × ℚ)} {pa pb : ℚ × ℚ} (hk : c.kind = FCT_MinMaxCPoints)
    (hx : c.poly_x = (A ++ [pb]).map Prod.fst) (hy : c.poly_y = (A ++ [pb]).map Prod.snd)
    (hA : A.getLast? = some pa)
    (hs : List.Pairwise (· < ·) c.poly_x) (hd : AllDoubles R c.poly_x) :
    Double.getVal R c pb.1
      = .ok (R (pa.2 + R (R (R (pb.1 - pa.1) * R (pb.2 - pa.2)) / R (pb.1 - pa.1)))) := by
  have hs' := hs
  rw [hx] at hs'
  obtain ⟨s1, s2⟩ := pairwise_split hs' hA
  have hne : A ≠ [] := by
    intro e
    rw [e] at hA
    simp at hA
  have hpa : pa ∈ A := List.mem_of_mem_getLast? hA
  have hlt : pa.1 < pb.1 := s2 pb (by simp)
  have m1 : pa.1 ∈ c.poly_x := by
    rw [hx]
    exact List.mem_map_of_mem _ (List.mem_append_left _ hpa)
  have m2 : pb.1 ∈ c.poly_x := by
    rw [hx]
    exact List.mem_map_of_mem _ (List.mem_append_right _ (by simp))
  obtain ⟨k, hsr, ea, eb, ea', eb'⟩ := search_last (t := pb.1) hx hy hA
    (fun q hq => (s1 q hq).trans hlt.le) (le_refl _)
  have hpos : 0 < R (pb.1 - pa.1) := hR.sub_pos _ _ (hd _ m1) (hd _ m2) hlt
  have h0 : c.poly_x[0]? = some (c.poly_x.getD 0 0) :=
    getD_of_lt _ _ (by rw [hx]; simp)
  have hx0 : c.poly_x.getD 0 0 ≤ pb.1 := head_le_of_pairwise hs h0 m2
  rw [Double.getVal_eq_lookup hk h0 hx0]
  exact Double.lookup_of_search_rnd hsr ea eb ea' eb' (ne_of_gt hpos)

/-! ## The samples of a curve built in double arithmetic -/

theorem ptsUpTo_getLast {X Y : Nat → ℚ} {S : Nat → List (ℚ × ℚ)} {N : Nat}
    (hl : ∀ j, j < N → (S j).getLast? = some (X (j + 1), Y (j + 1))) {i : Nat} (hi : i ≤ N) :
    (ptsUpTo X Y S i).getLast? = some (X i, Y i) := by
  cases i with
  | zero => simp [ptsUpTo]
  | succ i =>
    have h := hl i (by omega)
    have hne : S i ≠ [] := by
      intro e
      rw [e] at h
      simp at h
    rw [ptsUpTo_succ, List.getLast?_append_of_ne_nil _ hne, h]

theorem ptsUpTo_split (X Y : Nat → ℚ) (S : Nat → List (ℚ × ℚ)) {i N : Nat} (hi : i < N) :
    ∃ rest, ptsUpTo X Y S N = ptsUpTo X Y S i ++ (S i ++ rest) := by
  have key : ∀ M, i + 1 ≤ M → ∃ rest, ptsUpTo X Y S M = ptsUpTo X Y S i ++ (S i ++ rest) := by
    intro M hM
    induction M, hM using Nat.le_induction with
    | base => exact ⟨[], by rw [ptsUpTo_succ, List.append_nil]⟩
    | succ n hn ih =>
      obtain ⟨rest, e⟩ := ih
      exact ⟨rest ++ S n, by rw [ptsUpTo_succ, e]; simp⟩
  exact key N hi

theorem Double.pieceSamples_getLast_rnd (R : ℚ → ℚ)
    (bez : Nat → ℚ → ℚ → ℚ → ℚ → ℚ → ℚ → ℚ → ℚ × ℚ) (ppn : Int) (total : ℚ) (p : Piece) :
    (Double.pieceSamples R bez ppn total p).getLast? = some p.endPt := by
  cases p with
  | line xa ya xb yb len => rfl
  | arc xa ya xb yb xc yc len =>
    simp [Double.pieceSamples, Piece.endPt]

theorem Double.piecesOf_last_rnd (R sqrt : ℚ → ℚ) (xi yi xi1 yi1 rt lt : ℚ) :
    ∃ init lastp, Double.piecesOf R sqrt xi yi xi1 yi1 rt lt = init ++ [lastp] ∧
      lastp.endPt = (xi1, yi1) := by
  unfold Double.piecesOf
  dsimp only
  split_ifs <;> first | exact ⟨[], _, rfl, rfl⟩ | exact ⟨[_], _, rfl, rfl⟩

theorem Double.intervalSamples_last (R sqrt : ℚ → ℚ)
    (bez : Nat → ℚ → ℚ → ℚ → ℚ → ℚ → ℚ → ℚ → ℚ × ℚ) (c : FlatCurve) (total : ℚ) (i : Nat) :
    (Double.intervalSamples R sqrt bez c total i).getLast?
      = some (c.x.getD (i + 1) 0, c.y.getD (i + 1) 0) := by
  unfold Double.intervalSamples Double.intervalPieces
  obtain ⟨init, lastp, e, hl⟩ := Double.piecesOf_last_rnd R sqrt (c.x.getD i 0) (c.y.getD i 0)
    (c.x.getD (i + 1) 0) (c.y.getD (i + 1) 0) (c.rightTangent.getD i 0)
    (c.leftTangent.getD (i + 1) 0)
  have h := Double.pieceSamples_getLast_rnd R bez c.ppn total lastp
  have hne : Double.pieceSamples R bez c.ppn total lastp ≠ [] := by
    intro e'
    rw [e'] at h
    simp at h
  rw [e, List.flatMap_append, List.flatMap_singleton,
    List.getLast?_append_of_ne_nil _ hne, h, hl]

theorem Double.mkLine_xs (R sqrt : ℚ → ℚ) (xa ya xb yb : ℚ) :
    (Double.mkLine R sqrt xa ya xb yb).xs = [xa, xb] := rfl

theorem Double.mkArc_xs (R sqrt : ℚ → ℚ) (xa ya xb yb xc yc : ℚ) :
    (Double.mkArc R sqrt xa ya xb yb xc yc).xs = [xa, xb, xc] := rfl

/-- The abscissae of the pieces of an interval between two doubles are doubles. -/
theorem Double.piecesOf_xs_doubles {R : ℚ → ℚ} (hR : RoundOK R) (sqrt : ℚ → ℚ)
    {xi yi xi1 yi1 rt lt : ℚ} (hxi : R xi = xi) (hxi1 : R xi1 = xi1) :
    ∀ p, p ∈ Double.piecesOf R sqrt xi yi xi1 yi1 rt lt → ∀ v, v ∈ p.xs → R v = v := by
  intro p hp v hv
  have i1 := hR.idem
  unfold Double.piecesOf at hp
  dsimp only at hp
  split_ifs at hp <;>
    simp only [List.mem_cons, List.mem_singleton, List.not_mem_nil, or_false] at hp <;>
    rcases hp with rfl | rfl <;>
    simp only [Double.mkLine_xs, Double.mkArc_xs, List.mem_cons, List.mem_singleton,
      List.not_mem_nil, or_false] at hv <;>
    rcases hv with rfl | rfl | rfl <;>
    first | exact hxi | exact hxi1 | exact i1 _

theorem Double.pieceSamples_doubles {R : ℚ → ℚ} (hR : RoundOK R)
    (bez : Nat → ℚ → ℚ → ℚ → ℚ → ℚ → ℚ → ℚ → ℚ × ℚ) (ppn : Int) (total : ℚ) {p : Piece}
    (hp : ∀ v, v ∈ p.xs → R v = v) :
    ∀ q, q ∈ Double.pieceSamples R bez ppn total p → R q.1 = q.1 := by
  intro q hq
  cases p with
  | line xa ya xb yb len =>
    simp only [Double.pieceSamples, List.mem_singleton] at hq
    subst hq
    exact hp xb (by simp [Piece.xs])
  | arc xa ya xb yb xc yc len =>
    simp only [Double.pieceSamples, List.mem_append, List.mem_map, List.mem_singleton] at hq
    rcases hq with ⟨k, -, rfl⟩ | rfl
    · exact hR.idem _
    · exact hp xc (by simp [Piece.xs])

/-- The polyline of a curve built in double arithmetic from doubles holds doubles. -/
theorem Double.polyPts_doubles {R : ℚ → ℚ} (hR : RoundOK R) (sqrt : ℚ → ℚ)
    (bez : Nat → ℚ → ℚ → ℚ → ℚ → ℚ → ℚ → ℚ → ℚ × ℚ) {c : FlatCurve}
    (hx : ∀ j, j ≤ c.N → R (c.x.getD j 0) = c.x.getD j 0) :
    ∀ q, q ∈ Double.polyPts R sqrt bez c → R q.1 = q.1 := by
  intro q hq
  unfold Double.polyPts ptsUpTo at hq
  rcases List.mem_cons.mp hq with rfl | hq
  · exact hx 0 (Nat.zero_le _)
  · obtain ⟨i, hi, hq⟩ := List.mem_flatMap.mp hq
    rw [List.mem_range] at hi
    unfold Double.intervalSamples Double.intervalPieces at hq
    obtain ⟨p, hp, hq⟩ := List.mem_flatMap.mp hq
    exact Double.pieceSamples_doubles hR bez _ _
      (Double.piecesOf_xs_doubles hR sqrt (hx i hi.le) (hx (i + 1) hi) p hp) q hq

theorem getD_mem {l : List ℚ} {k : Nat} (h : k < l.length) : l.getD k 0 ∈ l := by
  rw [List.getD_eq_getElem?_getD, List.getElem?_eq_getElem h]
  exact List.getElem_mem _

/-- The setting shared by the claims on valid curves in double arithmetic. -/
theorem Double.setup {R sqrt : ℚ → ℚ} (hR : RoundOK R)
    {bez : Nat → ℚ → ℚ → ℚ → ℚ → ℚ → ℚ → ℚ → ℚ × ℚ} {p : List ℚ} {ppn : Int}
    {c : FlatCurve} (hv : ValidParams p) (hdp : AllDoubles R p)
    (hc : Double.construct R sqrt bez p ppn = .ok c) :
    c.kind = FCT_MinMaxCPoints ∧ 2 ≤ c.N ∧
      (∀ j, j ≤ c.N → R (c.x.getD j 0) = c.x.getD j 0) ∧
      (∀ j, j ≤ c.N → R (c.y.getD j 0) = c.y.getD j 0) ∧
      c.x.getD c.N 0 = R (c.x.getD 0 0 + 1) ∧ c.y.getD c.N 0 = c.y.getD 0 0 ∧
      c.poly_x = (Double.polyPts R sqrt bez c).map Prod.fst ∧
      c.poly_y = (Double.polyPts R sqrt bez c).map Prod.snd ∧
      AllDoubles R c.poly_x := by
  obtain ⟨hk, -, hN, h2, hX, hY, -, -, hXN, hYN, -, hpx, hpy⟩ := Double.valid_setup hv hc
  have hL : 4 < p.length := hv.1
  have dx : ∀ j, j ≤ c.N → R (c.x.getD j 0) = c.x.getD j 0 := by
    intro j hj
    rcases lt_or_eq_of_le hj with h | h
    · rw [hX j h]
      exact hdp _ (getD_mem (by omega))
    · rw [h, hXN]
      exact hR.idem _
  have dy : ∀ j, j ≤ c.N → R (c.y.getD j 0) = c.y.getD j 0 := by
    intro j hj
    rcases lt_or_eq_of_le hj with h | h
    · rw [hY j h]
      exact hdp _ (getD_mem (by omega))
    · rw [h, hYN, hY 0 (by omega)]
      exact hdp _ (getD_mem (by omega))
  refine ⟨hk, h2, dx, dy, hXN, hYN, hpx, hpy, ?_⟩
  intro v hv'
  rw [hpx] at hv'
  obtain ⟨q, hq, rfl⟩ := List.mem_map.mp hv'
  exact Double.polyPts_doubles hR sqrt bez dx q hq

/-! ## Claims on the polyline of a valid curve, in double arithmetic -/

/-- The polyline of a valid curve, cut at control point `i`: the samples up to
`(x[i], y[i])`, then those of interval `i` and the rest. -/
theorem Double.polyPts_split {R sqrt : ℚ → ℚ}
    (bez : Nat → ℚ → ℚ → ℚ → ℚ → ℚ → ℚ → ℚ → ℚ × ℚ) {c : FlatCurve} {i : Nat}
    (hi : i < c.N) :
    ∃ A rest, Double.polyPts R sqrt bez c
        = A ++ (Double.intervalSamples R sqrt bez c
                  (Double.subCurves R sqrt c).total_length i ++ rest) ∧
      A.getLast? = some (c.x.getD i 0, c.y.getD i 0) := by
  obtain ⟨rest, e⟩ := ptsUpTo_split (fun i => c.x.getD i 0) (fun i => c.y.getD i 0)
    (Double.intervalSamples R sqrt bez c (Double.subCurves R sqrt c).total_length) hi
  refine ⟨_, rest, e, ?_⟩
  exact ptsUpTo_getLast (N := c.N)
    (fun j _ => Double.intervalSamples_last R sqrt bez c _ j) hi.le

/-- The samples of an interval are not empty. -/
theorem Double.intervalSamples_ne_nil (R sqrt : ℚ → ℚ)
    (bez : Nat → ℚ → ℚ → ℚ → ℚ → ℚ → ℚ → ℚ → ℚ × ℚ) (c : FlatCurve) (total : ℚ) (i : Nat) :
    Double.intervalSamples R sqrt bez c total i ≠ [] := by
  intro e
  have h := Double.intervalSamples_last R sqrt bez c total i
  rw [e] at h
  simp at h

/-- In double arithmetic, on a valid curve whose polyline has strictly increasing
abscissae, `getVal` at the abscissa of a control point returns its ordinate. -/
theorem Double.getVal_ctrl_point {R sqrt : ℚ → ℚ}
    {bez : Nat → ℚ → ℚ → ℚ → ℚ → ℚ → ℚ → ℚ → ℚ × ℚ} {p : List ℚ} {ppn : Int}
    {c : FlatCurve} {i : Nat} (hR : RoundOK R) (hv : ValidParams p) (hdp : AllDoubles R p)
    (hc : Double.construct R sqrt bez p ppn = .ok c)
    (hs : List.Pairwise (· < ·) c.poly_x) (hi : i < c.N) :
    Double.getVal R c (c.x.getD i 0) = .ok (c.y.getD i 0) := by
  obtain ⟨hk, -, -, hyd, -, -, hx, hy, hd⟩ := Double.setup hR hv hdp hc
  obtain ⟨A, rest, e, hA⟩ := @Double.polyPts_split R sqrt bez c i hi
  rw [e] at hx hy
  exact @Double.getVal_sample R hR c A _ (c.x.getD i 0, c.y.getD i 0) hk hx hy hA
    (fun e' => Double.intervalSamples_ne_nil R sqrt bez c _ i (List.append_eq_nil.mp e').1)
    hs hd (hyd i hi.le)

/-- C1, amended (control-point interpolation). In double arithmetic, for every valid
`FCT_MinMaxCPoints` list of doubles, whenever the polyline the constructor builds has
strictly increasing abscissae, `getVal (x[i])` returns exactly `y[i]` for every control
point `i < N`. -/
theorem control_point_interpolation (R sqrt : ℚ → ℚ)
    (bez : Nat → ℚ → ℚ → ℚ → ℚ → ℚ → ℚ → ℚ → ℚ × ℚ) (p : List ℚ) (ppn : Int)
    (c : FlatCurve) (i : Nat) (hR : RoundOK R) (hv : ValidParams p) (hdp : AllDoubles R p)
    (hc : Double.construct R sqrt bez p ppn = .ok c)
    (hs : List.Pairwise (· < ·) c.poly_x) (hi : i < c.N) :
    Double.getVal R c (c.x.getD i 0) = .ok (c.y.getD i 0) :=
  Double.getVal_ctrl_point hR hv hdp hc hs hi

/-- C3, amended (straight-segment exactness). In double arithmetic, for every valid list
of doubles, whenever the polyline the constructor builds has strictly increasing
abscissae, on every interval `i < N` whose start and end are linear `getVal t` at any `t`
with `x[i] <= t < x[i+1]` is the interpolation between `(x[i], y[i])` and
`(x[i+1], y[i+1])`, as line 314 computes it. -/
theorem straight_segment_exact (R sqrt : ℚ → ℚ)
    (bez : Nat → ℚ → ℚ → ℚ → ℚ → ℚ → ℚ → ℚ → ℚ × ℚ) (p : List ℚ) (ppn : Int)
    (c : FlatCurve) (i : Nat) (t : ℚ) (hR : RoundOK R) (hv : ValidParams p)
    (hdp : AllDoubles R p) (hc : Double.construct R sqrt bez p ppn = .ok c)
    (hs : List.Pairwise (· < ·) c.poly_x) (hi : i < c.N)
    (hstart : c.rightTangent.getD i 0 = 0 ∨ c.y.getD i 0 = c.y.getD (i + 1) 0)
    (hend : c.leftTangent.getD (i + 1) 0 = 0 ∨ c.y.getD i 0 = c.y.getD (i + 1) 0)
    (h1 : c.x.getD i 0 ≤ t) (h2 : t < c.x.getD (i + 1) 0) :
    Double.getVal R c t
      = .ok (R (c.y.getD i 0 + R (R (R (t - c.x.getD i 0)
          * R (c.y.getD (i + 1) 0 - c.y.getD i 0)) / R (c.x.getD (i + 1) 0 - c.x.getD i 0)))) := by
  obtain ⟨hk, -, -, -, -, -, hx, hy, hd⟩ := Double.setup hR hv hdp hc
  obtain ⟨A, rest, e, hA⟩ := @Double.polyPts_split R sqrt bez c i hi
  have hS : Double.intervalSamples R sqrt bez c (Double.subCurves R sqrt c).total_length i
      = [(c.x.getD (i + 1) 0, c.y.getD (i + 1) 0)] := by
    unfold Double.intervalSamples Double.intervalPieces
    rw [Double.piecesOf_line_rnd R sqrt ⟨hstart, hend⟩]
    rfl
  rw [hS] at e
  rw [e] at hx hy
  exact @Double.getVal_between R hR c A _ (c.x.getD i 0, c.y.getD i 0)
    (c.x.getD (i + 1) 0, c.y.getD (i + 1) 0) t hk hx hy hA rfl hs hd h1 h2

/-- C12, amended (the midpoint of an interval with both tangents `1/2`). In double
arithmetic, for every valid list of doubles, whenever the polyline the constructor builds
has strictly increasing abscissae, on every interval `i < N` with `rightTangent[i] = 1/2`,
`leftTangent[i+1] = 1/2` and `y[i] != y[i+1]`, `getVal` at the midpoint abscissa `xp2`
of line 140 returns exactly `yp2 = (y[i] + y[i+1]) / 2` of line 141, the value of the
straight line between the ends of the interval. -/
theorem midpoint_on_chord (R sqrt : ℚ → ℚ)
    (bez : Nat → ℚ → ℚ → ℚ → ℚ → ℚ → ℚ → ℚ → ℚ × ℚ) (p : List ℚ) (ppn : Int)
    (c : FlatCurve) (i : Nat) (hR : RoundOK R) (hv : ValidParams p)
    (hdp : AllDoubles R p) (hc : Double.construct R sqrt bez p ppn = .ok c)
    (hs : List.Pairwise (· < ·) c.poly_x) (hi : i < c.N)
    (hrt : c.rightTangent.getD i 0 = 1/2) (hlt : c.leftTangent.getD (i + 1) 0 = 1/2)
    (hy : c.y.getD i 0 ≠ c.y.getD (i + 1) 0) :
    Double.getVal R c
        (Double.handleAbscissae R (c.x.getD i 0) (c.y.getD i 0) (c.x.getD (i + 1) 0)
          (c.y.getD (i + 1) 0) (1/2) (1/2)).2.2.1
      = .ok (R (R (c.y.getD i 0 + c.y.getD (i + 1) 0) / 2)) := by
  obtain ⟨hk, -, -, -, -, -, hx, hyp, hd⟩ := Double.setup hR hv hdp hc
  obtain ⟨A, rest, e, hA⟩ := @Double.polyPts_split R sqrt bez c i hi
  have hnl : ¬((((1 : ℚ) / 2) = 0 ∨ c.y.getD i 0 = c.y.getD (i + 1) 0)
      ∧ (((1 : ℚ) / 2) = 0 ∨ c.y.getD i 0 = c.y.getD (i + 1) 0)) := by
    rintro ⟨h | h, -⟩
    · norm_num at h
    · exact hy h
  have hS : Double.intervalSamples R sqrt bez c (Double.subCurves R sqrt c).total_length i
      = Double.pieceSamples R bez c.ppn (Double.subCurves R sqrt c).total_length
          (Double.mkArc R sqrt (c.x.getD i 0) (c.y.getD i 0)
            (Double.handleAbscissae R (c.x.getD i 0) (c.y.getD i 0) (c.x.getD (i + 1) 0)
              (c.y.getD (i + 1) 0) (1/2) (1/2)).2.2.2.1 (c.y.getD i 0)
            (Double.handleAbscissae R (c.x.getD i 0) (c.y.getD i 0) (c.x.getD (i + 1) 0)
              (c.y.getD (i + 1) 0) (1/2) (1/2)).2.2.1
            (R (R (c.y.getD i 0 + c.y.getD (i + 1) 0) / 2)))
        ++ Double.pieceSamples R bez c.ppn (Double.subCurves R sqrt c).total_length
          (Double.mkArc R sqrt
            (Double.handleAbscissae R (c.x.getD i 0) (c.y.getD i 0) (c.x.getD (i + 1) 0)
              (c.y.getD (i + 1) 0) (1/2) (1/2)).2.2.1
            (R (R (c.y.getD i 0 + c.y.getD (i + 1) 0) / 2))
            (Double.handleAbscissae R (c.x.getD i 0) (c.y.getD i 0) (c.x.getD (i + 1) 0)
              (c.y.getD (i + 1) 0) (1/2) (1/2)).2.2.2.2 (c.y.getD (i + 1) 0)
            (c.x.getD (i + 1) 0) (c.y.getD (i + 1) 0)) := by
    unfold Double.intervalSamples Double.intervalPieces
    rw [hrt, hlt, Double.piecesOf_not_line R sqrt hnl,
      if_neg (by norm_num : ¬((1 : ℚ) / 2 = 0))]
    simp [List.flatMap_cons]
  rw [hS, ← List.append_assoc, ← List.append_assoc] at e
  rw [List.append_assoc _ _ rest] at e
  have hne2 : Double.pieceSamples R bez c.ppn (Double.subCurves R sqrt c).total_length
          (Double.mkArc R sqrt
            (Double.handleAbscissae R (c.x.getD i 0) (c.y.getD i 0) (c.x.getD (i + 1) 0)
              (c.y.getD (i + 1) 0) (1/2) (1/2)).2.2.1
            (R (R (c.y.getD i 0 + c.y.getD (i + 1) 0) / 2))
            (Double.handleAbscissae R (c.x.getD i 0) (c.y.getD i 0) (c.x.getD (i + 1) 0)
              (c.y.getD (i + 1) 0) (1/2) (1/2)).2.2.2.2 (c.y.getD (i + 1) 0)
            (c.x.getD (i + 1) 0) (c.y.getD (i + 1) 0)) ++ rest ≠ [] := by
    intro e'
    have h := Double.pieceSamples_getLast_rnd R bez c.ppn (Double.subCurves R sqrt c).total_length
      (Double.mkArc R sqrt
            (Double.handleAbscissae R (c.x.getD i 0) (c.y.getD i 0) (c.x.getD (i + 1) 0)
              (c.y.getD (i + 1) 0) (1/2) (1/2)).2.2.1
            (R (R (c.y.getD i 0 + c.y.getD (i + 1) 0) / 2))
            (Double.handleAbscissae R (c.x.getD i 0) (c.y.getD i 0) (c.x.getD (i + 1) 0)
              (c.y.getD (i + 1) 0) (1/2) (1/2)).2.2.2.2 (c.y.getD (i + 1) 0)
            (c.x.getD (i + 1) 0) (c.y.getD (i + 1) 0))
    rw [(List.append_eq_nil.mp e').1] at h
    simp at h
  have hl1 := Double.pieceSamples_getLast_rnd R bez c.ppn (Double.subCurves R sqrt c).total_length
    (Double.mkArc R sqrt (c.x.getD i 0) (c.y.getD i 0)
            (Double.handleAbscissae R (c.x.getD i 0) (c.y.getD i 0) (c.x.getD (i + 1) 0)
              (c.y.getD (i + 1) 0) (1/2) (1/2)).2.2.2.1 (c.y.getD i 0)
            (Double.handleAbscissae R (c.x.getD i 0) (c.y.getD i 0) (c.x.getD (i + 1) 0)
              (c.y.getD (i + 1) 0) (1/2) (1/2)).2.2.1
            (R (R (c.y.getD i 0 + c.y.getD (i + 1) 0) / 2)))
  have hne1 : Double.pieceSamples R bez c.ppn (Double.subCurves R sqrt c).total_length
    (Double.mkArc R sqrt (c.x.getD i 0) (c.y.getD i 0)
            (Double.handleAbscissae R (c.x.getD i 0) (c.y.getD i 0) (c.x.getD (i + 1) 0)
              (c.y.getD (i + 1) 0) (1/2) (1/2)).2.2.2.1 (c.y.getD i 0)
            (Double.handleAbscissae R (c.x.getD i 0) (c.y.getD i 0) (c.x.getD (i + 1) 0)
              (c.y.getD (i + 1) 0) (1/2) (1/2)).2.2.1
            (R (R (c.y.getD i 0 + c.y.getD (i + 1) 0) / 2))) ≠ [] := by
    intro e'
    rw [e'] at hl1
    simp at hl1
  have hA' := List.getLast?_append_of_ne_nil A hne1
  rw [hl1] at hA'
  rw [e] at hx hyp
  exact @Double.getVal_sample R hR c _ _
    ((Double.handleAbscissae R (c.x.getD i 0) (c.y.getD i 0) (c.x.getD (i + 1) 0)
        (c.y.getD (i + 1) 0) (1/2) (1/2)).2.2.1,
      R (R (c.y.getD i 0 + c.y.getD (i + 1) 0) / 2)) hk hx hyp hA' hne2 hs hd (hR.idem _)

/-! ## Curves whose intervals are all single lines, in double arithmetic -/

theorem Double.polyLoop_lines_ok (R : ℚ → ℚ)
    (bez : Nat → ℚ → ℚ → ℚ → ℚ → ℚ → ℚ → ℚ → ℚ × ℚ) (s : SubCurves) (ppn : Int) :
    ∀ (ps : List Piece) (i j : Nat) (poly : List ℚ × List ℚ),
      s.sc_isLinear.drop i = ps.map Piece.isLinear →
      s.sc_x.drop j = ps.flatMap Piece.xs →
      s.sc_y.drop j = ps.flatMap Piece.ys →
      (∀ p, p ∈ ps → p.isLinear = true) →
      ∃ poly', Double.polyLoop R bez s ppn ps.length i j poly = .ok poly' := by
  intro ps
  induction ps with
  | nil =>
    intro i j poly _ _ _ _
    exact ⟨poly, rfl⟩
  | cons p ps ih =>
    intro i j poly hf hx hy hn
    rw [List.map_cons] at hf
    rw [List.flatMap_cons] at hx hy
    obtain ⟨hf0, hf1⟩ := drop_eq_cons hf
    have hn' : ∀ q, q ∈ ps → q.isLinear = true := fun q hq => hn q (List.mem_cons_of_mem _ hq)
    have hn0 := hn p (List.mem_cons_self _ _)
    rw [List.length_cons, Double.polyLoop]
    cases p with
    | line xa ya xb yb len =>
      simp only [Piece.xs, Piece.ys, List.cons_append, List.nil_append] at hx hy
      obtain ⟨-, hx1⟩ := drop_eq_cons hx
      obtain ⟨hx1, hx2⟩ := drop_eq_cons hx1
      obtain ⟨-, hy1⟩ := drop_eq_cons hy
      obtain ⟨hy1, hy2⟩ := drop_eq_cons hy1
      simp only [hf0, Piece.isLinear, hx1, hy1]
      exact ih (i + 1) (j + 2) _ hf1 hx2 hy2 hn'
    | arc xa ya xb yb xc yc len =>
      simp [Piece.isLinear] at hn0

/-- On a curve whose intervals are all single lines every piece is a line. -/
theorem Double.allPieces_lines (R sqrt : ℚ → ℚ) {c : FlatCurve} (hl : c.AllLines) :
    ∀ p, p ∈ Double.allPieces R sqrt c → p.isLinear = true := by
  intro p hp
  unfold Double.allPieces at hp
  obtain ⟨i, hi, hp⟩ := List.mem_flatMap.mp hp
  rw [List.mem_range] at hi
  unfold Double.intervalPieces at hp
  rw [Double.piecesOf_line_rnd R sqrt (hl i hi), List.mem_singleton] at hp
  subst hp
  rfl

/-- In double arithmetic `CtrlPoints_set` returns on every curve with at least one interval
whose intervals are all single lines: no sample count is computed. -/
theorem Double.CtrlPoints_set_lines (R sqrt : ℚ → ℚ)
    (bez : Nat → ℚ → ℚ → ℚ → ℚ → ℚ → ℚ → ℚ → ℚ × ℚ) {c : FlatCurve} (hN : 0 < c.N)
    (hl : c.AllLines) : ∃ c', Double.CtrlPoints_set R sqrt bez c = .ok c' := by
  obtain ⟨hx, hy, hlen, hf⟩ := Double.subCurves_fields_rnd R sqrt c
  have hr : List.range c.N = 0 :: (List.range (c.N - 1)).map Nat.succ := by
    conv_lhs => rw [show c.N = (c.N - 1) + 1 by omega]
    exact List.range_succ_eq_map _
  obtain ⟨rx, ry, e1, e2⟩ :=
    Double.piecesOf_head_rnd R sqrt (c.x.getD 0 0) (c.y.getD 0 0) (c.x.getD (0 + 1) 0)
      (c.y.getD (0 + 1) 0) (c.rightTangent.getD 0 0) (c.leftTangent.getD (0 + 1) 0)
  have ha : (Double.subCurves R sqrt c).sc_x[0]? = some (c.x.getD 0 0) := by
    rw [hx, Double.allPieces, hr, List.flatMap_cons, List.flatMap_append,
      Double.intervalPieces, e1]
    simp
  have hb : (Double.subCurves R sqrt c).sc_y[0]? = some (c.y.getD 0 0) := by
    rw [hy, Double.allPieces, hr, List.flatMap_cons, List.flatMap_append,
      Double.intervalPieces, e2]
    simp
  obtain ⟨poly, hp⟩ := Double.polyLoop_lines_ok R bez (Double.subCurves R sqrt c) c.ppn
    (Double.allPieces R sqrt c) 0 0 ([c.x.getD 0 0], [c.y.getD 0 0])
    (by simp [hf]) (by simp [hx]) (by simp [hy]) (Double.allPieces_lines R sqrt hl)
  have hp' : Double.polyLoop R bez (Double.subCurves R sqrt c) c.ppn
      (Double.subCurves R sqrt c).sc_length.length 0 0 ([c.x.getD 0 0], [c.y.getD 0 0])
      = .ok poly := by
    rw [hlen, List.length_map]
    exact hp
  refine ⟨{ c with poly_x := poly.1, poly_y := poly.2 }, ?_⟩
  unfold Double.CtrlPoints_set
  simp only [ha, hb, hp']

/-- A first point followed by one point per interval, with increasing abscissae. -/
theorem pairwise_ptsUpTo_lines {X Y : Nat → ℚ} {S : Nat → List (ℚ × ℚ)} {N : Nat}
    (hS : ∀ j, j < N → S j = [(X (j + 1), Y (j + 1))])
    (hX : ∀ j, j < N → X j < X (j + 1)) :
    ∀ n, n ≤ N → List.Pairwise (· < ·) ((ptsUpTo X Y S n).map Prod.fst) ∧
      ∀ q, q ∈ ptsUpTo X Y S n → q.1 ≤ X n := by
  intro n
  induction n with
  | zero =>
    intro _
    simp [ptsUpTo]
  | succ n ih =>
    intro hn
    obtain ⟨h1, h2⟩ := ih (by omega)
    rw [ptsUpTo_succ, hS n (by omega)]
    constructor
    · rw [List.map_append, List.pairwise_append]
      refine ⟨h1, by simp, ?_⟩
      intro a ha b hb
      obtain ⟨q, hq, rfl⟩ := List.mem_map.mp ha
      simp only [List.map_cons, List.map_nil, List.mem_singleton] at hb
      subst hb
      exact lt_of_le_of_lt (h2 q hq) (hX n (by omega))
    · intro q hq
      rcases List.mem_append.mp hq with hq | hq
      · exact (h2 q hq).trans (hX n (by omega)).le
      · rw [List.mem_singleton] at hq
        subst hq
        exact le_refl _

theorem roundEven_err (s : ℚ) : |(roundEven s : ℚ) - s| ≤ 1/2 := by
  have h1 : (⌊s⌋ : ℚ) ≤ s := Int.floor_le s
  have h2 : s < ⌊s⌋ + 1 := Int.lt_floor_add_one s
  unfold roundEven
  dsimp only
  rw [abs_le]
  split_ifs with a b c <;> push_cast <;> constructor <;> linarith

/-- The rounding `binary64` moves a value by at most half a unit in the last place:
`2^(-53)` of its size, or `2^(-1075)` among the subnormals. -/
theorem binary64_err (a : ℚ) : |binary64 a - a| ≤ pow2 (-53) * |a| + pow2 (-1075) := by
  have p53 := pow2_pos (-53)
  have p1075 := pow2_pos (-1075)
  by_cases h0 : a = 0
  · subst h0
    rw [binary64_zero]
    simp only [sub_zero, abs_zero, mul_zero, zero_add]
    exact p1075.le
  unfold binary64
  rw [if_neg h0]
  have hUpos : 0 < pow2 (ulpExp a) := pow2_pos _
  have h1 := roundEven_err (a / pow2 (ulpExp a))
  have e : (roundEven (a / pow2 (ulpExp a)) : ℚ) * pow2 (ulpExp a) - a
      = ((roundEven (a / pow2 (ulpExp a)) : ℚ) - a / pow2 (ulpExp a)) * pow2 (ulpExp a) := by
    field_simp
  rw [e, abs_mul, abs_of_pos hUpos]
  have h2 : |(roundEven (a / pow2 (ulpExp a)) : ℚ) - a / pow2 (ulpExp a)| * pow2 (ulpExp a)
      ≤ pow2 (ulpExp a) / 2 := by nlinarith
  have two : pow2 1 = 2 := by rw [pow2_eq]; norm_num
  have h3 : pow2 (ulpExp a) / 2 ≤ pow2 (-53) * |a| + pow2 (-1075) := by
    have ha : 0 < |a| := abs_pos.mpr h0
    unfold ulpExp
    rcases le_total (ilog2 |a| - 52) (-1074) with h | h
    · rw [max_eq_right h, show (-1074 : Int) = 1 + (-1075) by norm_num, pow2_add, two]
      have := mul_pos p53 ha
      linarith
    · rw [max_eq_left h, show ilog2 |a| - 52 = 1 + (ilog2 |a| + (-53)) by ring, pow2_add,
        pow2_add, two]
      have := (ilog2_spec ha).1
      have := mul_le_mul_of_nonneg_right this p53.le
      linarith
  exact h2.trans h3

/-- A double not below `1/2` is a multiple of `2^(-53)`. -/
theorem double_grid_half {q : ℚ} (h : binary64 q = q) (hq : 1/2 ≤ q) :
    ∃ M : Int, q = (M : ℚ) * pow2 (-53) := by
  have hpos : 0 < q := by linarith
  have hne : q ≠ 0 := ne_of_gt hpos
  have hlog : -1 ≤ ilog2 q := by
    have h2 := (ilog2_spec hpos).2
    have e : pow2 (-1) = 1/2 := by rw [pow2_eq]; norm_num
    have : pow2 (-1) < pow2 (ilog2 q + 1) := by rw [e]; linarith
    have := pow2_lt_iff.mp this
    omega
  have he : -53 ≤ ulpExp q := by
    have := ulpExp_ge_log q
    rw [abs_of_pos hpos] at this
    omega
  refine ⟨roundEven (q / pow2 (ulpExp q)) * 2 ^ (ulpExp q + 53).toNat, ?_⟩
  have hq' : q = (roundEven (q / pow2 (ulpExp q)) : ℚ) * pow2 (ulpExp q) := by
    conv_lhs => rw [← h]
    unfold binary64
    rw [if_neg hne]
  conv_lhs => rw [hq']
  push_cast
  rw [mul_assoc]
  congr 1
  have := pow2_nonneg_int (k := ulpExp q + 53) (by omega)
  push_cast at this
  rw [← this, ← pow2_add]
  congr 1
  ring

/-- Two distinct doubles, the larger at least `1`, are at least `2^(-53)` apart, and so
is their rounded difference. -/
theorem binary64_gap {a b : ℚ} (ha : binary64 a = a) (hb : binary64 b = b) (hab : a < b)
    (h1 : 1 ≤ b) : pow2 (-53) ≤ binary64 (b - a) := by
  have e53 : binary64 (pow2 (-53)) = pow2 (-53) := by
    have := binary64_fix 1 (-53) (by norm_num) (by norm_num)
    simpa using this
  have hu : pow2 (-53) = 1 / 9007199254740992 := by rw [pow2_eq]; norm_num
  have key : pow2 (-53) ≤ b - a := by
    rcases le_or_lt a (1/2) with h | h
    · rw [hu]
      have : (1 : ℚ) / 9007199254740992 ≤ 1/2 := by norm_num
      linarith
    · obtain ⟨A, hA⟩ := double_grid_half ha h.le
      obtain ⟨B, hB⟩ := double_grid_half hb (by linarith)
      have hp := pow2_pos (-53)
      have hAB : A < B := by
        have : (A : ℚ) * pow2 (-53) < (B : ℚ) * pow2 (-53) := by rw [← hA, ← hB]; exact hab
        have := lt_of_mul_lt_mul_right this hp.le
        exact_mod_cast this
      have h1' : (A : ℚ) + 1 ≤ B := by exact_mod_cast hAB
      rw [hA, hB]
      nlinarith
  have := binary64_mono key
  rwa [e53] at this

/-- The interpolation of line 314 at the last sample of a polyline, in the arithmetic
`binary64`: with both ordinates in `[0,1]` and a denominator of at least `2^(-53)` the
value returned is within `2^(-50)` of the last ordinate. -/
theorem Double.closing_error {d ya y0 : ℚ} (hd : pow2 (-53) ≤ d) (hya : 0 ≤ ya ∧ ya ≤ 1)
    (hy0 : 0 ≤ y0 ∧ y0 ≤ 1) :
    |binary64 (ya + binary64 (binary64 (d * binary64 (y0 - ya)) / d)) - y0| ≤ pow2 (-50) := by
  have hu : pow2 (-53) = 1 / 9007199254740992 := by rw [pow2_eq]; norm_num
  have h50 : pow2 (-50) = 1 / 1125899906842624 := by rw [pow2_eq]; norm_num
  have hη : pow2 (-1075) ≤ 1 / 1298074214633706907132624082305024 := by
    have := pow2_le (show (-1075 : Int) ≤ -110 by norm_num)
    have e : pow2 (-110) = 1 / 1298074214633706907132624082305024 := by
      rw [pow2_eq]; norm_num
    rwa [e] at this
  have hη0 := pow2_pos (-1075)
  have E1 := binary64_err (y0 - ya)
  have E2 := binary64_err (d * binary64 (y0 - ya))
  have E3 := binary64_err (binary64 (d * binary64 (y0 - ya)) / d)
  have E4 := binary64_err (ya + binary64 (binary64 (d * binary64 (y0 - ya)) / d))
  rw [hu] at E1 E2 E3 E4 hd
  rw [h50]
  generalize pow2 (-1075) = η at *
  generalize binary64 (y0 - ya) = e at *
  generalize binary64 (d * e) = m at *
  generalize binary64 (m / d) = q at *
  generalize binary64 (ya + q) = v at *
  have hdpos : 0 < d := lt_of_lt_of_le (by norm_num) hd
  -- the quotient `m / d` against `e`
  have hk : η / d ≤ η * 9007199254740992 := by
    rw [div_le_iff₀ hdpos]
    have : η * 9007199254740992 * (1 / 9007199254740992) ≤ η * 9007199254740992 * d :=
      mul_le_mul_of_nonneg_left hd (by positivity)
    linarith
  have hk0 : 0 ≤ η / d := div_nonneg hη0.le hdpos.le
  have e2 : m / d - e = (m - d * e) / d := by field_simp
  have E2' : |m / d - e| ≤ 1 / 9007199254740992 * |e| + η / d := by
    rw [e2, abs_div, abs_of_pos hdpos, div_le_iff₀ hdpos]
    rw [abs_mul, abs_of_pos hdpos] at E2
    have : (1 / 9007199254740992 * |e| + η / d) * d
        = 1 / 9007199254740992 * (d * |e|) + η := by
      field_simp
      ring
    rw [this]
    exact E2
  generalize η / d = k at *
  generalize m / d = r at *
  have A1 : |y0 - ya| ≤ 1 := by rw [abs_le]; constructor <;> linarith
  have B1 := abs_le.mp E1
  have Ae : |e| ≤ 5/4 := by rw [abs_le]; constructor <;> linarith [abs_nonneg (y0 - ya)]
  have B2 := abs_le.mp E2'
  have Ar : |r| ≤ 3/2 := by rw [abs_le]; constructor <;> linarith [abs_nonneg e, abs_le.mp Ae]
  have B3 := abs_le.mp E3
  have Aq : |ya + q| ≤ 3/2 := by
    rw [abs_le]; constructor <;> linarith [abs_nonneg r, abs_nonneg e, abs_nonneg (y0 - ya)]
  have B4 := abs_le.mp E4
  rw [abs_le]
  constructor <;> linarith [abs_nonneg r, abs_nonneg e, abs_nonneg (y0 - ya), abs_nonneg (ya + q)]

/-- The polyline of a valid curve ends with the closing point `(x[N], y[N])`, after at
least one other sample. -/
theorem Double.polyPts_last {R sqrt : ℚ → ℚ}
    (bez : Nat → ℚ → ℚ → ℚ → ℚ → ℚ → ℚ → ℚ → ℚ × ℚ) {c : FlatCurve} (hN : 0 < c.N) :
    ∃ A pa, Double.polyPts R sqrt bez c = A ++ [(c.x.getD c.N 0, c.y.getD c.N 0)] ∧
      A.getLast? = some pa := by
  obtain ⟨n, hn⟩ : ∃ n, c.N = n + 1 := ⟨c.N - 1, by omega⟩
  have hl := Double.intervalSamples_last R sqrt bez c (Double.subCurves R sqrt c).total_length n
  have hne := Double.intervalSamples_ne_nil R sqrt bez c
    (Double.subCurves R sqrt c).total_length n
  have hsplit := List.dropLast_append_getLast hne
  rw [List.getLast?_eq_getLast _ hne, Option.some.injEq] at hl
  rw [hl] at hsplit
  have hA : ptsUpTo (fun i => c.x.getD i 0) (fun i => c.y.getD i 0)
      (Double.intervalSamples R sqrt bez c (Double.subCurves R sqrt c).total_length) n
        ++ (Double.intervalSamples R sqrt bez c
              (Double.subCurves R sqrt c).total_length n).dropLast ≠ [] := by
    simp [ptsUpTo]
  refine ⟨_, _, ?_, List.getLast?_eq_getLast _ hA⟩
  unfold Double.polyPts
  rw [hn, ptsUpTo_succ, List.append_assoc, hsplit]

/-- C4, amended (periodic closure). In the arithmetic `binary64`, for every valid list of
doubles, whenever the polyline the constructor builds has strictly increasing abscissae
and ordinates in `[0,1]`, `getVal (x0)` returns `y[0]` and `getVal (x0 + 1.0)` returns a
value within `2^(-50)` of it. -/
theorem periodic_closure (sqrt : ℚ → ℚ)
    (bez : Nat → ℚ → ℚ → ℚ → ℚ → ℚ → ℚ → ℚ → ℚ × ℚ) (p : List ℚ) (ppn : Int)
    (c : FlatCurve) (hv : ValidParams p) (hdp : AllDoubles binary64 p)
    (hc : Double.construct binary64 sqrt bez p ppn = .ok c)
    (hs : List.Pairwise (· < ·) c.poly_x) (hy : ∀ v, v ∈ c.poly_y → 0 ≤ v ∧ v ≤ 1) :
    Double.getVal binary64 c (c.x.getD 0 0) = .ok (c.y.getD 0 0) ∧
    ∃ v, Double.getVal binary64 c (binary64 (c.x.getD 0 0 + 1)) = .ok v ∧
      |v - c.y.getD 0 0| ≤ pow2 (-50) := by
  obtain ⟨hk, hN, hxd, -, hXN, hYN, hx, hyp, hd⟩ := Double.setup roundOK_binary64 hv hdp hc
  refine ⟨Double.getVal_ctrl_point roundOK_binary64 hv hdp hc hs (by omega), ?_⟩
  obtain ⟨A, pa, e, hA⟩ := @Double.polyPts_last binary64 sqrt bez c (by omega)
  rw [hXN, hYN] at e
  have hx' := hx
  have hyp' := hyp
  rw [e] at hx' hyp'
  have hval := @Double.getVal_last binary64 roundOK_binary64 c A pa
    (binary64 (c.x.getD 0 0 + 1), c.y.getD 0 0) hk hx' hyp' hA hs hd
  refine ⟨_, hval, ?_⟩
  have hpaA : pa ∈ A := List.mem_of_mem_getLast? hA
  have hpax : pa.1 ∈ c.poly_x := by
    rw [hx']
    exact List.mem_map.mpr ⟨pa, List.mem_append_left _ hpaA, rfl⟩
  have hpay : pa.2 ∈ c.poly_y := by
    rw [hyp']
    exact List.mem_map.mpr ⟨pa, List.mem_append_left _ hpaA, rfl⟩
  have hy0 : c.y.getD 0 0 ∈ c.poly_y := by
    rw [hyp']
    exact List.mem_map.mpr ⟨(binary64 (c.x.getD 0 0 + 1), c.y.getD 0 0),
      List.mem_append_right _ (List.mem_singleton.mpr rfl), rfl⟩
  have hlt : pa.1 < binary64 (c.x.getD 0 0 + 1) := by
    have hs' := hs
    rw [hx', List.map_append, List.pairwise_append] at hs'
    exact hs'.2.2 pa.1 (List.mem_map.mpr ⟨pa, hpaA, rfl⟩) _ (by simp)
  have h0 : 0 ≤ c.x.getD 0 0 := by
    obtain ⟨-, -, hcN, -, hX, -⟩ := Double.valid_setup hv hc
    rw [hX 0 (by omega)]
    exact (hv.2.2.2.1 0 (by omega)).1.1
  have h1 : 1 ≤ binary64 (c.x.getD 0 0 + 1) := by
    have := binary64_mono (show (1 : ℚ) ≤ c.x.getD 0 0 + 1 by linarith)
    rwa [roundOK_binary64.one] at this
  have hgap := binary64_gap (hd pa.1 hpax) (binary64_idem _) hlt h1
  exact Double.closing_error hgap (hy _ hpay) (hy _ hy0)

/-! ## The claims on the polyline at concrete curves, in the arithmetic `binary64` -/

/-- Witness of C1, amended: control point 1, `(1/4, 1)`, of the curve `arcCurve`, which has
a curved interval, in the arithmetic `binary64`. -/
theorem control_point_interpolation_witness :
    ValidParams arcParams ∧ AllDoubles binary64 arcParams ∧
      Double.construct binary64 sqrt64 Double.bezier arcParams 20 = .ok arcCurve ∧
      List.Pairwise (· < ·) arcCurve.poly_x ∧
      Double.getVal binary64 arcCurve (arcCurve.x.getD 1 0) = .ok (arcCurve.y.getD 1 0) :=
  ⟨by decide!, by decide!, by decide!, by decide!,
    control_point_interpolation binary64 sqrt64 Double.bezier arcParams 20 arcCurve 1
      roundOK_binary64 (by decide!) (by decide!) (by decide!) (by decide!) (by decide!)⟩

/-- C1 as stated fails. `tinyParams` is a valid list of doubles; its first control point is
`(0.5, 0)`, with `rightTangent[0] = 1e-30` and `leftTangent[1] = 1`. In the arithmetic
`binary64` lines 130-140 give `xp1 = xp2 = xp3 = 0.5 = x[0]`, the polyline starts with two
samples at `0.5`, and `getVal (0.5)` returns `0.5`, not `y[0] = 0`. -/
theorem control_point_interpolation_fails :
    ValidParams tinyParams ∧ AllDoubles binary64 tinyParams ∧
      Double.construct binary64 sqrt64 Double.bezier tinyParams 10 = .ok tinyCurve ∧
      tinyCurve.x.getD 0 0 = 1/2 ∧ tinyCurve.y.getD 0 0 = 0 ∧
      Double.handleAbscissae binary64 (1/2) 0 (3/4) 1 (binary64 (1/10^30)) 1
        = (1/2, 1/2, 1/2, 1/2, 1/2) ∧
      Double.getVal binary64 tinyCurve (1/2) = .ok (1/2) ∧
      Double.getVal binary64 tinyCurve (tinyCurve.x.getD 0 0)
        ≠ .ok (tinyCurve.y.getD 0 0) := by
  decide!

/-- Witness of C3, amended: the scenario of the claim in the arithmetic `binary64`, the
three points as doubles and a budget of 50: `getVal (0.1) = 0.2`, `getVal (0.4) = 0.8`,
and `getVal (0.25)`, inside interval 0, is the interpolation of line 314, which is `0.5`. -/
theorem straight_segment_exact_witness :
    ValidParams scenarioDoubles ∧ AllDoubles binary64 scenarioDoubles ∧
      Double.construct binary64 sqrt64 Double.bezier scenarioDoubles 50
        = .ok scenarioDoublesCurve ∧
      List.Pairwise (· < ·) scenarioDoublesCurve.poly_x ∧
      Double.getVal binary64 scenarioDoublesCurve (binary64 (1/10)) = .ok (binary64 (1/5)) ∧
      Double.getVal binary64 scenarioDoublesCurve (binary64 (2/5)) = .ok (binary64 (4/5)) ∧
      Double.getVal binary64 scenarioDoublesCurve (1/4) = .ok (1/2) :=
  ⟨by decide!, by decide!, by decide!, by decide!, by decide!, by decide!,
    (straight_segment_exact binary64 sqrt64 Double.bezier scenarioDoubles 50
      scenarioDoublesCurve 0 (1/4) roundOK_binary64 (by decide!) (by decide!) (by decide!)
      (by decide!) (by decide!) (by decide!) (by decide!) (by decide!) (by decide!)).trans
      (by decide!)⟩

/-- C3 as stated fails. `kinkParams` is a valid list of doubles and its interval 0, from
`(0, 0.2)` to `(0.002, 0.8)`, is a single line. In interval 1 line 137 rounds `xp3` below
`x[1]`, so the midpoint `xp2` of line 140 lies `2^(-60)` to the left of `x[1]` and the
polyline is not sorted. The query `t`, the double just below `0.002`, is inside
interval 0, where the interpolation between its ends is `0.8`; the search brackets it
between the samples `(xp2, 0.55)` and `(0.021, 0.3)`, and `getVal t` returns `0.55`. -/
theorem straight_segment_exact_fails :
    ValidParams kinkParams ∧ AllDoubles binary64 kinkParams ∧
      Double.construct binary64 sqrt64 Double.bezier kinkParams 10 = .ok kinkCurve ∧
      kinkCurve.rightTangent.getD 0 0 = 0 ∧ kinkCurve.leftTangent.getD 1 0 = 0 ∧
      binary64 (binary64 (2/1000) - pow2 (-61)) = binary64 (2/1000) - pow2 (-61) ∧
      kinkCurve.x.getD 0 0 < binary64 (2/1000) - pow2 (-61) ∧
      binary64 (2/1000) - pow2 (-61) < kinkCurve.x.getD 1 0 ∧
      search kinkCurve.poly_x (binary64 (2/1000) - pow2 (-61)) 0
        (kinkCurve.poly_x.length - 1) = .ok (2, 3) ∧
      Double.getVal binary64 kinkCurve (binary64 (2/1000) - pow2 (-61))
        = .ok (binary64 (55/100)) ∧
      binary64 (kinkCurve.y.getD 0 0 + binary64 (binary64 (binary64
          (binary64 (2/1000) - pow2 (-61) - kinkCurve.x.getD 0 0)
            * binary64 (kinkCurve.y.getD 1 0 - kinkCurve.y.getD 0 0))
          / binary64 (kinkCurve.x.getD 1 0 - kinkCurve.x.getD 0 0)))
        = binary64 (4/5) ∧
      binary64 (55/100) ≠ binary64 (4/5) := by
  decide!

/-- Witness of C4, amended: the curve `closeCurve` in the arithmetic `binary64`, with
`x[0] = 0`. -/
theorem periodic_closure_witness :
    ValidParams closeParams ∧ AllDoubles binary64 closeParams ∧
      Double.construct binary64 sqrt64 Double.bezier closeParams 10 = .ok closeCurve ∧
      List.Pairwise (· < ·) closeCurve.poly_x ∧
      (Double.getVal binary64 closeCurve (closeCurve.x.getD 0 0)
          = .ok (closeCurve.y.getD 0 0) ∧
        ∃ v, Double.getVal binary64 closeCurve (binary64 (closeCurve.x.getD 0 0 + 1)) = .ok v ∧
          |v - closeCurve.y.getD 0 0| ≤ pow2 (-50)) :=
  ⟨by decide!, by decide!, by decide!, by decide!,
    periodic_closure sqrt64 Double.bezier closeParams 10 closeCurve (by decide!) (by decide!)
      (by decide!) (by decide!) (by decide!)⟩

/-- C4 as stated fails. `closeParams` is a valid list of doubles, all its intervals are
single lines and its first control point is `(0, 0.07)`; in the arithmetic `binary64`
`getVal (0)` returns `0.07` and `getVal (0 + 1.0)` returns `0.07 - 2^(-54)`, the
interpolation of line 314 at the last sample. And `tinyEndParams` is a valid list of
doubles with first control point `(0, 0)` whose closing interval has
`rightTangent[1] = 1` and `leftTangent[0] = 1e-30`: its last two samples share `x = 1`,
`getVal (0)` returns `0` and `getVal (0 + 1.0)` divides by `poly_x[4] - poly_x[3] = 0`. -/
theorem periodic_closure_fails :
    (ValidParams closeParams ∧ AllDoubles binary64 closeParams ∧
      Double.construct binary64 sqrt64 Double.bezier closeParams 10 = .ok closeCurve ∧
      closeCurve.x.getD 0 0 = 0 ∧
      Double.getVal binary64 closeCurve 0 = .ok (binary64 (7/100)) ∧
      Double.getVal binary64 closeCurve (binary64 (0 + 1))
        = .ok (binary64 (7/100) - pow2 (-54)) ∧
      Double.getVal binary64 closeCurve (closeCurve.x.getD 0 0)
        ≠ Double.getVal binary64 closeCurve (binary64 (closeCurve.x.getD 0 0 + 1))) ∧
    (ValidParams tinyEndParams ∧ AllDoubles binary64 tinyEndParams ∧
      Double.construct binary64 sqrt64 Double.bezier tinyEndParams 10 = .ok tinyEndCurve ∧
      tinyEndCurve.x.getD 0 0 = 0 ∧
      Double.getVal binary64 tinyEndCurve 0 = .ok 0 ∧
      Double.getVal binary64 tinyEndCurve (binary64 (0 + 1)) = .error .notFinite ∧
      Double.getVal binary64 tinyEndCurve (tinyEndCurve.x.getD 0 0)
        ≠ Double.getVal binary64 tinyEndCurve
            (binary64 (tinyEndCurve.x.getD 0 0 + 1))) := by
  decide!

/-- Witness of C12, amended: interval 0 of the curve `wobbleCurve`, from `(0.1, 0.2)` to
`(0.7, 0.9)` with both tangents `0.5`, in the arithmetic `binary64`: line 140 gives
`xp2 = 0.4`, and `getVal (0.4)` returns `0.55`. -/
theorem midpoint_on_chord_witness :
    ValidParams wobbleParams ∧ AllDoubles binary64 wobbleParams ∧
      Double.construct binary64 sqrt64 Double.bezier wobbleParams 0 = .ok wobbleCurve ∧
      List.Pairwise (· < ·) wobbleCurve.poly_x ∧
      (Double.handleAbscissae binary64 (wobbleCurve.x.getD 0 0) (wobbleCurve.y.getD 0 0)
          (wobbleCurve.x.getD (0 + 1) 0) (wobbleCurve.y.getD (0 + 1) 0) (1/2) (1/2)).2.2.1
        = binary64 (2/5) ∧
      binary64 (binary64 (wobbleCurve.y.getD 0 0 + wobbleCurve.y.getD (0 + 1) 0) / 2)
        = binary64 (55/100) ∧
      Double.getVal binary64 wobbleCurve
          (Double.handleAbscissae binary64 (wobbleCurve.x.getD 0 0) (wobbleCurve.y.getD 0 0)
            (wobbleCurve.x.getD (0 + 1) 0) (wobbleCurve.y.getD (0 + 1) 0) (1/2) (1/2)).2.2.1
        = .ok (binary64 (binary64 (wobbleCurve.y.getD 0 0 + wobbleCurve.y.getD (0 + 1) 0)
            / 2)) :=
  ⟨by decide!, by decide!, by decide!, by decide!, by decide!, by decide!,
    midpoint_on_chord binary64 sqrt64 Double.bezier wobbleParams 0 wobbleCurve 0
      roundOK_binary64 (by decide!) (by decide!) (by decide!) (by decide!) (by decide!)
      (by decide!) (by decide!) (by decide!)⟩

/-- C12 as stated fails. `halfParams` is a valid list of doubles; its interval 0 runs from
`(0,0)` to `(1/4,1)` with `rightTangent[0] = leftTangent[1] = 1/2`; the midpoint abscissa
is `(0 + 1/4) / 2 = 1/8`, the straight line between the ends has the value
`(0 + 1) / 2 = 1/2` there, and in the arithmetic `binary64` `getVal (1/8)` returns `1/2`
too, with a budget of 20 and with a budget of 0. -/
theorem observable_curvature_fails :
    ValidParams halfParams ∧ AllDoubles binary64 halfParams ∧
      Double.construct binary64 sqrt64 Double.bezier halfParams 20 = .ok halfCurve ∧
      halfCurve.rightTangent.getD 0 0 = 1/2 ∧ halfCurve.leftTangent.getD 1 0 = 1/2 ∧
      halfCurve.y.getD 0 0 ≠ halfCurve.y.getD 1 0 ∧
      binary64 (binary64 (halfCurve.x.getD 0 0 + halfCurve.x.getD 1 0) / 2) = 1/8 ∧
      binary64 (binary64 (halfCurve.y.getD 0 0 + halfCurve.y.getD 1 0) / 2) = 1/2 ∧
      Double.getVal binary64 halfCurve (1/8) = .ok (1/2) ∧
      Double.construct binary64 sqrt64 Double.bezier halfParams 0 = .ok halfCurveZero ∧
      Double.getVal binary64 halfCurveZero (1/8) = .ok (1/2) := by
  decide!

end rtengine
